import Mathlib

/-!
Verification of the bsearch library (binary search on byte-ordered,
newline-terminated text datasets) against its specification.

The Go sources are shallowly embedded: byte strings become `List Nat`
(one `Nat` per byte), file offsets become `Nat`/`Int` exactly as the Go
code uses non-negative counters or `-1` sentinels, and every fallible or
panicking code path is made explicit in a result type.  The main embedded
functions are:

  * `bytesCompare`   — Go `bytes.Compare` (bytewise lexicographic compare)
  * `prefixCompare`  — `prefixCompare` from `searcher.go`
  * `getNBytesFrom`, `scanLinesWithKey`, `scanIndexedLines`, `linesN`
                     — the query path of `searcher.go`
  * `blockEntryLE`, `blockEntryLT` — the index binary searches (`index.go` v4)
  * `generateLineIndex` — the block scanner / indexer (`index.go` v4)

Go slice expressions `s[:n]` panic when `n` exceeds the slice capacity;
in the model such accesses are represented by an explicit out-of-range
result (`Option.none` or a dedicated `oob` constructor), never silently
clamped.
-/

/-- Go `bytes.Compare`: bytewise lexicographic comparison returning
-1, 0 or +1. -/
def bytesCompare : List Nat → List Nat → Int
  | [], [] => 0
  | [], _ :: _ => -1
  | _ :: _, [] => 1
  | a :: as, b :: bs =>
    if a < b then -1
    else if b < a then 1
    else bytesCompare as bs

theorem bytesCompare_trichotomy (a b : List Nat) :
    bytesCompare a b = -1 ∨ bytesCompare a b = 0 ∨ bytesCompare a b = 1 := by
  induction a generalizing b with
  | nil => cases b <;> simp [bytesCompare]
  | cons x as ih =>
    cases b with
    | nil => simp [bytesCompare]
    | cons y bs =>
      by_cases h1 : x < y
      · simp [bytesCompare, h1]
      · by_cases h2 : y < x
        · simp [bytesCompare, h1, h2]
        · simpa [bytesCompare, h1, h2] using ih bs

theorem bytesCompare_self (a : List Nat) : bytesCompare a a = 0 := by
  induction a with
  | nil => rfl
  | cons x as ih => simp [bytesCompare, ih]

theorem bytesCompare_eq_zero_iff {a b : List Nat} :
    bytesCompare a b = 0 ↔ a = b := by
  constructor
  · intro h
    induction a generalizing b with
    | nil => cases b with
      | nil => rfl
      | cons y bs => simp [bytesCompare] at h
    | cons x as ih =>
      cases b with
      | nil => simp [bytesCompare] at h
      | cons y bs =>
        by_cases h1 : x < y
        · simp [bytesCompare, h1] at h
        · by_cases h2 : y < x
          · simp [bytesCompare, h1, h2] at h
          · have hxy : x = y := Nat.le_antisymm (Nat.not_lt.mp h2) (Nat.not_lt.mp h1)
            have := ih (b := bs) (by simpa [bytesCompare, h1, h2] using h)
            simp [hxy, this]
  · rintro rfl; exact bytesCompare_self a

/-- Flip of arguments negates the comparison result. -/
theorem bytesCompare_swap (a b : List Nat) :
    bytesCompare b a = -bytesCompare a b := by
  induction a generalizing b with
  | nil => cases b <;> simp [bytesCompare]
  | cons x as ih =>
    cases b with
    | nil => simp [bytesCompare]
    | cons y bs =>
      by_cases h1 : x < y
      · have h2 : ¬ y < x := Nat.lt_asymm h1
        simp [bytesCompare, h1, h2]
      · by_cases h2 : y < x
        · simp [bytesCompare, h1, h2]
        · simpa [bytesCompare, h1, h2] using ih bs

/-- Transitivity for the strict order induced by `bytesCompare`. -/
theorem bytesCompare_lt_trans {a b c : List Nat}
    (hab : bytesCompare a b = -1) (hbc : bytesCompare b c = -1) :
    bytesCompare a c = -1 := by
  induction a generalizing b c with
  | nil =>
    cases c with
    | nil =>
      cases b with
      | nil => simp [bytesCompare] at hab
      | cons y bs => simp [bytesCompare] at hbc
    | cons z cs => simp [bytesCompare]
  | cons x as ih =>
    cases b with
    | nil => simp [bytesCompare] at hab
    | cons y bs =>
      cases c with
      | nil => simp [bytesCompare] at hbc
      | cons z cs =>
        by_cases hxy : x < y
        · by_cases hyz : y < z
          · simp [bytesCompare, Nat.lt_trans hxy hyz]
          · by_cases hzy : z < y
            · simp [bytesCompare, hyz, hzy] at hbc
            · have : y = z := Nat.le_antisymm (Nat.not_lt.mp hzy) (Nat.not_lt.mp hyz)
              subst this
              simp [bytesCompare, hxy]
        · by_cases hyx : y < x
          · simp [bytesCompare, hxy, hyx] at hab
          · have hxey : x = y := Nat.le_antisymm (Nat.not_lt.mp hyx) (Nat.not_lt.mp hxy)
            subst hxey
            by_cases hyz : x < z
            · simp [bytesCompare, hyz]
            · by_cases hzy : z < x
              · simp [bytesCompare, hyz, hzy] at hbc
              · have : x = z := Nat.le_antisymm (Nat.not_lt.mp hzy) (Nat.not_lt.mp hyz)
                subst this
                have h1 : bytesCompare as bs = -1 := by
                  simpa [bytesCompare, hxy, hyx] using hab
                have h2 : bytesCompare bs cs = -1 := by
                  simpa [bytesCompare, hyz, hzy] using hbc
                simpa [bytesCompare, hxy, hyx] using ih h1 h2

theorem bytesCompare_le_of_le_le {a b c : List Nat}
    (hab : bytesCompare a b ≤ 0) (hbc : bytesCompare b c ≤ 0) :
    bytesCompare a c ≤ 0 := by
  rcases bytesCompare_trichotomy a b with h1 | h1 | h1
  · rcases bytesCompare_trichotomy b c with h2 | h2 | h2
    · simp [bytesCompare_lt_trans h1 h2]
    · rw [bytesCompare_eq_zero_iff] at h2; subst h2; simp [h1]
    · simp [h2] at hbc
  · rw [bytesCompare_eq_zero_iff] at h1; subst h1; exact hbc
  · simp [h1] at hab

theorem bytesCompare_lt_of_le_lt {a b c : List Nat}
    (hab : bytesCompare a b ≤ 0) (hbc : bytesCompare b c = -1) :
    bytesCompare a c = -1 := by
  rcases bytesCompare_trichotomy a b with h1 | h1 | h1
  · exact bytesCompare_lt_trans h1 hbc
  · rw [bytesCompare_eq_zero_iff] at h1; subst h1; exact hbc
  · simp [h1] at hab

theorem bytesCompare_lt_of_lt_le {a b c : List Nat}
    (hab : bytesCompare a b = -1) (hbc : bytesCompare b c ≤ 0) :
    bytesCompare a c = -1 := by
  rcases bytesCompare_trichotomy b c with h2 | h2 | h2
  · exact bytesCompare_lt_trans hab h2
  · rw [bytesCompare_eq_zero_iff] at h2; subst h2; exact hab
  · simp [h2] at hbc

theorem bytesCompare_le_iff_not_gt {a b : List Nat} :
    bytesCompare a b ≤ 0 ↔ bytesCompare a b ≠ 1 := by
  rcases bytesCompare_trichotomy a b with h | h | h <;> simp [h]

/-- The comparator `prefixCompare` from `searcher.go`: compares the
initial bytes of `bufa` against `b`, up to `len(b)` only; a strictly
shorter `bufa` that matches is reported as less-than, never equal. -/
def prefixCompare (bufa b : List Nat) : Int :=
  if bufa.length < b.length then
    let cmp := bytesCompare bufa (b.take bufa.length)
    if cmp = 0 then -1 else cmp
  else
    bytesCompare (bufa.take b.length) b

/-- Claim C4: the prefix comparator returns a value in `{-1, 0, +1}`;
for `|A| < |B|` it compares `A` against only the first `|A|` bytes of
`B` and returns `-1` when those bytes are equal (a strictly shorter `A`
is never reported equal); for `|A| ≥ |B|` it returns the bytewise
comparison of the first `|B|` bytes of `A` against `B`. -/
theorem prefixCompare_spec (A B : List Nat) :
    (prefixCompare A B = -1 ∨ prefixCompare A B = 0 ∨ prefixCompare A B = 1)
    ∧ (A.length < B.length →
        prefixCompare A B ≠ 0
        ∧ (bytesCompare A (B.take A.length) = 0 → prefixCompare A B = -1)
        ∧ (bytesCompare A (B.take A.length) ≠ 0 →
            prefixCompare A B = bytesCompare A (B.take A.length)))
    ∧ (B.length ≤ A.length →
        prefixCompare A B = bytesCompare (A.take B.length) B) := by
  refine ⟨?_, ?_, ?_⟩
  · by_cases h : A.length < B.length
    · rcases bytesCompare_trichotomy A (B.take A.length) with hc | hc | hc <;>
        simp [prefixCompare, h, hc]
    · rcases bytesCompare_trichotomy (A.take B.length) B with hc | hc | hc <;>
        simp [prefixCompare, h, hc]
  · intro h
    refine ⟨?_, ?_, ?_⟩
    · rcases bytesCompare_trichotomy A (B.take A.length) with hc | hc | hc <;>
        simp [prefixCompare, h, hc]
    · intro hc; simp [prefixCompare, h, hc]
    · intro hc; simp [prefixCompare, h, hc]
  · intro h
    simp [prefixCompare, Nat.not_lt.mpr h]

/-- Witness for C4: the conditional clauses of `prefixCompare_spec` are
realizable; a shorter matching prefix yields `-1` and the long-side
branch agrees with the truncated bytewise compare. -/
theorem prefixCompare_spec_witness :
    prefixCompare [104, 105] [104, 105, 44] = -1
    ∧ prefixCompare [104, 105, 44] [104, 105] = 0 := by
  constructor
  · exact ((prefixCompare_spec [104, 105] [104, 105, 44]).2.1 (by decide)).2.1 (by decide)
  · rw [(prefixCompare_spec [104, 105, 44] [104, 105]).2.2 (by decide)]
    decide

/-- Go `bytes.IndexByte`: index of the first occurrence of byte `c` in
`l`, or `none` (Go: `-1`). -/
def indexByte : List Nat → Nat → Option Nat
  | [], _ => none
  | b :: bs, c => if b = c then some 0 else (indexByte bs c).map (· + 1)

theorem indexByte_some_bound {l : List Nat} {c i : Nat}
    (h : indexByte l c = some i) : i < l.length ∧ l.getD i 0 = c := by
  induction l generalizing i with
  | nil => simp [indexByte] at h
  | cons b bs ih =>
    by_cases hb : b = c
    · simp [indexByte, hb] at h
      subst h
      simp [hb]
    · simp [indexByte, hb] at h
      obtain ⟨j, hj, rfl⟩ := h
      obtain ⟨h1, h2⟩ := ih hj
      exact ⟨by simpa using h1, by simpa using h2⟩

/-- Go `bytes.Index`: index of the first occurrence of the byte sequence
`sep` in `s`, or `none` (Go: `-1`).  As in Go, an empty `sep` matches at
index 0. -/
def bytesIndex : List Nat → List Nat → Option Nat
  | [], sep => if sep.isPrefixOf ([] : List Nat) then some 0 else none
  | b :: rest, sep =>
    if sep.isPrefixOf (b :: rest) then some 0
    else (bytesIndex rest sep).map (· + 1)

theorem bytesIndex_eq_some_iff {s sep : List Nat} {i : Nat} :
    bytesIndex s sep = some i ↔
      (sep <+: s.drop i ∧ ∀ j, j < i → ¬ sep <+: s.drop j) := by
  induction s generalizing i with
  | nil =>
    by_cases hp : sep.isPrefixOf ([] : List Nat)
    · rw [List.isPrefixOf_iff_prefix] at hp
      constructor
      · intro h
        simp [bytesIndex, List.isPrefixOf_iff_prefix, hp] at h
        subst h
        exact ⟨by simpa using hp, by omega⟩
      · intro ⟨h1, h2⟩
        rcases Nat.eq_zero_or_pos i with rfl | hpos
        · simp [bytesIndex, List.isPrefixOf_iff_prefix, hp]
        · exact absurd (by simpa using hp) (h2 0 hpos)
    · rw [List.isPrefixOf_iff_prefix] at hp
      constructor
      · intro h
        simp [bytesIndex, List.isPrefixOf_iff_prefix, hp] at h
      · intro ⟨h1, _⟩
        simp at h1
        exact absurd (by simpa using h1) hp
  | cons b rest ih =>
    by_cases hp : sep.isPrefixOf (b :: rest)
    · rw [List.isPrefixOf_iff_prefix] at hp
      constructor
      · intro h
        simp [bytesIndex, List.isPrefixOf_iff_prefix, hp] at h
        subst h
        exact ⟨by simpa using hp, by omega⟩
      · intro ⟨h1, h2⟩
        rcases Nat.eq_zero_or_pos i with rfl | hpos
        · simp [bytesIndex, List.isPrefixOf_iff_prefix, hp]
        · exact absurd (by simpa using hp) (h2 0 hpos)
    · have hp' : ¬ sep <+: (b :: rest) := fun hc =>
        hp (List.isPrefixOf_iff_prefix.mpr hc)
      constructor
      · intro h
        simp only [bytesIndex, if_neg hp, Option.map_eq_some'] at h
        obtain ⟨j, hj, rfl⟩ := h
        obtain ⟨h1, h2⟩ := ih.mp hj
        refine ⟨by simpa using h1, ?_⟩
        intro m hm
        cases m with
        | zero => simpa using hp'
        | succ m' =>
          have : m' < j := by omega
          simpa using h2 m' this
      · intro ⟨h1, h2⟩
        cases i with
        | zero => exact absurd (by simpa using h1) hp'
        | succ i' =>
          have hrec : bytesIndex rest sep = some i' := by
            refine ih.mpr ⟨by simpa using h1, ?_⟩
            intro j hj
            have := h2 (j + 1) (by omega)
            simpa using this
          simp [bytesIndex, List.isPrefixOf_iff_prefix, hp', hrec]

/-- The lines of a buffer, as probed by the scanners: maximal
newline-free segments; a trailing newline does not produce an extra
empty line (matching the offsets actually visited by the Go loops). -/
def linesOf : List Nat → List (List Nat)
  | [] => []
  | b :: bs =>
    match indexByte (b :: bs) 10 with
    | none => [b :: bs]
    | some i => (b :: bs).take i :: linesOf ((b :: bs).drop (i + 1))
termination_by buf => buf.length
decreasing_by
  simp only [List.length_drop, List.length_cons]
  omega

/-- The key field of a line: the bytes before the first occurrence of
the delimiter, or the whole line if the delimiter does not occur
(Go `bytes.SplitN(line, delim, 2)[0]`). -/
def keyOf (line delim : List Nat) : List Nat :=
  match bytesIndex line delim with
  | some i => line.take i
  | none => line

/-- Go `getNBytesFrom` from `searcher.go`: take the first `length` bytes
of `buf`, truncated at the delimiter if one occurs.  The Go code slices
`buf[:length]` without a bounds check; when `length` exceeds the
remaining bytes (the mmap slice has capacity equal to its length) this
is a slice-bounds panic, modelled as `none`. -/
def getNBytesFrom (buf : List Nat) (length : Nat) (delim : List Nat) :
    Option (List Nat) :=
  if buf.length < length then none
  else
    match bytesIndex (buf.take length) delim with
    | some d => some ((buf.take length).take d)
    | none => some (buf.take length)

/-- Outcome of the skip loop of `scanLinesWithKey`. -/
inductive SkipResult
  | oob
  | stop
  | found (rest : List Nat)
deriving DecidableEq

/-- The first loop of `scanLinesWithKey` (`searcher.go`): skip lines
whose probed key is `< key`; stop at the first line-start whose probed
key compares `≥ key` (`found`), at the end of the buffer, or on a
missing newline (`stop`). -/
def scanSkip (key delim : List Nat) : List Nat → SkipResult
  | [] => .found []
  | b :: bs =>
    match getNBytesFrom (b :: bs) key.length delim with
    | none => .oob
    | some k =>
      if bytesCompare k key > -1 then .found (b :: bs)
      else
        match indexByte (b :: bs) 10 with
        | none => .stop
        | some nl => scanSkip key delim ((b :: bs).drop (nl + 1))
termination_by buf => buf.length
decreasing_by
  simp only [List.length_drop, List.length_cons]
  omega

/-- The second loop of `scanLinesWithKey` (`searcher.go`): collect
consecutive lines that begin with `keyde` (= key ++ delimiter), up to
`n` lines when `n > 0`. -/
def scanCollect (keyde : List Nat) (n : Nat) :
    List Nat → List (List Nat) → List (List Nat)
  | buf, lines =>
    if h : buf ≠ [] ∧ keyde.isPrefixOf buf then
      match indexByte buf 10 with
      | none => lines ++ [buf]
      | some nl =>
        if 0 < n ∧ n ≤ (lines ++ [buf.take nl]).length then lines ++ [buf.take nl]
        else scanCollect keyde n (buf.drop (nl + 1)) (lines ++ [buf.take nl])
    else lines
termination_by buf => buf.length
decreasing_by
  simp only [List.length_drop]
  have : buf ≠ [] := h.1
  cases buf with
  | nil => simp at this
  | cons x xs => simp; omega

/-- Go `scanLinesWithKey` from `searcher.go`: returns at most `n`
(`n = 0`: all) lines of `buf` beginning with `key ++ delim`; `none`
models the slice-bounds panic of `getNBytesFrom`. -/
def scanLinesWithKey (buf key delim : List Nat) (n : Nat) :
    Option (List (List Nat)) :=
  match scanSkip key delim buf with
  | .oob => none
  | .stop => some []
  | .found rest => some (scanCollect (key ++ delim) n rest [])

/-- One entry of the bsearch index: the key of the first complete line
of a block and its byte offset (Go `IndexEntry`). -/
structure IndexEntry where
  key : List Nat
  offset : Int
deriving DecidableEq

instance : Inhabited IndexEntry := ⟨⟨[], 0⟩⟩

/-- The bsearch index header and entry list (Go `Index`, index format
version 4).  Strings are byte lists; `length` is the Go `int` field. -/
structure Index where
  blocksize : Nat
  delimiter : List Nat
  epoch : Int
  filepath : List Nat
  filename : List Nat
  header : Bool
  keysIndexFirst : Bool
  keysUnique : Bool
  length : Int
  list : List IndexEntry
  version : Int
  headerFields : List (List Nat)
deriving DecidableEq

/-- Midpoint computation of the index binary searches: `(e-b)/2 + b`,
bumped by one when it equals `b`. -/
def bleMid (b e : Nat) : Nat :=
  if (e - b) / 2 + b = b then (e - b) / 2 + b + 1 else (e - b) / 2 + b

theorem bleMid_gt {b e : Nat} : b < bleMid b e := by
  unfold bleMid
  by_cases h : (e - b) / 2 + b = b <;> simp [h] <;> omega

theorem bleMid_le {b e : Nat} (h : 0 < e - b) : bleMid b e ≤ e := by
  have hd : (e - b) / 2 ≤ e - b := Nat.div_le_self _ _
  unfold bleMid
  by_cases hc : (e - b) / 2 + b = b <;> simp [hc] <;> omega

theorem bleMid_eq_end {b e : Nat} (h : 0 < e - b) (he : e = bleMid b e) :
    e = b + 1 := by
  unfold bleMid at he
  by_cases hc : (e - b) / 2 + b = b
  · simp [hc] at he; omega
  · simp [hc] at he
    have : (e - b) / 2 < e - b := Nat.div_lt_self h (by omega)
    omega

/-- The binary-search loop of `Index.blockEntryLE` (`index.go` v4). -/
def bleLoop (list : List IndexEntry) (key : List Nat) (b e : Nat) : Nat :=
  if h : 0 < e - b then
    if bytesCompare (list.getD (bleMid b e) default).key key ≤ 0 then
      bleLoop list key (bleMid b e) e
    else if e = bleMid b e then b
    else bleLoop list key b (bleMid b e)
  else b
termination_by e - b
decreasing_by
  all_goals
    have h1 := @bleMid_gt b e
    have h2 := bleMid_le h
    omega

/-- Result of `Index.blockEntryLE`: `oob` models the Go index-out-of-range
panic on an empty entry list. -/
inductive BlockEntryResult
  | oob
  | notFound
  | found (i : Nat) (e : IndexEntry)
deriving DecidableEq

/-- Go `Index.blockEntryLE`: binary search for the last entry with key
less-than-or-equal-to `key`; `notFound` when the first entry key is
greater than `key`. -/
def blockEntryLE (idx : Index) (key : List Nat) : BlockEntryResult :=
  match idx.list with
  | [] => .oob
  | e0 :: _ =>
    if bytesCompare e0.key key = 1 then .notFound
    else
      let b := bleLoop idx.list key 0 (idx.list.length - 1)
      .found b (idx.list.getD b default)

/-- The binary-search loop of `Index.blockEntryLT` (`index.go` v4),
which compares entries with `prefixCompare` and moves `begin` only on a
strict `-1`. -/
def bltLoop (list : List IndexEntry) (key : List Nat) (b e : Nat) : Nat :=
  if h : 0 < e - b then
    if prefixCompare (list.getD (bleMid b e) default).key key = -1 then
      bltLoop list key (bleMid b e) e
    else if e = bleMid b e then b
    else bltLoop list key b (bleMid b e)
  else b
termination_by e - b
decreasing_by
  all_goals
    have h1 := @bleMid_gt b e
    have h2 := bleMid_le h
    omega

/-- Go `Index.blockEntryLT`: returns the last entry with key
prefix-comparing less than `key` (or the first entry when no such entry
exists); `none` models the Go panic on an empty list. -/
def blockEntryLT (idx : Index) (key : List Nat) : Option (Nat × IndexEntry) :=
  match idx.list with
  | [] => none
  | _ :: _ =>
    let b := bltLoop idx.list key 0 (idx.list.length - 1)
    some (b, idx.list.getD b default)

/-- The Go `Searcher`: the mmapped dataset, the loaded index (`none`
models a nil `*Index`), and the `matchLE` option flag. -/
structure Searcher where
  mmap : List Nat
  index : Option Index
  matchLE : Bool
deriving DecidableEq

/-- Result of a query: `oob` models a Go runtime panic (slice bounds /
nil dereference), `buildErr` an index-build failure inside `LinesN`. -/
inductive QueryResult
  | oob
  | notFound
  | buildErr
  | ok (lines : List (List Nat))
deriving DecidableEq

/-- The Go slice expression `s.mmap[entry.Offset:]`; `none` models the
slice-bounds panic for offsets outside `[0, len]`. -/
def mmapFrom (mmap : List Nat) (off : Int) : Option (List Nat) :=
  if 0 ≤ off ∧ off ≤ (mmap.length : Int) then some (mmap.drop off.toNat)
  else none

/-- Go `Searcher.scanIndexedLines` (`searcher.go`): resolve the starting
entry via `blockEntryLE` (or `blockEntryLT` when the index is not
first-occurrence anchored), scan from its offset, and return `notFound`
on an empty result. -/
def scanIndexedLines (mmap : List Nat) (idx : Index) (key : List Nat) (n : Nat) :
    QueryResult :=
  match (if idx.keysIndexFirst then blockEntryLE idx key
         else
           match blockEntryLT idx key with
           | none => BlockEntryResult.oob
           | some (i, e) => BlockEntryResult.found i e) with
  | .oob => .oob
  | .notFound => .notFound
  | .found _ entry =>
    match mmapFrom mmap entry.offset with
    | none => .oob
    | some buf =>
      match scanLinesWithKey buf key idx.delimiter n with
      | none => .oob
      | some [] => .notFound
      | some lines => .ok lines

/-- Go `Searcher.LinesN` with the index already loaded: clamp `n` to 1
when keys are unique and the caller passed 0, then scan. -/
def linesNGiven (mmap : List Nat) (idx : Index) (key : List Nat) (n : Nat) :
    QueryResult :=
  scanIndexedLines mmap idx key (if n = 0 ∧ idx.keysUnique then 1 else n)

/-- Go `Searcher.LinesN` (`searcher.go`), state-passing: `rebuild`
abstracts `NewIndex(s.filepath)` (the only effect of the call is the
possible assignment `s.Index = index`).  Go reads `s.Index.KeysUnique`
before its nil-index check, so a nil index with `n = 0` is a nil
dereference (`oob`).  `Line(key)` is `LinesN(key, 1)` and `Lines(key)`
is `LinesN(key, 0)`. -/
def linesN (rebuild : List Nat → Option Index) (s : Searcher)
    (key : List Nat) (n : Nat) : Searcher × QueryResult :=
  match s.index with
  | none =>
    if n = 0 then (s, .oob)
    else
      match rebuild s.mmap with
      | none => (s, .buildErr)
      | some idx => ({ s with index := some idx }, scanIndexedLines s.mmap idx key n)
  | some idx => (s, linesNGiven s.mmap idx key n)

theorem bleLoop_invariant (list : List IndexEntry) (key : List Nat) :
    ∀ n b e, e - b = n → b ≤ e → e ≤ list.length - 1 →
    bytesCompare (list.getD b default).key key ≤ 0 →
    (e = list.length - 1 ∨ bytesCompare (list.getD e default).key key = 1) →
    b ≤ bleLoop list key b e ∧ bleLoop list key b e ≤ e ∧
    bytesCompare (list.getD (bleLoop list key b e) default).key key ≤ 0 ∧
    (bleLoop list key b e = list.length - 1 ∨
      bytesCompare (list.getD (bleLoop list key b e + 1) default).key key = 1) := by
  intro n
  induction n using Nat.strong_induction_on with
  | _ n ih =>
    intro b e hn hbe hlen hb he
    rw [bleLoop]
    by_cases hd : 0 < e - b
    · rw [dif_pos hd]
      have hm1 : b < bleMid b e := bleMid_gt
      have hm2 : bleMid b e ≤ e := bleMid_le hd
      by_cases hc : bytesCompare (list.getD (bleMid b e) default).key key ≤ 0
      · rw [if_pos hc]
        have hrec := ih (e - bleMid b e) (by omega) (bleMid b e) e rfl hm2 hlen hc he
        exact ⟨by omega, hrec.2.1, hrec.2.2.1, hrec.2.2.2⟩
      · rw [if_neg hc]
        have hc1 : bytesCompare (list.getD (bleMid b e) default).key key = 1 := by
          rcases bytesCompare_trichotomy (list.getD (bleMid b e) default).key key
            with h | h | h
          · exact absurd (by rw [h]; norm_num) hc
          · exact absurd (by rw [h]) hc
          · exact h
        by_cases hem : e = bleMid b e
        · rw [if_pos hem]
          refine ⟨le_refl b, hbe, hb, Or.inr ?_⟩
          have hb1 : e = b + 1 := bleMid_eq_end hd hem
          have hmb : bleMid b e = b + 1 := by omega
          rw [hmb] at hc1
          exact hc1
        · rw [if_neg hem]
          have hrec := ih (bleMid b e - b) (by omega) b (bleMid b e) rfl (by omega)
            (by omega) hb (Or.inr hc1)
          exact ⟨hrec.1, le_trans hrec.2.1 hm2, hrec.2.2.1, hrec.2.2.2⟩
    · rw [dif_neg hd]
      have hbeq : b = e := by omega
      rcases he with he | he
      · exact ⟨le_refl b, hbe, hb, Or.inl (hbeq ▸ he)⟩
      · rw [← hbeq] at he
        rw [he] at hb
        norm_num at hb
/-- Claim C3: for every index with a non-empty, key-sorted entry list
and every probe key, `blockEntryLE(key)` returns a pair `(i, list[i])`
such that `list[i].key ≤ key` and either `i = length - 1` or
`list[i+1].key > key`; it fails with `NotFound` exactly when
`list[0].key > key`. -/
theorem blockEntryLE_unfold (idx : Index) (key : List Nat) :
    blockEntryLE idx key =
      (match idx.list with
       | [] => BlockEntryResult.oob
       | e0 :: _ =>
         if bytesCompare e0.key key = 1 then BlockEntryResult.notFound
         else BlockEntryResult.found (bleLoop idx.list key 0 (idx.list.length - 1))
           (idx.list.getD (bleLoop idx.list key 0 (idx.list.length - 1)) default)) :=
  rfl

theorem blockEntryLE_spec (idx : Index) (key : List Nat)
    (hne : idx.list ≠ [])
    (hsorted : List.Chain' (fun a b => bytesCompare a.key b.key ≤ 0) idx.list) :
    (blockEntryLE idx key = .notFound ↔
      bytesCompare (idx.list.getD 0 default).key key = 1)
    ∧ (bytesCompare (idx.list.getD 0 default).key key ≠ 1 →
        ∃ i, blockEntryLE idx key = .found i (idx.list.getD i default)
          ∧ i < idx.list.length
          ∧ bytesCompare (idx.list.getD i default).key key ≤ 0
          ∧ (i = idx.list.length - 1 ∨
              bytesCompare (idx.list.getD (i + 1) default).key key = 1)) := by
  obtain ⟨e0, rest, hl⟩ : ∃ a l, idx.list = a :: l := by
    cases h : idx.list with
    | nil => exact absurd h hne
    | cons a l => exact ⟨a, l, rfl⟩
  rw [blockEntryLE_unfold, hl]
  simp only [List.getD_cons_zero]
  by_cases hgt : bytesCompare e0.key key = 1
  · rw [if_pos hgt]
    constructor
    · simp [hgt]
    · intro h; exact absurd hgt h
  · rw [if_neg hgt]
    constructor
    · simp [hgt]
    · intro _
      have hb0 : bytesCompare ((e0 :: rest).getD 0 default).key key ≤ 0 := by
        simpa using bytesCompare_le_iff_not_gt.mpr hgt
      have hinv := bleLoop_invariant (e0 :: rest) key ((e0 :: rest).length - 1) 0
        ((e0 :: rest).length - 1) rfl (by omega) (le_refl _) hb0 (Or.inl rfl)
      refine ⟨bleLoop (e0 :: rest) key 0 ((e0 :: rest).length - 1), rfl, ?_,
        hinv.2.2.1, hinv.2.2.2⟩
      have h2 := hinv.2.1
      simp only [List.length_cons] at h2 ⊢
      omega

/-- Witness for C3 at a concrete sorted two-entry index and probe key. -/
theorem blockEntryLE_spec_witness :
    ∃ i, blockEntryLE
        { blocksize := 2048, delimiter := [44], epoch := 0, filepath := [],
          filename := [], header := false, keysIndexFirst := true,
          keysUnique := true, length := 2,
          list := [⟨[97], 0⟩, ⟨[99], 8⟩], version := 4, headerFields := [] }
        [98]
      = .found i ((([⟨[97], 0⟩, ⟨[99], 8⟩] : List IndexEntry)).getD i default)
      ∧ i < 2
      ∧ bytesCompare ((([⟨[97], 0⟩, ⟨[99], 8⟩] : List IndexEntry)).getD i default).key [98] ≤ 0
      ∧ (i = 1 ∨
          bytesCompare ((([⟨[97], 0⟩, ⟨[99], 8⟩] : List IndexEntry)).getD (i + 1) default).key [98] = 1) :=
  (blockEntryLE_spec
    { blocksize := 2048, delimiter := [44], epoch := 0, filepath := [],
      filename := [], header := false, keysIndexFirst := true,
      keysUnique := true, length := 2,
      list := [⟨[97], 0⟩, ⟨[99], 8⟩], version := 4, headerFields := [] }
    [98] (by simp) (by simp [bytesCompare])).2 (by simp [bytesCompare])

theorem indexByte_none_forall {l : List Nat} {c : Nat}
    (h : indexByte l c = none) : ∀ x ∈ l, x ≠ c := by
  induction l with
  | nil => intro y hy; simp at hy
  | cons b bs ih =>
    by_cases hb : b = c
    · simp [indexByte, hb] at h
    · simp [indexByte, hb] at h
      intro y hy
      rcases List.mem_cons.mp hy with rfl | hy2
      · exact hb
      · exact ih h y hy2

theorem indexByte_some_first {l : List Nat} {c i : Nat}
    (h : indexByte l c = some i) : ∀ j, j < i → l.getD j 0 ≠ c := by
  induction l generalizing i with
  | nil => simp [indexByte] at h
  | cons b bs ih =>
    by_cases hb : b = c
    · simp [indexByte, hb] at h
      subst h
      omega
    · simp [indexByte, hb] at h
      obtain ⟨j0, hj0, rfl⟩ := h
      intro j hj
      cases j with
      | zero => simpa using hb
      | succ j' =>
        have := ih hj0 j' (by omega)
        simpa using this

theorem getD_mem_self {α : Type} {l : List α} {j : Nat} {d : α}
    (hj : j < l.length) : l.getD j d ∈ l := by
  induction l generalizing j with
  | nil => simp at hj
  | cons b bs ih =>
    cases j with
    | zero => simp
    | succ j' =>
      have := ih (j := j') (by simpa using hj)
      simpa using Or.inr this

theorem getD_default_of_le {α : Type} {l : List α} {j : Nat} {d : α}
    (hj : l.length ≤ j) : l.getD j d = d := by
  induction l generalizing j with
  | nil => simp
  | cons b bs ih =>
    cases j with
    | zero => simp at hj
    | succ j' => simpa using ih (by simpa using hj)

theorem prefix_getD {p l : List Nat} (h : p <+: l) :
    ∀ j, j < p.length → l.getD j 0 = p.getD j 0 := by
  obtain ⟨t, rfl⟩ := h
  induction p with
  | nil => intro j hj; simp at hj
  | cons a p' ih =>
    intro j hj
    cases j with
    | zero => simp
    | succ j' =>
      have := ih j' (by simpa using hj)
      simpa using this

theorem getD_drop (l : List Nat) (k j : Nat) :
    (l.drop k).getD j 0 = l.getD (k + j) 0 := by
  induction k generalizing l with
  | zero => simp
  | succ k' ih =>
    cases l with
    | nil => simp
    | cons b bs =>
      have := ih bs
      simpa [Nat.succ_add] using this

theorem take_eq_self_of_le {α : Type} {l : List α} {n : Nat}
    (h : l.length ≤ n) : l.take n = l := by
  induction l generalizing n with
  | nil => simp
  | cons b bs ih =>
    cases n with
    | zero => simp at h
    | succ n' => simpa using ih (by simpa using h)

theorem prefix_append_of_le {sep a t : List Nat} (hl : sep.length ≤ a.length)
    (h : sep <+: a ++ t) : sep <+: a := by
  have h1 : sep = (a ++ t).take sep.length := List.prefix_iff_eq_take.mp h
  rw [List.take_append_eq_append_take] at h1
  have h0 : sep.length - a.length = 0 := by omega
  rw [h0, List.take_zero, List.append_nil] at h1
  rw [h1]
  exact List.take_prefix _ _

theorem linesOf_eq_single {buf : List Nat} (h0 : buf ≠ [])
    (hidx : indexByte buf 10 = none) : linesOf buf = [buf] := by
  cases buf with
  | nil => exact absurd rfl h0
  | cons b bs =>
    simp only [linesOf]
    rw [hidx]

theorem linesOf_eq_cons {buf : List Nat} {nl : Nat} (h0 : buf ≠ [])
    (hidx : indexByte buf 10 = some nl) :
    linesOf buf = buf.take nl :: linesOf (buf.drop (nl + 1)) := by
  cases buf with
  | nil => exact absurd rfl h0
  | cons b bs =>
    simp only [linesOf]
    rw [hidx]

theorem linesOf_drop_subset :
    ∀ (m : Nat) (buf : List Nat) (off : Nat), buf.length = m →
      off ≤ buf.length → (off = 0 ∨ buf.getD (off - 1) 0 = 10) →
      ∀ l ∈ linesOf (buf.drop off), l ∈ linesOf buf := by
  intro m
  induction m using Nat.strong_induction_on with
  | _ m ih =>
    intro buf off hm hoff hstart l hl
    rcases Nat.eq_zero_or_pos off with rfl | hpos
    · simpa using hl
    · have hne : buf ≠ [] := by
        intro hbuf
        subst hbuf
        simp at hoff
        omega
      rcases hstart with h0 | hnl10
      · omega
      cases hidx : indexByte buf 10 with
      | none =>
        exfalso
        have := indexByte_none_forall hidx (buf.getD (off - 1) 0)
          (getD_mem_self (by omega))
        exact this hnl10
      | some i =>
        have hib := indexByte_some_bound hidx
        have hif := indexByte_some_first hidx
        rw [linesOf_eq_cons hne hidx]
        by_cases hoi : off ≤ i
        · exfalso
          exact hif (off - 1) (by omega) hnl10
        · by_cases hoi2 : off = i + 1
          · subst hoi2
            exact List.mem_cons_of_mem _ hl
          · have hgt : i + 1 < off := by omega
            have hdd : buf.drop off = (buf.drop (i + 1)).drop (off - (i + 1)) := by
              rw [List.drop_drop]
              congr 1
              omega
            rw [hdd] at hl
            have hrec := ih (buf.drop (i + 1)).length
              (by simp [List.length_drop]; omega)
              (buf.drop (i + 1)) (off - (i + 1)) rfl
              (by simp [List.length_drop]; omega)
              (by
                right
                rw [getD_drop]
                have : i + 1 + (off - (i + 1) - 1) = off - 1 := by omega
                rw [this]
                exact hnl10)
              l hl
            exact List.mem_cons_of_mem _ hrec

theorem getNBytesFrom_eq_none_iff {buf : List Nat} {len : Nat} {delim : List Nat} :
    getNBytesFrom buf len delim = none ↔ buf.length < len := by
  by_cases h : buf.length < len
  · simp [getNBytesFrom, h]
  · simp only [getNBytesFrom, if_neg h]
    cases bytesIndex (buf.take len) delim <;> simp [h]

theorem prefix_take_firstNl {keyde buf : List Nat} {nl : Nat}
    (hpre : keyde <+: buf) (hnl : (10 : Nat) ∉ keyde)
    (hidx : indexByte buf 10 = some nl) : keyde <+: buf.take nl := by
  obtain ⟨hlt, h10⟩ := indexByte_some_bound hidx
  by_cases hc : nl < keyde.length
  · exfalso
    have heq := prefix_getD hpre nl hc
    rw [h10] at heq
    exact hnl (heq ▸ getD_mem_self hc)
  · push_neg at hc
    obtain ⟨t, rfl⟩ := hpre
    rw [List.take_append_eq_append_take, take_eq_self_of_le hc]
    exact ⟨_, rfl⟩

theorem scanCollect_mem (keyde : List Nat) (n : Nat) (hnl : (10 : Nat) ∉ keyde) :
    ∀ (m : Nat) (buf : List Nat) (acc : List (List Nat)), buf.length = m →
      ∀ l ∈ scanCollect keyde n buf acc,
        l ∈ acc ∨ (l ∈ linesOf buf ∧ keyde <+: l) := by
  intro m
  induction m using Nat.strong_induction_on with
  | _ m ih =>
    intro buf acc hm l hl
    rw [scanCollect] at hl
    by_cases hcond : buf ≠ [] ∧ keyde.isPrefixOf buf
    · rw [dif_pos hcond] at hl
      have hpre : keyde <+: buf := List.isPrefixOf_iff_prefix.mp hcond.2
      have hbne : buf ≠ [] := hcond.1
      cases hidx : indexByte buf 10 with
      | none =>
        rw [hidx] at hl
        simp only [List.mem_append, List.mem_singleton] at hl
        rcases hl with hl | rfl
        · exact Or.inl hl
        · exact Or.inr ⟨by rw [linesOf_eq_single hbne hidx]; simp, hpre⟩
      | some nl =>
        have hl2 : l ∈ (if 0 < n ∧ n ≤ (acc ++ [buf.take nl]).length
            then acc ++ [buf.take nl]
            else scanCollect keyde n (buf.drop (nl + 1)) (acc ++ [buf.take nl])) := by
          rw [hidx] at hl
          exact hl
        have hlmem : keyde <+: buf.take nl := prefix_take_firstNl hpre hnl hidx
        have hhead : buf.take nl ∈ linesOf buf := by
          rw [linesOf_eq_cons hbne hidx]; simp
        by_cases hn : 0 < n ∧ n ≤ (acc ++ [buf.take nl]).length
        · rw [if_pos hn] at hl2
          simp only [List.mem_append, List.mem_singleton] at hl2
          rcases hl2 with hl2 | rfl
          · exact Or.inl hl2
          · exact Or.inr ⟨hhead, hlmem⟩
        · rw [if_neg hn] at hl2
          have hlen : (buf.drop (nl + 1)).length < m := by
            have : 0 < buf.length := List.length_pos.mpr hbne
            simp only [List.length_drop]
            omega
          have hrec := ih (buf.drop (nl + 1)).length hlen (buf.drop (nl + 1))
            (acc ++ [buf.take nl]) rfl l hl2
          rcases hrec with hrec | ⟨hmem, hpre2⟩
          · simp only [List.mem_append, List.mem_singleton] at hrec
            rcases hrec with hrec | rfl
            · exact Or.inl hrec
            · exact Or.inr ⟨hhead, hlmem⟩
          · refine Or.inr ⟨?_, hpre2⟩
            rw [linesOf_eq_cons hbne hidx]
            exact List.mem_cons_of_mem _ hmem
    · rw [dif_neg hcond] at hl
      exact Or.inl hl

theorem scanSkip_found_subset (key delim : List Nat) :
    ∀ (m : Nat) (buf : List Nat), buf.length = m →
      ∀ rest, scanSkip key delim buf = .found rest →
      ∀ l ∈ linesOf rest, l ∈ linesOf buf := by
  intro m
  induction m using Nat.strong_induction_on with
  | _ m ih =>
    intro buf hm rest hfound l hl
    cases hbuf : buf with
    | nil =>
      subst hbuf
      rw [scanSkip] at hfound
      cases hfound
      exact hl
    | cons b bs =>
      subst hbuf
      rw [scanSkip] at hfound
      cases hg : getNBytesFrom (b :: bs) key.length delim with
      | none => rw [hg] at hfound; cases hfound
      | some k =>
        have hfound2 : (if bytesCompare k key > -1 then SkipResult.found (b :: bs)
            else match indexByte (b :: bs) 10 with
              | none => SkipResult.stop
              | some nl => scanSkip key delim ((b :: bs).drop (nl + 1)))
            = SkipResult.found rest := by
          rw [hg] at hfound
          exact hfound
        by_cases hcmp : bytesCompare k key > -1
        · rw [if_pos hcmp] at hfound2
          cases hfound2
          exact hl
        · rw [if_neg hcmp] at hfound2
          cases hidx : indexByte (b :: bs) 10 with
          | none => rw [hidx] at hfound2; cases hfound2
          | some nl =>
            have hfound3 : scanSkip key delim ((b :: bs).drop (nl + 1))
                = SkipResult.found rest := by
              rw [hidx] at hfound2
              exact hfound2
            have hlen : ((b :: bs).drop (nl + 1)).length < m := by
              simp only [List.length_drop, List.length_cons] at hm ⊢
              omega
            have hrec := ih _ hlen ((b :: bs).drop (nl + 1)) rfl rest hfound3 l hl
            rw [linesOf_eq_cons (by simp) hidx]
            exact List.mem_cons_of_mem _ hrec

theorem scanSkip_no_oob (key delim : List Nat) :
    ∀ (m : Nat) (buf : List Nat), buf.length = m →
      (∀ l ∈ linesOf buf, key.length ≤ l.length) →
      scanSkip key delim buf ≠ .oob := by
  intro m
  induction m using Nat.strong_induction_on with
  | _ m ih =>
    intro buf hm hlen
    cases hbuf : buf with
    | nil =>
      subst hbuf
      rw [scanSkip]
      intro h; cases h
    | cons b bs =>
      subst hbuf
      rw [scanSkip]
      have hknotlong : ¬ (b :: bs).length < key.length := by
        cases hidx : indexByte (b :: bs) 10 with
        | none =>
          have hmem : (b :: bs) ∈ linesOf (b :: bs) := by
            rw [linesOf_eq_single (by simp) hidx]; simp
          have := hlen _ hmem
          omega
        | some nl =>
          have hmem : (b :: bs).take nl ∈ linesOf (b :: bs) := by
            rw [linesOf_eq_cons (by simp) hidx]; simp
          have h1 := hlen _ hmem
          have h2 := (indexByte_some_bound hidx).1
          rw [List.length_take] at h1
          omega
      cases hg : getNBytesFrom (b :: bs) key.length delim with
      | none =>
        exact absurd (getNBytesFrom_eq_none_iff.mp hg) hknotlong
      | some k =>
        show (if bytesCompare k key > -1 then SkipResult.found (b :: bs)
            else match indexByte (b :: bs) 10 with
              | none => SkipResult.stop
              | some nl => scanSkip key delim ((b :: bs).drop (nl + 1)))
            ≠ SkipResult.oob
        by_cases hcmp : bytesCompare k key > -1
        · rw [if_pos hcmp]
          intro h; cases h
        · rw [if_neg hcmp]
          cases hidx : indexByte (b :: bs) 10 with
          | none => intro h; cases h
          | some nl =>
            have hlen2 : ((b :: bs).drop (nl + 1)).length < m := by
              simp only [List.length_drop, List.length_cons] at hm ⊢
              omega
            apply ih _ hlen2 _ rfl
            intro l hl
            apply hlen
            rw [linesOf_eq_cons (by simp) hidx]
            exact List.mem_cons_of_mem _ hl

theorem keyOf_eq_of_head {key delim l : List Nat}
    (hkd : bytesIndex (key ++ delim) delim = some key.length)
    (hpre : (key ++ delim) <+: l) : keyOf l delim = key := by
  obtain ⟨t, rfl⟩ := hpre
  obtain ⟨hd1, hd2⟩ := bytesIndex_eq_some_iff.mp hkd
  have hidx : bytesIndex ((key ++ delim) ++ t) delim = some key.length := by
    apply bytesIndex_eq_some_iff.mpr
    constructor
    · rw [List.drop_append_eq_append_drop]
      have h0 : key.length - (key ++ delim).length = 0 := by
        simp [List.length_append]
      rw [h0, List.drop_zero]
      exact hd1.trans (List.prefix_append _ _)
    · intro j hj hcon
      apply hd2 j hj
      rw [List.drop_append_eq_append_drop] at hcon
      have h0 : j - (key ++ delim).length = 0 := by
        simp [List.length_append]; omega
      rw [h0, List.drop_zero] at hcon
      refine prefix_append_of_le ?_ hcon
      simp only [List.length_drop, List.length_append]
      omega
  unfold keyOf
  rw [hidx]
  show ((key ++ delim) ++ t).take key.length = key
  rw [List.take_append_eq_append_take]
  have h1 : (key ++ delim).take key.length = key := by
    rw [List.take_append_eq_append_take]
    simp
  rw [h1]
  simp [List.length_append]

/-- Claim C1: every line returned by `Line(k)` / `Lines(k)` /
`LinesN(k, n)` (all of which delegate to `linesNGiven` on an open
searcher) either starts with `k` immediately followed by the delimiter,
or is exactly `k`.  The hypotheses that neither the probe key nor the
delimiter contains a newline byte reflect the dataset invariants of the
data model (keys and delimiters are newline-free). -/
theorem linesN_key_containment (mmap : List Nat) (idx : Index) (key : List Nat)
    (n : Nat) (lines : List (List Nat))
    (hknl : (10 : Nat) ∉ key) (hdnl : (10 : Nat) ∉ idx.delimiter)
    (hres : linesNGiven mmap idx key n = .ok lines) :
    ∀ l ∈ lines, (key ++ idx.delimiter) <+: l ∨ l = key := by
  intro l hlmem
  left
  unfold linesNGiven scanIndexedLines at hres
  split at hres
  · cases hres
  · cases hres
  · split at hres
    · cases hres
    · split at hres
      · cases hres
      · cases hres
      · rename_i buf hbuf lns hlns
        cases hres
        unfold scanLinesWithKey at hlns
        split at hlns
        · cases hlns
        · cases hlns
          simp at hlmem
        · rename_i rest hrest
          cases hlns
          have hnl : (10 : Nat) ∉ key ++ idx.delimiter := by
            simp only [List.mem_append]
            rintro (h | h)
            · exact hknl h
            · exact hdnl h
          have := scanCollect_mem (key ++ idx.delimiter) _ hnl rest.length rest [] rfl
            l hlmem
          rcases this with h | ⟨_, h⟩
          · simp at h
          · exact h

/-- Sample one-entry index over a comma-delimited dataset, used by the
concrete witnesses below. -/
def sampleIndex : Index :=
  { blocksize := 2048, delimiter := [44], epoch := 0, filepath := [],
    filename := [], header := false, keysIndexFirst := true, keysUnique := false,
    length := 1, list := [⟨[97], 0⟩], version := 4, headerFields := [] }

/-- Sample dataset bytes, two comma-delimited lines. -/
def sampleData : List Nat := [97, 44, 49, 10, 98, 44, 50, 10]

/-- Witness for C1: a concrete query whose returned line starts with
key and delimiter. -/
theorem linesN_key_containment_witness :
    ([98] ++ sampleIndex.delimiter) <+: [98, 44, 50] ∨ [98, 44, 50] = [98] :=
  linesN_key_containment sampleData sampleIndex [98] 1 [[98, 44, 50]]
    (by decide) (by decide)
    (by simp [linesNGiven, scanIndexedLines, blockEntryLE, bleLoop, bleMid,
      scanLinesWithKey, scanSkip, scanCollect, getNBytesFrom, bytesIndex,
      indexByte, bytesCompare, mmapFrom, sampleIndex, sampleData])
    [98, 44, 50] (by simp)

theorem getD_mem_or {α : Type} [Inhabited α] (l : List α) (i : Nat) :
    l.getD i default ∈ l ∨ l.getD i default = default := by
  by_cases h : i < l.length
  · exact Or.inl (getD_mem_self h)
  · exact Or.inr (getD_default_of_le (by omega))

theorem blockEntryLT_unfold (idx : Index) (key : List Nat) :
    blockEntryLT idx key =
      (match idx.list with
       | [] => none
       | _ :: _ =>
         some (bltLoop idx.list key 0 (idx.list.length - 1),
           idx.list.getD (bltLoop idx.list key 0 (idx.list.length - 1)) default)) :=
  rfl

theorem blockEntryLE_ne_oob {idx : Index} {key : List Nat}
    (hne : idx.list ≠ []) : blockEntryLE idx key ≠ .oob := by
  rw [blockEntryLE_unfold]
  cases hl : idx.list with
  | nil => exact absurd hl hne
  | cons e0 rest =>
    show (if bytesCompare e0.key key = 1 then BlockEntryResult.notFound
        else BlockEntryResult.found (bleLoop (e0 :: rest) key 0 ((e0 :: rest).length - 1))
          ((e0 :: rest).getD (bleLoop (e0 :: rest) key 0 ((e0 :: rest).length - 1)) default))
        ≠ BlockEntryResult.oob
    by_cases hgt : bytesCompare e0.key key = 1
    · rw [if_pos hgt]; intro h; cases h
    · rw [if_neg hgt]; intro h; cases h

theorem blockEntryLE_found_cases {idx : Index} {key : List Nat} {i : Nat}
    {entry : IndexEntry} (h : blockEntryLE idx key = .found i entry) :
    entry ∈ idx.list ∨ entry = default := by
  rw [blockEntryLE_unfold] at h
  cases hl : idx.list with
  | nil => rw [hl] at h; cases h
  | cons e0 rest =>
    rw [hl] at h
    have h2 : (if bytesCompare e0.key key = 1 then BlockEntryResult.notFound
        else BlockEntryResult.found (bleLoop (e0 :: rest) key 0 ((e0 :: rest).length - 1))
          ((e0 :: rest).getD (bleLoop (e0 :: rest) key 0 ((e0 :: rest).length - 1)) default))
        = BlockEntryResult.found i entry := h
    by_cases hgt : bytesCompare e0.key key = 1
    · rw [if_pos hgt] at h2; cases h2
    · rw [if_neg hgt] at h2
      cases h2
      have := getD_mem_or (e0 :: rest) (bleLoop (e0 :: rest) key 0 ((e0 :: rest).length - 1))
      rcases this with hmem | hd
      · exact Or.inl (hl ▸ hmem)
      · exact Or.inr hd

theorem blockEntryLT_found_cases {idx : Index} {key : List Nat} {i : Nat}
    {entry : IndexEntry} (h : blockEntryLT idx key = some (i, entry)) :
    entry ∈ idx.list ∨ entry = default := by
  rw [blockEntryLT_unfold] at h
  cases hl : idx.list with
  | nil => rw [hl] at h; cases h
  | cons e0 rest =>
    rw [hl] at h
    have h2 : some (bltLoop (e0 :: rest) key 0 ((e0 :: rest).length - 1),
        (e0 :: rest).getD (bltLoop (e0 :: rest) key 0 ((e0 :: rest).length - 1)) default)
        = some (i, entry) := h
    cases h2
    have := getD_mem_or (e0 :: rest) (bltLoop (e0 :: rest) key 0 ((e0 :: rest).length - 1))
    rcases this with hmem | hd
    · exact Or.inl (hl ▸ hmem)
    · exact Or.inr hd

theorem blockEntryLT_isSome {idx : Index} {key : List Nat}
    (hne : idx.list ≠ []) : ∃ i e, blockEntryLT idx key = some (i, e) := by
  rw [blockEntryLT_unfold]
  cases hl : idx.list with
  | nil => exact absurd hl hne
  | cons e0 rest => exact ⟨_, _, rfl⟩

/-- An offset is a line start of the mapped dataset when it is within
bounds and either zero or immediately preceded by a newline byte. -/
def isLineStart (mmap : List Nat) (off : Int) : Prop :=
  0 ≤ off ∧ off.toNat ≤ mmap.length ∧
    (off = 0 ∨ mmap.getD (off.toNat - 1) 0 = 10)

instance (mmap : List Nat) (off : Int) : Decidable (isLineStart mmap off) := by
  unfold isLineStart
  infer_instance

/-- Claim C2 (amended): for a dataset whose index entries point at line
starts and a key `k` that is the key of no line, `LinesN` returns
`NotFound` — provided the probe key is no longer than every line of the
dataset (without that bound the unchecked slice `buf[:len(key)]` in
`getNBytesFrom` goes out of range instead of returning `NotFound`; see
the companion counterexample).  The result does not depend on `matchLE`:
the scan path of `searcher.go` never consults that flag. -/
theorem linesN_absent_notFound (mmap : List Nat) (idx : Index) (key : List Nat)
    (n : Nat)
    (hne : idx.list ≠ [])
    (hstart : ∀ e ∈ idx.list, isLineStart mmap e.offset)
    (hknl : (10 : Nat) ∉ key) (hdnl : (10 : Nat) ∉ idx.delimiter)
    (habs : ∀ l ∈ linesOf mmap, keyOf l idx.delimiter ≠ key)
    (hlen : ∀ l ∈ linesOf mmap, key.length ≤ l.length)
    (hkd : bytesIndex (key ++ idx.delimiter) idx.delimiter = some key.length) :
    linesNGiven mmap idx key n = .notFound := by
  unfold linesNGiven scanIndexedLines
  split
  · rename_i heq
    exfalso
    by_cases hf : idx.keysIndexFirst
    · rw [if_pos hf] at heq
      exact blockEntryLE_ne_oob hne heq
    · rw [if_neg hf] at heq
      obtain ⟨i, e, hlt⟩ := @blockEntryLT_isSome idx key hne
      rw [hlt] at heq
      cases heq
  · rfl
  · rename_i i entry heq
    have hentry : entry ∈ idx.list ∨ entry = default := by
      by_cases hf : idx.keysIndexFirst
      · rw [if_pos hf] at heq
        exact blockEntryLE_found_cases heq
      · rw [if_neg hf] at heq
        cases hlt : blockEntryLT idx key with
        | none => rw [hlt] at heq; cases heq
        | some p =>
          rcases p with ⟨i2, e2⟩
          rw [hlt] at heq
          cases heq
          exact blockEntryLT_found_cases hlt
    have hls : isLineStart mmap entry.offset := by
      rcases hentry with hmem | hd
      · exact hstart entry hmem
      · rw [hd]
        exact ⟨le_refl 0, Nat.zero_le _, Or.inl rfl⟩
    obtain ⟨h0off, hoffle, hnl0⟩ := hls
    have hmf : mmapFrom mmap entry.offset = some (mmap.drop entry.offset.toNat) := by
      unfold mmapFrom
      rw [if_pos ⟨h0off, by omega⟩]
    rw [hmf]
    show (match scanLinesWithKey (mmap.drop entry.offset.toNat) key idx.delimiter
        (if n = 0 ∧ idx.keysUnique then 1 else n) with
      | none => QueryResult.oob
      | some [] => QueryResult.notFound
      | some lines => QueryResult.ok lines) = QueryResult.notFound
    have hsub : ∀ l ∈ linesOf (mmap.drop entry.offset.toNat), l ∈ linesOf mmap := by
      apply linesOf_drop_subset mmap.length mmap entry.offset.toNat rfl hoffle
      rcases hnl0 with h | h
      · left; rw [h]; rfl
      · right; exact h
    have hnoob : scanSkip key idx.delimiter (mmap.drop entry.offset.toNat) ≠ .oob :=
      scanSkip_no_oob key idx.delimiter _ _ rfl (fun l hl => hlen l (hsub l hl))
    have hnl : (10 : Nat) ∉ key ++ idx.delimiter := by
      simp only [List.mem_append]
      rintro (h | h)
      · exact hknl h
      · exact hdnl h
    cases hscan : scanSkip key idx.delimiter (mmap.drop entry.offset.toNat) with
    | oob => exact absurd hscan hnoob
    | stop =>
      have hsw : scanLinesWithKey (mmap.drop entry.offset.toNat) key idx.delimiter
          (if n = 0 ∧ idx.keysUnique then 1 else n) = some [] := by
        unfold scanLinesWithKey
        rw [hscan]
      rw [hsw]
    | found rest =>
      have hempty : scanCollect (key ++ idx.delimiter)
          (if n = 0 ∧ idx.keysUnique then 1 else n) rest [] = [] := by
        by_contra hne2
        obtain ⟨l, hl⟩ := List.exists_mem_of_ne_nil _ hne2
        rcases scanCollect_mem (key ++ idx.delimiter) _ hnl rest.length rest [] rfl
          l hl with h | ⟨hmem, hpre⟩
        · simp at h
        · have hmem2 : l ∈ linesOf mmap :=
            hsub l (scanSkip_found_subset key idx.delimiter _ _ rfl rest hscan l hmem)
          exact habs l hmem2 (keyOf_eq_of_head hkd hpre)
      have hsw : scanLinesWithKey (mmap.drop entry.offset.toNat) key idx.delimiter
          (if n = 0 ∧ idx.keysUnique then 1 else n) = some [] := by
        unfold scanLinesWithKey
        rw [hscan]
        show some (scanCollect (key ++ idx.delimiter)
          (if n = 0 ∧ idx.keysUnique then 1 else n) rest []) = some []
        rw [hempty]
      rw [hsw]

/-- Witness for C2 (amended): a concrete absent key on a short dataset
returns `NotFound`. -/
theorem linesN_absent_notFound_witness :
    linesNGiven sampleData sampleIndex [99] 0 = .notFound :=
  linesN_absent_notFound sampleData sampleIndex [99] 0
    (by simp [sampleIndex]) (by decide) (by decide) (by decide)
    (by simp [sampleData, sampleIndex, linesOf, indexByte, keyOf, bytesIndex])
    (by simp [sampleData, linesOf, indexByte])
    (by decide)

/-- Counterexample for C2 as stated: the key `"bbbbb"` occurs as the key
of no line of the dataset `"a,1\n"`, yet `LinesN` does not return
`NotFound` — the unchecked `buf[:len(key)]` slice in `getNBytesFrom`
goes out of range (a Go runtime panic), because the probe key is longer
than the remaining mapped bytes. -/
theorem linesN_absent_counterexample :
    (∀ l ∈ linesOf [97, 44, 49, 10], keyOf l [44] ≠ [98, 98, 98, 98, 98])
    ∧ linesNGiven [97, 44, 49, 10] sampleIndex [98, 98, 98, 98, 98] 0 ≠ .notFound
    ∧ linesNGiven [97, 44, 49, 10] sampleIndex [98, 98, 98, 98, 98] 0 = .oob := by
  refine ⟨?_, ?_, ?_⟩
  · simp [linesOf, indexByte, keyOf, bytesIndex]
  · simp [linesNGiven, scanIndexedLines, blockEntryLE, bleLoop, bleMid,
      scanLinesWithKey, scanSkip, scanCollect, getNBytesFrom, bytesIndex,
      indexByte, bytesCompare, mmapFrom, sampleIndex]
  · simp [linesNGiven, scanIndexedLines, blockEntryLE, bleLoop, bleMid,
      scanLinesWithKey, scanSkip, scanCollect, getNBytesFrom, bytesIndex,
      indexByte, bytesCompare, mmapFrom, sampleIndex]

/-- Claim C5: evaluation of the code at the failing input.  The probe
key `"c"` is absent from the dataset `"a,1\nb,2\n"` and the dataset
contains a line (`"b,2"`) whose key is strictly less than the probe, so
with `matchLE` set the claim requires `Line`/`LinesN(key,1)` to return
that line.  The `searcher.go` query path never consults the `matchLE`
flag: for either value of the flag the query returns `NotFound`.  (The
less-than-or-equal fallback exists only in the legacy `LinePosition`
code path, which `Line`/`LinesN` do not use.) -/
theorem matchLE_ignored_by_linesN :
    ([98, 44, 50] ∈ linesOf sampleData
      ∧ bytesCompare (keyOf [98, 44, 50] sampleIndex.delimiter) [99] = -1)
    ∧ (∀ (rebuild : List Nat → Option Index) (b : Bool),
        (linesN rebuild
          { mmap := sampleData, index := some sampleIndex, matchLE := b }
          [99] 1).snd = .notFound) := by
  constructor
  · constructor
    · simp [sampleData, linesOf, indexByte]
    · simp [sampleIndex, keyOf, bytesIndex, indexByte, bytesCompare]
  · intro rebuild b
    have h : linesNGiven sampleData sampleIndex [99] 1 = .notFound := by
      simp [linesNGiven, scanIndexedLines, blockEntryLE, bleLoop, bleMid,
        scanLinesWithKey, scanSkip, scanCollect, getNBytesFrom, bytesIndex,
        indexByte, bytesCompare, mmapFrom, sampleIndex, sampleData]
    simp [linesN, h]

/-- Claim C9: executing a query on an open `Searcher` (one whose index
is loaded, as every searcher produced by `NewSearcherOptions` is) leaves
every field of the searcher — mmap, index and configuration flags —
unchanged, for every possible behaviour of the index rebuild that the
nil-index branch would invoke.  `Line` and `Lines` delegate to `LinesN`
and so mutate nothing either. -/
theorem linesN_frame (rebuild : List Nat → Option Index) (s : Searcher)
    (key : List Nat) (n : Nat) (idx : Index) (h : s.index = some idx) :
    (linesN rebuild s key n).fst = s := by
  simp [linesN, h]

/-- Witness for C9 at a concrete open searcher. -/
theorem linesN_frame_witness :
    (linesN (fun _ => none)
      { mmap := sampleData, index := some sampleIndex, matchLE := false }
      [98] 1).fst
      = { mmap := sampleData, index := some sampleIndex, matchLE := false } :=
  linesN_frame (fun _ => none)
    { mmap := sampleData, index := some sampleIndex, matchLE := false }
    [98] 1 sampleIndex rfl

/-- Claim C10: evaluation of the code at the failing input.  On the
four-byte dataset `"a,1\n"` with the five-byte probe key `"abcde"`,
`scanLinesWithKey` calls `getNBytesFrom(buf, len(key), delim)`, whose
unchecked slice `buf[:length]` exceeds the remaining mapped bytes (the
mmap slice has capacity equal to its length), an out-of-range slice
access — so `LinesN` neither returns a value nor an error. -/
theorem linesN_oob_on_long_key :
    (linesN (fun _ => none)
      { mmap := [97, 44, 49, 10], index := some sampleIndex, matchLE := false }
      [97, 98, 99, 100, 101] 1).snd = .oob
    ∧ getNBytesFrom [97, 44, 49, 10] 5 [44] = none := by
  constructor
  · have h : linesNGiven [97, 44, 49, 10] sampleIndex [97, 98, 99, 100, 101] 1
        = .oob := by
      simp [linesNGiven, scanIndexedLines, blockEntryLE, bleLoop, bleMid,
        scanLinesWithKey, scanSkip, getNBytesFrom, bytesIndex, indexByte,
        bytesCompare, mmapFrom, sampleIndex]
    simp [linesN, h]
  · simp [getNBytesFrom]

/-- Go `strings.Split` for a non-empty separator: split around every
non-overlapping leftmost occurrence of `sep`.  (The indexer never calls
it with an empty delimiter; that case is mapped to the whole string.) -/
def goSplit (s sep : List Nat) : List (List Nat) :=
  if hsep : sep = [] then [s]
  else
    match hidx : bytesIndex s sep with
    | none => [s]
    | some i => s.take i :: goSplit (s.drop (i + sep.length)) sep
termination_by s.length
decreasing_by
  have hpre : sep <+: s.drop i := (bytesIndex_eq_some_iff.mp hidx).1
  have hslen : sep.length ≤ (s.drop i).length := hpre.length_le
  have hsep1 : 0 < sep.length := List.length_pos.mpr hsep
  simp only [List.length_drop] at hslen ⊢
  omega

/-- Error outcomes of the index build (`generateLineIndex`). -/
inductive GenErr
  | keySortViolation
  | indexEmpty
deriving DecidableEq

/-- The loop state of `generateLineIndex` (`index.go` v4): the entry
list built so far, the byte offset of the current line, the current
block ordinal (`-1` before the first entry), the previous key and line,
the offset of the first line of the current run of equal keys (`-1`
before any line), and the `keysUnique` / `header` / `headerFields`
fields being accumulated into the index. -/
structure GenState where
  list : List IndexEntry
  blockPosition : Nat
  blockNumber : Int
  prevKey : List Nat
  prevLine : List Nat
  firstOffset : Int
  keysUnique : Bool
  header : Bool
  headerFields : List (List Nat)
deriving DecidableEq

/-- One iteration of the `generateLineIndex` scan loop over a data
line: check key ordering (with the implicit-header heuristic when
`blockNumber == 0` and no header was declared), emit an entry when a
new block begins (anchored at `firstOffset` for a duplicate-key run,
suppressed when it would repeat the last emitted offset), then advance
the state. -/
def genStep (bs : Nat) (delim : List Nat) (st : GenState) (line : List Nat) :
    Except GenErr GenState :=
  let key := keyOf line delim
  let c := bytesCompare st.prevKey key
  if c = 1 ∧ ¬(st.blockNumber = 0 ∧ st.header = false) then
    .error .keySortViolation
  else
    let st1 :=
      if c = 1 then
        { st with header := true, headerFields := goSplit st.prevLine delim,
                  list := [], blockNumber := -1 }
      else st
    let st2 := if c = 0 then { st1 with keysUnique := false } else st1
    let dup := c = 0
    let currentBlockNumber : Int := (st2.blockPosition / bs : Nat)
    let st3 :=
      if currentBlockNumber > st2.blockNumber then
        let offset : Int := if dup then st2.firstOffset else (st2.blockPosition : Int)
        let lastOffset : Int :=
          match st2.list.getLast? with
          | some e => e.offset
          | none => -1
        let st2a :=
          if lastOffset ≠ offset then { st2 with list := st2.list ++ [⟨key, offset⟩] }
          else st2
        { st2a with blockNumber := currentBlockNumber }
      else st2
    let st4 :=
      if ¬dup then
        { st3 with firstOffset := (st3.blockPosition : Int), prevKey := key }
      else st3
    let st5 := if st4.blockNumber = 0 then { st4 with prevLine := line } else st4
    .ok { st5 with blockPosition := st5.blockPosition + line.length + 1 }

/-- The `generateLineIndex` scan loop folded over the data lines. -/
def genFold (bs : Nat) (delim : List Nat) :
    GenState → List (List Nat) → Except GenErr GenState
  | st, [] => .ok st
  | st, l :: ls =>
    match genStep bs delim st l with
    | .error e => .error e
    | .ok st2 => genFold bs delim st2 ls

/-- Initial state of the `generateLineIndex` loop. -/
def genInit (header : Bool) (headerFields : List (List Nat)) : GenState :=
  { list := [], blockPosition := 0, blockNumber := -1, prevKey := [],
    prevLine := [], firstOffset := -1, keysUnique := true,
    header := header, headerFields := headerFields }

/-- Go `generateLineIndex` (`index.go` v4) over the dataset's line
sequence: skip a declared header line (recording its fields), fold the
scan loop, fail with `IndexEmpty` when no entry was produced, and
otherwise fill the index's `KeysUnique`, `Header`, `HeaderFields`,
`KeysIndexFirst`, `List` and `Length` fields. -/
def generateLineIndex (idx : Index) (lines : List (List Nat)) :
    Except GenErr Index :=
  let init := genInit idx.header idx.headerFields
  let start : GenState × List (List Nat) :=
    if idx.header then
      match lines with
      | [] => (init, [])
      | l :: ls =>
        ({ init with blockPosition := l.length + 1,
                     headerFields := goSplit l idx.delimiter }, ls)
    else (init, lines)
  match genFold idx.blocksize idx.delimiter start.1 start.2 with
  | .error e => .error e
  | .ok stf =>
    if stf.list = [] then .error .indexEmpty
    else .ok { idx with keysUnique := stf.keysUnique, header := stf.header,
                        headerFields := stf.headerFields, keysIndexFirst := true,
                        list := stf.list, length := (stf.list.length : Int) }

/-- The absolute byte offset of each line of a dataset whose first line
starts at `pos`: each line is followed by one newline byte. -/
def lineOffsetsFrom (pos : Nat) : List (List Nat) → List (Nat × List Nat)
  | [] => []
  | l :: ls => (pos, l) :: lineOffsetsFrom (pos + l.length + 1) ls

theorem genStep_gt_error {bs : Nat} {delim : List Nat} {st : GenState}
    {line : List Nat}
    (hgt : bytesCompare st.prevKey (keyOf line delim) = 1)
    (hnot : ¬(st.blockNumber = 0 ∧ st.header = false)) :
    genStep bs delim st line = .error .keySortViolation := by
  simp [genStep, hgt, hnot]

theorem genStep_reset_eq {bs : Nat} {delim : List Nat} {st : GenState}
    {line : List Nat}
    (hgt : bytesCompare st.prevKey (keyOf line delim) = 1)
    (hbn : st.blockNumber = 0) (hhdr : st.header = false) :
    genStep bs delim st line = .ok
      { list := [⟨keyOf line delim, (st.blockPosition : Int)⟩],
        blockPosition := st.blockPosition + line.length + 1,
        blockNumber := (st.blockPosition : Int) / (bs : Int),
        prevKey := keyOf line delim,
        prevLine := if (st.blockPosition : Int) / (bs : Int) = 0 then line
                    else st.prevLine,
        firstOffset := (st.blockPosition : Int),
        keysUnique := st.keysUnique,
        header := true,
        headerFields := goSplit st.prevLine delim } := by
  have hgt0 : (st.blockPosition : Int) / (bs : Int) > -1 := by
    have h0 : (0 : Int) ≤ (st.blockPosition : Int) / (bs : Int) :=
      Int.ediv_nonneg (by omega) (by omega)
    omega
  have hno : (-1 : Int) ≠ (st.blockPosition : Int) := by omega
  simp only [genStep, hgt, hbn, hhdr]
  norm_num [hgt0, hno]
  by_cases hc : (st.blockPosition : Int) / (bs : Int) = 0 <;> simp [hc]

/-- Claim C6 (amended): during an index build with `header = false`, an
out-of-order key (`prevKey > key`) triggers the implicit-header
heuristic whenever `blockNumber == 0` — that is, for any record still in
block 0, not only the second record — treating the previous line
(`prevLine`) as the header: `header` is set, that line's fields become
`headerFields`, the entry list and `blockNumber` are reset, and indexing
continues with the current line (whose entry is emitted immediately).
An out-of-order key found with `blockNumber ≠ 0` or with a header
already present fails with `KeySortViolation`. -/
theorem genStep_implicitHeader (bs : Nat) (delim : List Nat) (st : GenState)
    (line : List Nat)
    (hgt : bytesCompare st.prevKey (keyOf line delim) = 1) :
    (st.blockNumber = 0 ∧ st.header = false →
      ∃ st', genStep bs delim st line = .ok st'
        ∧ st'.header = true
        ∧ st'.headerFields = goSplit st.prevLine delim
        ∧ st'.list = [⟨keyOf line delim, (st.blockPosition : Int)⟩]
        ∧ st'.blockNumber = (st.blockPosition : Int) / (bs : Int)
        ∧ st'.prevKey = keyOf line delim
        ∧ st'.firstOffset = (st.blockPosition : Int)
        ∧ st'.blockPosition = st.blockPosition + line.length + 1)
    ∧ (¬(st.blockNumber = 0 ∧ st.header = false) →
      genStep bs delim st line = .error .keySortViolation) := by
  constructor
  · rintro ⟨hbn, hhdr⟩
    exact ⟨_, genStep_reset_eq hgt hbn hhdr, rfl, rfl, rfl, rfl, rfl, rfl, rfl⟩
  · intro hnot
    exact genStep_gt_error hgt hnot

/-- Witness for C6 (amended), on the state reached after the first line
`"label,lineno"` of the implicit-header dataset, stepping over the
out-of-order second line `"bar,1"`. -/
theorem genStep_implicitHeader_witness :
    ∃ st', genStep 2048 [44]
        { list := [⟨[108, 97, 98, 101, 108], 0⟩], blockPosition := 13,
          blockNumber := 0, prevKey := [108, 97, 98, 101, 108],
          prevLine := [108, 97, 98, 101, 108, 44, 108, 105, 110, 101, 110, 111],
          firstOffset := 0, keysUnique := true, header := false,
          headerFields := [] }
        [98, 97, 114, 44, 49] = .ok st'
      ∧ st'.header = true
      ∧ st'.headerFields =
          goSplit [108, 97, 98, 101, 108, 44, 108, 105, 110, 101, 110, 111] [44]
      ∧ st'.list = [⟨keyOf [98, 97, 114, 44, 49] [44], (13 : Int)⟩]
      ∧ st'.blockNumber = (13 : Int) / (2048 : Int)
      ∧ st'.prevKey = keyOf [98, 97, 114, 44, 49] [44]
      ∧ st'.firstOffset = (13 : Int)
      ∧ st'.blockPosition = 13 + 5 + 1 :=
  (genStep_implicitHeader 2048 [44]
    { list := [⟨[108, 97, 98, 101, 108], 0⟩], blockPosition := 13,
      blockNumber := 0, prevKey := [108, 97, 98, 101, 108],
      prevLine := [108, 97, 98, 101, 108, 44, 108, 105, 110, 101, 110, 111],
      firstOffset := 0, keysUnique := true, header := false,
      headerFields := [] }
    [98, 97, 114, 44, 49] (by decide)).1 ⟨rfl, rfl⟩

/-- Counterexample for C6 as stated: the dataset
`"a,1\nb,2\nc,3\nb,9\n"` has its only out-of-order key pair at the
fourth record (not the second), yet the build does not fail with
`KeySortViolation` — it succeeds, silently adopting the third line
`"c,3"` as an implicit header, because `blockNumber` is still 0 for
every record of block 0. -/
theorem generateLineIndex_implicitHeader_counterexample :
    bytesCompare (keyOf [98, 44, 57] [44]) (keyOf [99, 44, 51] [44]) = -1
    ∧ generateLineIndex
        { blocksize := 2048, delimiter := [44], epoch := 0, filepath := [],
          filename := [], header := false, keysIndexFirst := false,
          keysUnique := false, length := 0, list := [], version := 4,
          headerFields := [] }
        [[97, 44, 49], [98, 44, 50], [99, 44, 51], [98, 44, 57]]
      = .ok
        { blocksize := 2048, delimiter := [44], epoch := 0, filepath := [],
          filename := [], header := true, keysIndexFirst := true,
          keysUnique := true, length := 1, list := [⟨[98], 12⟩], version := 4,
          headerFields := [[99], [51]] } := by
  constructor
  · decide
  · simp [generateLineIndex, genFold, genStep, genInit, keyOf, bytesIndex,
      bytesCompare, goSplit, indexByte]

/-- Loop invariant of `generateLineIndex`, relating the scan state to
the history `H` of data lines processed so far (each with its absolute
byte offset): offsets are contiguous and below `blockPosition`, the
entry list is key-ordered with strictly increasing offsets, every entry
points at the first occurrence of its key among the processed lines,
and `firstOffset`/`prevKey` describe the current run of equal keys. -/
def genInv (delim : List Nat) (st : GenState) (H : List (Nat × List Nat)) : Prop :=
  (∀ p l, H.getLast? = some (p, l) → st.blockPosition = p + l.length + 1)
  ∧ (∀ pl ∈ H, pl.1 + pl.2.length + 1 ≤ st.blockPosition)
  ∧ List.Chain' (fun e e' => bytesCompare e.key e'.key ≤ 0 ∧ e.offset < e'.offset)
      st.list
  ∧ (∀ e ∈ st.list, ∃ p l, (p, l) ∈ H ∧ e.offset = (p : Int)
      ∧ e.key = keyOf l delim
      ∧ ∀ q m, (q, m) ∈ H → q < p → bytesCompare (keyOf m delim) e.key = -1)
  ∧ (st.firstOffset = -1 → st.list = [] ∧ ∀ pl ∈ H, keyOf pl.2 delim = st.prevKey)
  ∧ (st.firstOffset ≠ -1 →
      0 ≤ st.firstOffset
      ∧ (∃ l, (st.firstOffset.toNat, l) ∈ H ∧ keyOf l delim = st.prevKey)
      ∧ (∀ q m, (q, m) ∈ H →
          (q < st.firstOffset.toNat → bytesCompare (keyOf m delim) st.prevKey = -1)
          ∧ (st.firstOffset.toNat ≤ q → keyOf m delim = st.prevKey)))

theorem genInv_init (delim : List Nat) (bp : Nat) (hdr : Bool)
    (hf : List (List Nat)) :
    genInv delim { genInit hdr hf with blockPosition := bp } [] := by
  refine ⟨?_, ?_, ?_, ?_, ?_, ?_⟩ <;> simp [genInit]

theorem genInv_keys_le {delim : List Nat} {st : GenState}
    {H : List (Nat × List Nat)} (hinv : genInv delim st H) :
    ∀ q m, (q, m) ∈ H → bytesCompare (keyOf m delim) st.prevKey ≤ 0 := by
  intro q m hqm
  by_cases hf : st.firstOffset = -1
  · have := (hinv.2.2.2.2.1 hf).2 (q, m) hqm
    simp only at this
    rw [this, bytesCompare_self]
  · obtain ⟨_, _, hall⟩ := hinv.2.2.2.2.2 hf
    by_cases hq : q < st.firstOffset.toNat
    · have := ((hall q m hqm).1 hq)
      simp [this]
    · have := ((hall q m hqm).2 (by omega))
      rw [this, bytesCompare_self]

theorem genInv_entry_key_le {delim : List Nat} {st : GenState}
    {H : List (Nat × List Nat)} (hinv : genInv delim st H) :
    ∀ e ∈ st.list, bytesCompare e.key st.prevKey ≤ 0 := by
  intro e he
  obtain ⟨p, l, hpl, _, hkey, _⟩ := hinv.2.2.2.1 e he
  rw [hkey]
  exact genInv_keys_le hinv p l hpl

theorem genInv_pos_lt_bp {delim : List Nat} {st : GenState}
    {H : List (Nat × List Nat)} (hinv : genInv delim st H) :
    ∀ q m, (q, m) ∈ H → q < st.blockPosition := by
  intro q m hqm
  have := hinv.2.1 (q, m) hqm
  simp only at this
  omega

theorem genInv_entry_offset_le {delim : List Nat} {st : GenState}
    {H : List (Nat × List Nat)} (hinv : genInv delim st H) :
    ∀ e ∈ st.list, e.offset ≤ st.firstOffset := by
  intro e he
  obtain ⟨p, l, hpl, hoff, hkey, hfirst⟩ := hinv.2.2.2.1 e he
  by_cases hf : st.firstOffset = -1
  · have := (hinv.2.2.2.2.1 hf).1
    rw [this] at he
    simp at he
  · obtain ⟨hf0, ⟨lf, hlf, hlfkey⟩, hall⟩ := hinv.2.2.2.2.2 hf
    by_cases hple : p ≤ st.firstOffset.toNat
    · rw [hoff]
      omega
    · exfalso
      push_neg at hple
      have hkeyp : keyOf l delim = st.prevKey := (hall p l hpl).2 (by omega)
      have hlt := hfirst st.firstOffset.toNat lf hlf (by omega)
      rw [hkey, hkeyp, hlfkey] at hlt
      rw [bytesCompare_self] at hlt
      cases hlt

theorem genInv_firstOffset_lt_bp {delim : List Nat} {st : GenState}
    {H : List (Nat × List Nat)} (hinv : genInv delim st H)
    (hf : st.firstOffset ≠ -1) : st.firstOffset < (st.blockPosition : Int) := by
  obtain ⟨hf0, ⟨lf, hlf, _⟩, _⟩ := hinv.2.2.2.2.2 hf
  have := genInv_pos_lt_bp hinv st.firstOffset.toNat lf hlf
  omega

theorem getLast?_mem {α : Type} : ∀ {l : List α} {a : α},
    l.getLast? = some a → a ∈ l := by
  intro l
  induction l with
  | nil => intro a h; simp at h
  | cons b bs ih =>
    intro a h
    cases bs with
    | nil => simp_all
    | cons c cs =>
      rw [List.getLast?_cons_cons] at h
      exact List.mem_cons_of_mem _ (ih h)

theorem getLast?_eq_none_iff {α : Type} {l : List α} :
    l.getLast? = none ↔ l = [] := by
  induction l with
  | nil => simp
  | cons b bs ih =>
    cases bs with
    | nil => simp
    | cons c cs =>
      rw [List.getLast?_cons_cons]
      simp only [ih]
      simp

theorem getLast?_snoc {α : Type} (l : List α) (a : α) :
    (l ++ [a]).getLast? = some a := by
  induction l with
  | nil => rfl
  | cons b bs ih =>
    cases bs with
    | nil => rfl
    | cons c cs =>
      rw [List.cons_append, List.cons_append, List.getLast?_cons_cons,
        ← List.cons_append, ih]

theorem bytesCompare_nil_le (k : List Nat) : bytesCompare [] k ≤ 0 := by
  cases k <;> simp [bytesCompare]

theorem genInv_step_dup {delim : List Nat} {st st' : GenState}
    {H : List (Nat × List Nat)} {line : List Nat}
    (hinv : genInv delim st H)
    (hkey : keyOf line delim = st.prevKey)
    (hbp : st'.blockPosition = st.blockPosition + line.length + 1)
    (hfo : st'.firstOffset = st.firstOffset)
    (hpk : st'.prevKey = st.prevKey)
    (hlist : st'.list = st.list ∨
      ((match st.list.getLast? with
        | some e => e.offset
        | none => (-1 : Int)) ≠ st.firstOffset
       ∧ st'.list = st.list ++ [⟨keyOf line delim, st.firstOffset⟩])) :
    genInv delim st' (H ++ [(st.blockPosition, line)]) := by
  refine ⟨?_, ?_, ?_, ?_, ?_, ?_⟩
  · intro p l hpl
    rw [getLast?_snoc] at hpl
    injection hpl with hpl
    injection hpl with hp hl
    subst hp; subst hl
    exact hbp
  · intro pl hpl
    rcases List.mem_append.mp hpl with h | h
    · have := hinv.2.1 pl h
      rw [hbp]; omega
    · rw [List.mem_singleton] at h
      subst h
      show st.blockPosition + line.length + 1 ≤ st'.blockPosition
      rw [hbp]
  · rcases hlist with hA | ⟨hne, hB⟩
    · rw [hA]; exact hinv.2.2.1
    · rw [hB, List.chain'_append]
      refine ⟨hinv.2.2.1, List.chain'_singleton _, ?_⟩
      intro e he y hy
      rw [Option.mem_def] at he hy
      simp only [List.head?_cons, Option.some.injEq] at hy
      subst hy
      have hmem := getLast?_mem he
      constructor
      · show bytesCompare e.key (keyOf line delim) ≤ 0
        rw [hkey]
        exact genInv_entry_key_le hinv e hmem
      · show e.offset < st.firstOffset
        have hle := genInv_entry_offset_le hinv e hmem
        have hne' : e.offset ≠ st.firstOffset := by
          rw [he] at hne
          exact hne
        omega
  · intro e he
    have oldCase : e ∈ st.list →
        ∃ p l, (p, l) ∈ H ++ [(st.blockPosition, line)] ∧ e.offset = (p : Int)
          ∧ e.key = keyOf l delim
          ∧ ∀ q m, (q, m) ∈ H ++ [(st.blockPosition, line)] → q < p →
              bytesCompare (keyOf m delim) e.key = -1 := by
      intro hee
      obtain ⟨p, l, hpl, ho, hk, hfirst⟩ := hinv.2.2.2.1 e hee
      refine ⟨p, l, List.mem_append_left _ hpl, ho, hk, ?_⟩
      intro q m hqm hq
      rcases List.mem_append.mp hqm with h | h
      · exact hfirst q m h hq
      · rw [List.mem_singleton] at h
        injection h with h1 h2
        have := genInv_pos_lt_bp hinv p l hpl
        omega
    rcases hlist with hA | ⟨hne, hB⟩
    · rw [hA] at he
      exact oldCase he
    · rw [hB] at he
      rcases List.mem_append.mp he with h | h
      · exact oldCase h
      · rw [List.mem_singleton] at h
        subst h
        have hfne : st.firstOffset ≠ -1 := by
          intro hf
          have h50 := (hinv.2.2.2.2.1 hf).1
          rw [h50, hf] at hne
          exact hne rfl
        obtain ⟨h60, ⟨l0, hl0, hl0k⟩, hall⟩ := hinv.2.2.2.2.2 hfne
        have hfolt := genInv_firstOffset_lt_bp hinv hfne
        refine ⟨st.firstOffset.toNat, l0, List.mem_append_left _ hl0, ?_, ?_, ?_⟩
        · show st.firstOffset = (st.firstOffset.toNat : Int)
          omega
        · show keyOf line delim = keyOf l0 delim
          rw [hkey]
          exact hl0k.symm
        · intro q m hqm hq
          rcases List.mem_append.mp hqm with h | h
          · have := (hall q m h).1 hq
            show bytesCompare (keyOf m delim) (keyOf line delim) = -1
            rw [hkey]
            exact this
          · rw [List.mem_singleton] at h
            injection h with h1 h2
            omega
  · intro hf
    rw [hfo] at hf
    obtain ⟨hl5, hk5⟩ := hinv.2.2.2.2.1 hf
    rcases hlist with hA | ⟨hne, hB⟩
    · constructor
      · rw [hA]; exact hl5
      · intro pl hpl
        rcases List.mem_append.mp hpl with h | h
        · rw [hpk]; exact hk5 pl h
        · rw [List.mem_singleton] at h
          subst h
          show keyOf line delim = st'.prevKey
          rw [hpk]; exact hkey
    · exfalso
      rw [hl5, hf] at hne
      exact hne rfl
  · intro hf
    rw [hfo] at hf
    obtain ⟨h60, ⟨l0, hl0, hl0k⟩, hall⟩ := hinv.2.2.2.2.2 hf
    have hfolt := genInv_firstOffset_lt_bp hinv hf
    rw [hfo, hpk]
    refine ⟨h60, ⟨l0, List.mem_append_left _ hl0, hl0k⟩, ?_⟩
    intro q m hqm
    rcases List.mem_append.mp hqm with h | h
    · exact hall q m h
    · rw [List.mem_singleton] at h
      injection h with h1 h2
      subst h2
      constructor
      · intro hq
        exfalso
        omega
      · intro _
        exact hkey

theorem genInv_step_new {delim : List Nat} {st st' : GenState}
    {H : List (Nat × List Nat)} {line : List Nat}
    (hinv : genInv delim st H)
    (hlt : bytesCompare st.prevKey (keyOf line delim) = -1)
    (hbp : st'.blockPosition = st.blockPosition + line.length + 1)
    (hfo : st'.firstOffset = (st.blockPosition : Int))
    (hpk : st'.prevKey = keyOf line delim)
    (hlist : st'.list = st.list ∨
      st'.list = st.list ++ [⟨keyOf line delim, (st.blockPosition : Int)⟩]) :
    genInv delim st' (H ++ [(st.blockPosition, line)]) := by
  have hksmall : ∀ q m, (q, m) ∈ H →
      bytesCompare (keyOf m delim) (keyOf line delim) = -1 := by
    intro q m hqm
    exact bytesCompare_lt_of_le_lt (genInv_keys_le hinv q m hqm) hlt
  refine ⟨?_, ?_, ?_, ?_, ?_, ?_⟩
  · intro p l hpl
    rw [getLast?_snoc] at hpl
    injection hpl with hpl
    injection hpl with hp hl
    subst hp; subst hl
    exact hbp
  · intro pl hpl
    rcases List.mem_append.mp hpl with h | h
    · have := hinv.2.1 pl h
      rw [hbp]; omega
    · rw [List.mem_singleton] at h
      subst h
      show st.blockPosition + line.length + 1 ≤ st'.blockPosition
      rw [hbp]
  · rcases hlist with hA | hB
    · rw [hA]; exact hinv.2.2.1
    · rw [hB, List.chain'_append]
      refine ⟨hinv.2.2.1, List.chain'_singleton _, ?_⟩
      intro e he y hy
      rw [Option.mem_def] at he hy
      simp only [List.head?_cons, Option.some.injEq] at hy
      subst hy
      have hmem := getLast?_mem he
      constructor
      · show bytesCompare e.key (keyOf line delim) ≤ 0
        have := bytesCompare_lt_of_le_lt (genInv_entry_key_le hinv e hmem) hlt
        omega
      · show e.offset < (st.blockPosition : Int)
        have hle := genInv_entry_offset_le hinv e hmem
        by_cases hfe : st.firstOffset = -1
        · have h50 := (hinv.2.2.2.2.1 hfe).1
          rw [h50] at hmem
          cases hmem
        · have := genInv_firstOffset_lt_bp hinv hfe
          omega
  · intro e he
    have oldCase : e ∈ st.list →
        ∃ p l, (p, l) ∈ H ++ [(st.blockPosition, line)] ∧ e.offset = (p : Int)
          ∧ e.key = keyOf l delim
          ∧ ∀ q m, (q, m) ∈ H ++ [(st.blockPosition, line)] → q < p →
              bytesCompare (keyOf m delim) e.key = -1 := by
      intro hee
      obtain ⟨p, l, hpl, ho, hk, hfirst⟩ := hinv.2.2.2.1 e hee
      refine ⟨p, l, List.mem_append_left _ hpl, ho, hk, ?_⟩
      intro q m hqm hq
      rcases List.mem_append.mp hqm with h | h
      · exact hfirst q m h hq
      · rw [List.mem_singleton] at h
        injection h with h1 h2
        have := genInv_pos_lt_bp hinv p l hpl
        omega
    rcases hlist with hA | hB
    · rw [hA] at he
      exact oldCase he
    · rw [hB] at he
      rcases List.mem_append.mp he with h | h
      · exact oldCase h
      · rw [List.mem_singleton] at h
        subst h
        refine ⟨st.blockPosition, line,
          List.mem_append_right _ (List.mem_singleton.mpr rfl), rfl, rfl, ?_⟩
        intro q m hqm hq
        rcases List.mem_append.mp hqm with h | h
        · exact hksmall q m h
        · rw [List.mem_singleton] at h
          injection h with h1 h2
          omega
  · intro hf
    rw [hfo] at hf
    exfalso
    omega
  · intro _
    rw [hfo, hpk]
    have htn : ((st.blockPosition : Int)).toNat = st.blockPosition := by omega
    refine ⟨by omega, ⟨line, ?_, rfl⟩, ?_⟩
    · rw [htn]
      exact List.mem_append_right _ (List.mem_singleton.mpr rfl)
    · intro q m hqm
      rw [htn]
      rcases List.mem_append.mp hqm with h | h
      · constructor
        · intro _
          exact hksmall q m h
        · intro hge
          exfalso
          have := genInv_pos_lt_bp hinv q m h
          omega
      · rw [List.mem_singleton] at h
        injection h with h1 h2
        subst h2
        constructor
        · intro hq
          omega
        · intro _
          rfl

theorem genStep_noReset_inv {bs : Nat} {delim : List Nat} {st st' : GenState}
    {line : List Nat} {H : List (Nat × List Nat)}
    (hinv : genInv delim st H)
    (hle : bytesCompare st.prevKey (keyOf line delim) ≤ 0)
    (hok : genStep bs delim st line = .ok st') :
    genInv delim st' (H ++ [(st.blockPosition, line)])
    ∧ st'.prevKey = keyOf line delim
    ∧ st'.blockPosition = st.blockPosition + line.length + 1 := by
  have hc1 : bytesCompare st.prevKey (keyOf line delim) ≠ 1 := by omega
  by_cases hdup : bytesCompare st.prevKey (keyOf line delim) = 0
  · have hkey : keyOf line delim = st.prevKey := (bytesCompare_eq_zero_iff.mp hdup).symm
    by_cases hemit : (st.blockPosition : Int) / (bs : Int) > st.blockNumber
    · by_cases happ : (match st.list.getLast? with
          | some e => e.offset
          | none => (-1 : Int)) = st.firstOffset
      · simp only [genStep] at hok
        simp [hdup, hemit, happ] at hok
        split at hok <;>
          (rw [← hok]
           exact ⟨genInv_step_dup hinv hkey rfl rfl rfl (Or.inl rfl), hkey.symm, rfl⟩)
      · simp only [genStep] at hok
        simp [hdup, hemit, happ] at hok
        split at hok <;>
          (rw [← hok]
           exact ⟨genInv_step_dup hinv hkey rfl rfl rfl (Or.inr ⟨happ, rfl⟩),
             hkey.symm, rfl⟩)
    · simp only [genStep] at hok
      simp [hdup, hemit] at hok
      split at hok <;>
        (rw [← hok]
         exact ⟨genInv_step_dup hinv hkey rfl rfl rfl (Or.inl rfl), hkey.symm, rfl⟩)
  · have hlt : bytesCompare st.prevKey (keyOf line delim) = -1 := by
      rcases bytesCompare_trichotomy st.prevKey (keyOf line delim) with h | h | h
      · exact h
      · exact absurd h hdup
      · omega
    by_cases hemit : (st.blockPosition : Int) / (bs : Int) > st.blockNumber
    · by_cases happ : (match st.list.getLast? with
          | some e => e.offset
          | none => (-1 : Int)) = (st.blockPosition : Int)
      · simp only [genStep] at hok
        simp [hlt, hemit, happ] at hok
        split at hok <;>
          (rw [← hok]
           exact ⟨genInv_step_new hinv hlt rfl rfl rfl (Or.inl rfl), rfl, rfl⟩)
      · simp only [genStep] at hok
        simp [hlt, hemit, happ] at hok
        split at hok <;>
          (rw [← hok]
           exact ⟨genInv_step_new hinv hlt rfl rfl rfl (Or.inr rfl), rfl, rfl⟩)
    · simp only [genStep] at hok
      simp [hlt, hemit] at hok
      split at hok <;>
        (rw [← hok]
         exact ⟨genInv_step_new hinv hlt rfl rfl rfl (Or.inl rfl), rfl, rfl⟩)

theorem genFold_inv {bs : Nat} {delim : List Nat} :
    ∀ (ls : List (List Nat)) (st out : GenState) (H : List (Nat × List Nat)),
    genInv delim st H →
    List.Chain (fun a b => bytesCompare a b ≤ 0) st.prevKey
      (ls.map (fun l => keyOf l delim)) →
    genFold bs delim st ls = .ok out →
    genInv delim out (H ++ lineOffsetsFrom st.blockPosition ls) := by
  intro ls
  induction ls with
  | nil =>
    intro st out H hinv hch hok
    have hok2 : (Except.ok st : Except GenErr GenState) = .ok out := hok
    injection hok2 with h
    subst h
    simpa [lineOffsetsFrom] using hinv
  | cons l ls ih =>
    intro st out H hinv hch hok
    rw [List.map_cons, List.chain_cons] at hch
    obtain ⟨hle, hch'⟩ := hch
    simp only [genFold] at hok
    cases hstep : genStep bs delim st l with
    | error e =>
      rw [hstep] at hok
      exact absurd hok (by simp)
    | ok st2 =>
      rw [hstep] at hok
      have hok2 : genFold bs delim st2 ls = .ok out := hok
      obtain ⟨hinv2, hpk2, hbp2⟩ := genStep_noReset_inv hinv hle hstep
      have hch2 : List.Chain (fun a b => bytesCompare a b ≤ 0) st2.prevKey
          (ls.map (fun l => keyOf l delim)) := by
        rw [hpk2]; exact hch'
      have hrec := ih st2 out (H ++ [(st.blockPosition, l)]) hinv2 hch2 hok2
      rw [hbp2] at hrec
      simp only [lineOffsetsFrom]
      rw [List.append_cons]
      exact hrec

theorem genInv_key_unique {delim : List Nat} {st : GenState}
    {H : List (Nat × List Nat)} (hinv : genInv delim st H) :
    ∀ e ∈ st.list, ∀ e' ∈ st.list, e.key = e'.key → e = e' := by
  intro e he e' he' hk
  obtain ⟨p, l, hpl, ho, hke, hfirst⟩ := hinv.2.2.2.1 e he
  obtain ⟨p', l', hpl', ho', hke', hfirst'⟩ := hinv.2.2.2.1 e' he'
  rcases Nat.lt_trichotomy p p' with h | h | h
  · exfalso
    have hx := hfirst' p l hpl h
    rw [← hke, hk, bytesCompare_self] at hx
    exact absurd hx (by decide)
  · cases e; cases e'
    simp only [IndexEntry.mk.injEq] at hk ho ho' ⊢
    subst h
    exact ⟨hk, by rw [ho, ho']⟩
  · exfalso
    have hx := hfirst p' l' hpl' h
    rw [← hke', ← hk, bytesCompare_self] at hx
    exact absurd hx (by decide)

theorem chain_nil_of_chain' {ks : List (List Nat)}
    (h : List.Chain' (fun a b => bytesCompare a b ≤ 0) ks) :
    List.Chain (fun a b => bytesCompare a b ≤ 0) [] ks := by
  cases ks with
  | nil => exact List.Chain.nil
  | cons k t => exact List.Chain.cons (bytesCompare_nil_le k) h

/-- Block-arithmetic invariant of the `generateLineIndex` loop: the
recorded block ordinal never exceeds the block of the current position;
once `blockNumber` has passed the block of the current key run's first
line, an entry with the current key has been emitted; and before any
non-duplicate line is seen (`firstOffset` unset) the previous key is
still the initial empty key. -/
def genInvB (bs : Nat) (st : GenState) : Prop :=
  st.blockNumber ≤ (st.blockPosition : Int) / (bs : Int)
  ∧ (st.firstOffset ≠ -1 → st.firstOffset / (bs : Int) < st.blockNumber →
      ∃ e ∈ st.list, e.key = st.prevKey)
  ∧ (st.firstOffset = -1 → st.prevKey = [])

theorem genInvB_init (bs : Nat) (bp : Nat) (hdr : Bool)
    (hf : List (List Nat)) :
    genInvB bs { genInit hdr hf with blockPosition := bp } := by
  refine ⟨?_, ?_, ?_⟩
  · show (-1 : Int) ≤ (bp : Int) / (bs : Int)
    have h0 : (0 : Int) ≤ (bp : Int) / (bs : Int) :=
      Int.ediv_nonneg (by omega) (by omega)
    omega
  · intro h
    exact absurd rfl h
  · intro _
    rfl

/-- Coverage invariant of the `generateLineIndex` loop: every nonempty
key whose processed lines straddle two different blocks already has an
entry in the list built so far. -/
def genCov (bs : Nat) (delim : List Nat) (st : GenState)
    (H : List (Nat × List Nat)) : Prop :=
  ∀ p l q m, (p, l) ∈ H → (q, m) ∈ H →
    keyOf l delim = keyOf m delim → keyOf l delim ≠ [] →
    p / bs ≠ q / bs → ∃ e ∈ st.list, e.key = keyOf l delim

theorem genInv_last_key_eq {delim : List Nat} {st : GenState}
    {H : List (Nat × List Nat)} (hinv : genInv delim st H)
    (hfne : st.firstOffset ≠ -1)
    (hlast : (match st.list.getLast? with
      | some e => e.offset
      | none => (-1 : Int)) = st.firstOffset) :
    ∃ e ∈ st.list, e.key = st.prevKey := by
  obtain ⟨h60, ⟨lf, hlf, hlfk⟩, hall⟩ := hinv.2.2.2.2.2 hfne
  cases hgl : st.list.getLast? with
  | none =>
    rw [hgl] at hlast
    have hlast2 : (-1 : Int) = st.firstOffset := hlast
    exact absurd hlast2.symm hfne
  | some e =>
    rw [hgl] at hlast
    have hlast2 : e.offset = st.firstOffset := hlast
    have hmem := getLast?_mem hgl
    obtain ⟨p0, l0, hp0, ho0, hk0, _⟩ := hinv.2.2.2.1 e hmem
    have hp0ge : st.firstOffset.toNat ≤ p0 := by omega
    have hkk := (hall p0 l0 hp0).2 hp0ge
    exact ⟨e, hmem, by rw [hk0, hkk]⟩

theorem genCov_step_dup {bs : Nat} {delim : List Nat} {st st' : GenState}
    {H : List (Nat × List Nat)} {line : List Nat}
    (hinv : genInv delim st H)
    (hB : genInvB bs st)
    (hC : genCov bs delim st H)
    (hkey : keyOf line delim = st.prevKey)
    (hbp : st'.blockPosition = st.blockPosition + line.length + 1)
    (hfo : st'.firstOffset = st.firstOffset)
    (hpk : st'.prevKey = st.prevKey)
    (hcase :
      (¬ (st.blockPosition : Int) / (bs : Int) > st.blockNumber
        ∧ st'.blockNumber = st.blockNumber ∧ st'.list = st.list)
      ∨ (st'.blockNumber = (st.blockPosition : Int) / (bs : Int)
        ∧ (st'.list = st.list ++ [⟨keyOf line delim, st.firstOffset⟩]
          ∨ ((match st.list.getLast? with
              | some e => e.offset
              | none => (-1 : Int)) = st.firstOffset
            ∧ st'.list = st.list)))) :
    genInvB bs st' ∧ genCov bs delim st' (H ++ [(st.blockPosition, line)]) := by
  have hmono : (st.blockPosition : Int) / (bs : Int)
      ≤ ((st.blockPosition + line.length + 1 : Nat) : Int) / (bs : Int) := by
    rw [← Int.natCast_div, ← Int.natCast_div]
    have h1 : st.blockPosition / bs ≤ (st.blockPosition + line.length + 1) / bs :=
      Nat.div_le_div_right (by omega)
    exact_mod_cast h1
  have hsub : ∀ e ∈ st.list, e ∈ st'.list := by
    intro e he
    rcases hcase with ⟨_, _, hlst⟩ | ⟨_, hlst | ⟨_, hlst⟩⟩
    · rw [hlst]
      exact he
    · rw [hlst]
      exact List.mem_append_left _ he
    · rw [hlst]
      exact he
  have hmain : ∀ r t, (r, t) ∈ H → keyOf t delim = keyOf line delim →
      keyOf t delim ≠ [] → ¬ r / bs = st.blockPosition / bs →
      ∃ e ∈ st'.list, e.key = keyOf line delim := by
    intro r t hrt hkt hktne hrb
    have hkpk : keyOf t delim = st.prevKey := by rw [hkt, hkey]
    have hfne : st.firstOffset ≠ -1 := by
      intro hfo1
      exact hktne (by rw [hkpk, hB.2.2 hfo1])
    obtain ⟨h60, ⟨lf, hlf, hlfk⟩, hall⟩ := hinv.2.2.2.2.2 hfne
    have hrge : st.firstOffset.toNat ≤ r := by
      by_contra hltx
      push_neg at hltx
      have hcmp := (hall r t hrt).1 hltx
      rw [hkpk, bytesCompare_self] at hcmp
      exact absurd hcmp (by decide)
    have hrlt : r < st.blockPosition := genInv_pos_lt_bp hinv r t hrt
    have hdivlt : r / bs < st.blockPosition / bs := by
      have h1 : r / bs ≤ st.blockPosition / bs :=
        Nat.div_le_div_right (Nat.le_of_lt hrlt)
      exact lt_of_le_of_ne h1 hrb
    have hfodiv : st.firstOffset.toNat / bs ≤ r / bs :=
      Nat.div_le_div_right hrge
    rcases hcase with ⟨hnemit, _, hlst⟩ | ⟨_, hlst | ⟨hlastx, hlst⟩⟩
    · push_neg at hnemit
      have hx : ((st.firstOffset.toNat / bs : Nat) : Int)
          < ((st.blockPosition / bs : Nat) : Int) := by
        exact_mod_cast Nat.lt_of_le_of_lt hfodiv hdivlt
      rw [Int.natCast_div, Int.natCast_div, Int.toNat_of_nonneg h60] at hx
      obtain ⟨e, he, hek⟩ := hB.2.1 hfne (lt_of_lt_of_le hx hnemit)
      exact ⟨e, hsub e he, by rw [hek, hkey]⟩
    · refine ⟨⟨keyOf line delim, st.firstOffset⟩, ?_, rfl⟩
      rw [hlst]
      exact List.mem_append_right _ (List.mem_singleton.mpr rfl)
    · obtain ⟨e, he, hek⟩ := genInv_last_key_eq hinv hfne hlastx
      exact ⟨e, hsub e he, by rw [hek, hkey]⟩
  refine ⟨⟨?_, ?_, ?_⟩, ?_⟩
  · rw [hbp]
    rcases hcase with ⟨_, hbn, _⟩ | ⟨hbn, _⟩
    · rw [hbn]
      exact le_trans hB.1 hmono
    · rw [hbn]
      exact hmono
  · intro hfne hflt
    rw [hfo] at hfne hflt
    rw [hpk]
    rcases hcase with ⟨_, hbn, hlst⟩ | ⟨hbn, hlst | ⟨hlastx, hlst⟩⟩
    · rw [hbn] at hflt
      rw [hlst]
      exact hB.2.1 hfne hflt
    · refine ⟨⟨keyOf line delim, st.firstOffset⟩, ?_, hkey⟩
      rw [hlst]
      exact List.mem_append_right _ (List.mem_singleton.mpr rfl)
    · obtain ⟨e, he, hek⟩ := genInv_last_key_eq hinv hfne hlastx
      exact ⟨e, by rw [hlst]; exact he, hek⟩
  · intro hfo1
    rw [hfo] at hfo1
    rw [hpk]
    exact hB.2.2 hfo1
  · intro p l q m hp hq hkeq hkne hblk
    rcases List.mem_append.mp hp with hpH | hpN
    · rcases List.mem_append.mp hq with hqH | hqN
      · obtain ⟨e, he, hek⟩ := hC p l q m hpH hqH hkeq hkne hblk
        exact ⟨e, hsub e he, hek⟩
      · rw [List.mem_singleton] at hqN
        injection hqN with h1 h2
        subst h1
        subst h2
        obtain ⟨e, he, hek⟩ := hmain p l hpH hkeq hkne hblk
        exact ⟨e, he, by rw [hek, ← hkeq]⟩
    · rw [List.mem_singleton] at hpN
      injection hpN with h1 h2
      subst h2
      rcases List.mem_append.mp hq with hqH | hqN
      · obtain ⟨e, he, hek⟩ := hmain q m hqH hkeq.symm
          (by rw [← hkeq]; exact hkne) (fun hx => hblk (by rw [h1, hx]))
        exact ⟨e, he, hek⟩
      · rw [List.mem_singleton] at hqN
        injection hqN with h3 h4
        subst h1
        subst h3
        exact absurd rfl hblk

theorem genCov_step_new {bs : Nat} {delim : List Nat} {st st' : GenState}
    {H : List (Nat × List Nat)} {line : List Nat}
    (hinv : genInv delim st H)
    (hB : genInvB bs st)
    (hC : genCov bs delim st H)
    (hlt : bytesCompare st.prevKey (keyOf line delim) = -1)
    (hbp : st'.blockPosition = st.blockPosition + line.length + 1)
    (hfo : st'.firstOffset = (st.blockPosition : Int))
    (hpk : st'.prevKey = keyOf line delim)
    (hcase :
      (¬ (st.blockPosition : Int) / (bs : Int) > st.blockNumber
        ∧ st'.blockNumber = st.blockNumber ∧ st'.list = st.list)
      ∨ (st'.blockNumber = (st.blockPosition : Int) / (bs : Int)
        ∧ (st'.list = st.list
          ∨ st'.list = st.list ++ [⟨keyOf line delim, (st.blockPosition : Int)⟩]))) :
    genInvB bs st' ∧ genCov bs delim st' (H ++ [(st.blockPosition, line)]) := by
  have hmono : (st.blockPosition : Int) / (bs : Int)
      ≤ ((st.blockPosition + line.length + 1 : Nat) : Int) / (bs : Int) := by
    rw [← Int.natCast_div, ← Int.natCast_div]
    have h1 : st.blockPosition / bs ≤ (st.blockPosition + line.length + 1) / bs :=
      Nat.div_le_div_right (by omega)
    exact_mod_cast h1
  have hsub : ∀ e ∈ st.list, e ∈ st'.list := by
    intro e he
    rcases hcase with ⟨_, _, hlst⟩ | ⟨_, hlst | hlst⟩
    · rw [hlst]
      exact he
    · rw [hlst]
      exact he
    · rw [hlst]
      exact List.mem_append_left _ he
  have hcontr : ∀ r t, (r, t) ∈ H → keyOf t delim = keyOf line delim → False := by
    intro r t hrt hkt
    have h1 := genInv_keys_le hinv r t hrt
    have h2 := bytesCompare_lt_of_le_lt h1 hlt
    rw [hkt, bytesCompare_self] at h2
    exact absurd h2 (by decide)
  refine ⟨⟨?_, ?_, ?_⟩, ?_⟩
  · rw [hbp]
    rcases hcase with ⟨_, hbn, _⟩ | ⟨hbn, _⟩
    · rw [hbn]
      exact le_trans hB.1 hmono
    · rw [hbn]
      exact hmono
  · intro hfne hflt
    rw [hfo] at hflt
    rcases hcase with ⟨_, hbn, _⟩ | ⟨hbn, _⟩
    · rw [hbn] at hflt
      exact absurd hflt (not_lt.mpr hB.1)
    · rw [hbn] at hflt
      exact absurd hflt (lt_irrefl _)
  · intro hfo1
    rw [hfo] at hfo1
    exact absurd hfo1 (by omega)
  · intro p l q m hp hq hkeq hkne hblk
    rcases List.mem_append.mp hp with hpH | hpN
    · rcases List.mem_append.mp hq with hqH | hqN
      · obtain ⟨e, he, hek⟩ := hC p l q m hpH hqH hkeq hkne hblk
        exact ⟨e, hsub e he, hek⟩
      · rw [List.mem_singleton] at hqN
        injection hqN with h1 h2
        subst h2
        exact (hcontr p l hpH hkeq).elim
    · rw [List.mem_singleton] at hpN
      injection hpN with h1 h2
      subst h2
      rcases List.mem_append.mp hq with hqH | hqN
      · exact (hcontr q m hqH hkeq.symm).elim
      · rw [List.mem_singleton] at hqN
        injection hqN with h3 h4
        subst h1
        subst h3
        exact absurd rfl hblk

theorem genStep_noReset_invB {bs : Nat} {delim : List Nat} {st st' : GenState}
    {line : List Nat} {H : List (Nat × List Nat)}
    (hinv : genInv delim st H)
    (hB : genInvB bs st)
    (hC : genCov bs delim st H)
    (hle : bytesCompare st.prevKey (keyOf line delim) ≤ 0)
    (hok : genStep bs delim st line = .ok st') :
    genInvB bs st' ∧ genCov bs delim st' (H ++ [(st.blockPosition, line)]) := by
  by_cases hdup : bytesCompare st.prevKey (keyOf line delim) = 0
  · have hkey : keyOf line delim = st.prevKey := (bytesCompare_eq_zero_iff.mp hdup).symm
    by_cases hemit : (st.blockPosition : Int) / (bs : Int) > st.blockNumber
    · by_cases happ : (match st.list.getLast? with
          | some e => e.offset
          | none => (-1 : Int)) = st.firstOffset
      · simp only [genStep] at hok
        simp [hdup, hemit, happ] at hok
        split at hok <;>
          (rw [← hok]
           exact genCov_step_dup hinv hB hC hkey rfl rfl rfl
             (Or.inr ⟨rfl, Or.inr ⟨happ, rfl⟩⟩))
      · simp only [genStep] at hok
        simp [hdup, hemit, happ] at hok
        split at hok <;>
          (rw [← hok]
           exact genCov_step_dup hinv hB hC hkey rfl rfl rfl
             (Or.inr ⟨rfl, Or.inl rfl⟩))
    · simp only [genStep] at hok
      simp [hdup, hemit] at hok
      split at hok <;>
        (rw [← hok]
         exact genCov_step_dup hinv hB hC hkey rfl rfl rfl
           (Or.inl ⟨hemit, rfl, rfl⟩))
  · have hlt : bytesCompare st.prevKey (keyOf line delim) = -1 := by
      rcases bytesCompare_trichotomy st.prevKey (keyOf line delim) with h | h | h
      · exact h
      · exact absurd h hdup
      · omega
    by_cases hemit : (st.blockPosition : Int) / (bs : Int) > st.blockNumber
    · by_cases happ : (match st.list.getLast? with
          | some e => e.offset
          | none => (-1 : Int)) = (st.blockPosition : Int)
      · simp only [genStep] at hok
        simp [hlt, hemit, happ] at hok
        split at hok <;>
          (rw [← hok]
           exact genCov_step_new hinv hB hC hlt rfl rfl rfl
             (Or.inr ⟨rfl, Or.inl rfl⟩))
      · simp only [genStep] at hok
        simp [hlt, hemit, happ] at hok
        split at hok <;>
          (rw [← hok]
           exact genCov_step_new hinv hB hC hlt rfl rfl rfl
             (Or.inr ⟨rfl, Or.inr rfl⟩))
    · simp only [genStep] at hok
      simp [hlt, hemit] at hok
      split at hok <;>
        (rw [← hok]
         exact genCov_step_new hinv hB hC hlt rfl rfl rfl
           (Or.inl ⟨hemit, rfl, rfl⟩))

theorem genFold_invB {bs : Nat} {delim : List Nat} :
    ∀ (ls : List (List Nat)) (st out : GenState) (H : List (Nat × List Nat)),
    genInv delim st H → genInvB bs st → genCov bs delim st H →
    List.Chain (fun a b => bytesCompare a b ≤ 0) st.prevKey
      (ls.map (fun l => keyOf l delim)) →
    genFold bs delim st ls = .ok out →
    genCov bs delim out (H ++ lineOffsetsFrom st.blockPosition ls) := by
  intro ls
  induction ls with
  | nil =>
    intro st out H _ _ hC _ hok
    have hok2 : (Except.ok st : Except GenErr GenState) = .ok out := hok
    injection hok2 with h
    subst h
    simpa [lineOffsetsFrom] using hC
  | cons l ls ih =>
    intro st out H hinv hB hC hch hok
    rw [List.map_cons, List.chain_cons] at hch
    obtain ⟨hle, hch'⟩ := hch
    simp only [genFold] at hok
    cases hstep : genStep bs delim st l with
    | error e =>
      rw [hstep] at hok
      exact absurd hok (by simp)
    | ok st2 =>
      rw [hstep] at hok
      have hok2 : genFold bs delim st2 ls = .ok out := hok
      obtain ⟨hinv2, hpk2, hbp2⟩ := genStep_noReset_inv hinv hle hstep
      obtain ⟨hB2, hC2⟩ := genStep_noReset_invB hinv hB hC hle hstep
      have hch2 : List.Chain (fun a b => bytesCompare a b ≤ 0) st2.prevKey
          (ls.map (fun l => keyOf l delim)) := by
        rw [hpk2]; exact hch'
      have hrec := ih st2 out (H ++ [(st.blockPosition, l)]) hinv2 hB2 hC2 hch2 hok2
      rw [hbp2] at hrec
      simp only [lineOffsetsFrom]
      rw [List.append_cons]
      exact hrec

/-- The data lines `generateLineIndex` scans, each with its absolute byte
offset: when the index declares a header the first line is skipped and
the data start shifts past it and its newline, otherwise scanning starts
at offset 0. -/
def dataLineOffsets (idx : Index) (lines : List (List Nat)) :
    List (Nat × List Nat) :=
  lineOffsetsFrom (if idx.header then (lines.headD []).length + 1 else 0)
    (if idx.header then lines.tail else lines)

/-- Claim C7: every index built successfully from a dataset whose data
lines are bytewise key-sorted (the indexer's documented input invariant)
has `keysIndexFirst` set, and its entry list satisfies: consecutive
entries have non-decreasing keys and strictly increasing offsets; no two
distinct entries share a key; every entry's offset is the byte offset
of the first data line bearing the entry's key — all strictly earlier
data lines have strictly smaller keys; and every nonempty key with data
lines in two different blocks has an entry — with the previous two
conjuncts, a nonempty key spanning more than one block produces exactly
one entry, at the key's first occurrence.  (The nonemptiness proviso is
necessary: see the counterexample below, where the empty key spans two
blocks and produces no entry.) -/
theorem generateLineIndex_spec (idx : Index) (lines : List (List Nat)) (out : Index)
    (hok : generateLineIndex idx lines = .ok out)
    (hsort : List.Chain' (fun a b => bytesCompare a b ≤ 0)
      ((if idx.header then lines.tail else lines).map
        (fun l => keyOf l idx.delimiter))) :
    out.keysIndexFirst = true
    ∧ List.Chain' (fun e e' => bytesCompare e.key e'.key ≤ 0 ∧ e.offset < e'.offset)
        out.list
    ∧ (∀ e ∈ out.list, ∀ e' ∈ out.list, e.key = e'.key → e = e')
    ∧ (∀ e ∈ out.list, ∃ p l, (p, l) ∈ dataLineOffsets idx lines
        ∧ e.offset = (p : Int) ∧ e.key = keyOf l idx.delimiter
        ∧ ∀ q m, (q, m) ∈ dataLineOffsets idx lines → q < p →
            bytesCompare (keyOf m idx.delimiter) e.key = -1)
    ∧ (∀ p l q m, (p, l) ∈ dataLineOffsets idx lines →
        (q, m) ∈ dataLineOffsets idx lines →
        keyOf l idx.delimiter = keyOf m idx.delimiter →
        keyOf l idx.delimiter ≠ [] →
        p / idx.blocksize ≠ q / idx.blocksize →
        ∃ e ∈ out.list, e.key = keyOf l idx.delimiter) := by
  cases hh : idx.header with
  | false =>
    simp only [dataLineOffsets, hh, Bool.false_eq_true, if_false]
    simp only [hh, Bool.false_eq_true, if_false] at hsort
    simp only [generateLineIndex, hh, Bool.false_eq_true, if_false] at hok
    split at hok
    next e heq => simp at hok
    next stf heq =>
      split at hok
      next => simp at hok
      next hnil =>
        rw [Except.ok.injEq] at hok
        subst hok
        have hinv0 : genInv idx.delimiter (genInit false idx.headerFields) [] :=
          genInv_init idx.delimiter 0 false idx.headerFields
        have hch : List.Chain (fun a b => bytesCompare a b ≤ 0)
            (genInit false idx.headerFields).prevKey
            (lines.map (fun l => keyOf l idx.delimiter)) :=
          chain_nil_of_chain' hsort
        have hfinv := genFold_inv lines (genInit false idx.headerFields) stf []
          hinv0 hch heq
        rw [List.nil_append] at hfinv
        have hB0 : genInvB idx.blocksize (genInit false idx.headerFields) :=
          genInvB_init idx.blocksize 0 false idx.headerFields
        have hC0 : genCov idx.blocksize idx.delimiter
            (genInit false idx.headerFields) [] := by
          intro p l q m hp
          exact absurd hp (by simp)
        have hcov := genFold_invB lines (genInit false idx.headerFields) stf []
          hinv0 hB0 hC0 hch heq
        rw [List.nil_append] at hcov
        exact ⟨rfl, hfinv.2.2.1, genInv_key_unique hfinv, hfinv.2.2.2.1,
          fun p l q m hp hq h1 h2 h3 => hcov p l q m hp hq h1 h2 h3⟩
  | true =>
    cases lines with
    | nil =>
      simp [generateLineIndex, hh, genFold, genInit] at hok
    | cons l0 ls =>
      simp only [dataLineOffsets, hh, if_true, List.headD_cons, List.tail_cons]
      simp only [hh, if_true, List.tail_cons] at hsort
      simp only [generateLineIndex, hh, if_true] at hok
      split at hok
      next e heq => simp at hok
      next stf heq =>
        split at hok
        next => simp at hok
        next hnil =>
          rw [Except.ok.injEq] at hok
          subst hok
          have hinv0 : genInv idx.delimiter
              { genInit true idx.headerFields with
                blockPosition := l0.length + 1,
                headerFields := goSplit l0 idx.delimiter } [] :=
            genInv_init idx.delimiter (l0.length + 1) true (goSplit l0 idx.delimiter)
          have hch : List.Chain (fun a b => bytesCompare a b ≤ 0)
              ({ genInit true idx.headerFields with
                 blockPosition := l0.length + 1,
                 headerFields := goSplit l0 idx.delimiter } : GenState).prevKey
              (ls.map (fun l => keyOf l idx.delimiter)) :=
            chain_nil_of_chain' hsort
          have hfinv := genFold_inv ls
            { genInit true idx.headerFields with
              blockPosition := l0.length + 1,
              headerFields := goSplit l0 idx.delimiter } stf []
            hinv0 hch heq
          rw [List.nil_append] at hfinv
          have hB0 : genInvB idx.blocksize
              { genInit true idx.headerFields with
                blockPosition := l0.length + 1,
                headerFields := goSplit l0 idx.delimiter } :=
            genInvB_init idx.blocksize (l0.length + 1) true
              (goSplit l0 idx.delimiter)
          have hC0 : genCov idx.blocksize idx.delimiter
              { genInit true idx.headerFields with
                blockPosition := l0.length + 1,
                headerFields := goSplit l0 idx.delimiter } [] := by
            intro p l q m hp
            exact absurd hp (by simp)
          have hcov := genFold_invB ls
            { genInit true idx.headerFields with
              blockPosition := l0.length + 1,
              headerFields := goSplit l0 idx.delimiter } stf []
            hinv0 hB0 hC0 hch heq
          rw [List.nil_append] at hcov
          exact ⟨rfl, hfinv.2.2.1, genInv_key_unique hfinv, hfinv.2.2.2.1,
            fun p l q m hp hq h1 h2 h3 => hcov p l q m hp hq h1 h2 h3⟩

/-- Index options for the C7 witness build: blocksize 4, delimiter `,`,
no declared header. -/
def c7Index : Index :=
  { blocksize := 4, delimiter := [44], epoch := 0, filepath := [],
    filename := [], header := false, keysIndexFirst := false,
    keysUnique := false, length := 0, list := [], version := 4,
    headerFields := [] }

/-- The C7 witness dataset lines: `"a,1"`, `"a,2"`, `"b,3"` — the key
`a` spans blocks 0 and 1 (its lines sit at offsets 0 and 4, blocksize 4). -/
def c7Lines : List (List Nat) := [[97, 44, 49], [97, 44, 50], [98, 44, 51]]

/-- The index `generateLineIndex` builds from `c7Lines` with `c7Index`:
exactly one entry for the spanning key `a`, at its first occurrence
(offset 0), and one for `b`. -/
def c7Out : Index :=
  { blocksize := 4, delimiter := [44], epoch := 0, filepath := [],
    filename := [], header := false, keysIndexFirst := true,
    keysUnique := false, length := 2,
    list := [⟨[97], 0⟩, ⟨[98], 8⟩], version := 4,
    headerFields := [] }

/-- Witness for C7 on the dataset `"a,1\na,2\nb,3\n"` with blocksize 4:
the build succeeds, the entries are key-sorted with strictly increasing
offsets and pairwise distinct keys, each points at the first occurrence
of its key, every nonempty key with lines in two blocks has an entry —
in particular the key `a`, whose lines at offsets 0 and 4 straddle the
block boundary, has (exactly) one entry. -/
theorem generateLineIndex_spec_witness :
    generateLineIndex c7Index c7Lines = .ok c7Out
    ∧ c7Out.keysIndexFirst = true
    ∧ List.Chain' (fun e e' => bytesCompare e.key e'.key ≤ 0 ∧ e.offset < e'.offset)
        c7Out.list
    ∧ (∀ e ∈ c7Out.list, ∀ e' ∈ c7Out.list, e.key = e'.key → e = e')
    ∧ (∀ e ∈ c7Out.list, ∃ p l, (p, l) ∈ dataLineOffsets c7Index c7Lines
        ∧ e.offset = (p : Int) ∧ e.key = keyOf l c7Index.delimiter
        ∧ ∀ q m, (q, m) ∈ dataLineOffsets c7Index c7Lines → q < p →
            bytesCompare (keyOf m c7Index.delimiter) e.key = -1)
    ∧ (∀ p l q m, (p, l) ∈ dataLineOffsets c7Index c7Lines →
        (q, m) ∈ dataLineOffsets c7Index c7Lines →
        keyOf l c7Index.delimiter = keyOf m c7Index.delimiter →
        keyOf l c7Index.delimiter ≠ [] →
        p / c7Index.blocksize ≠ q / c7Index.blocksize →
        ∃ e ∈ c7Out.list, e.key = keyOf l c7Index.delimiter)
    ∧ (∃ e ∈ c7Out.list, e.key = keyOf [97, 44, 49] c7Index.delimiter) := by
  have hok : generateLineIndex c7Index c7Lines = .ok c7Out := by
    simp [generateLineIndex, genFold, genStep, genInit, keyOf, bytesIndex,
      indexByte, bytesCompare, goSplit, c7Index, c7Lines, c7Out]
  have hsort : List.Chain' (fun a b => bytesCompare a b ≤ 0)
      ((if c7Index.header then c7Lines.tail else c7Lines).map
        (fun l => keyOf l c7Index.delimiter)) := by
    simp [c7Index, c7Lines, keyOf, bytesIndex, indexByte, bytesCompare]
  have h := generateLineIndex_spec c7Index c7Lines c7Out hok hsort
  refine ⟨hok, h.1, h.2.1, h.2.2.1, h.2.2.2.1, h.2.2.2.2, ?_⟩
  exact h.2.2.2.2 0 [97, 44, 49] 4 [97, 44, 50] (by decide) (by decide)
    (by decide) (by decide) (by decide)

/-- The C7 counterexample dataset lines: `",a"`, `",b"`, `",c"`, `"x,1"`,
`"y,2"` — the empty key (each line starts with the delimiter) occupies
offsets 0, 3 and 6, so its lines sit in blocks 0 and 1 with blocksize 4,
and the key order over the whole dataset is non-decreasing. -/
def c7SpanLines : List (List Nat) :=
  [[44, 97], [44, 98], [44, 99], [120, 44, 49], [121, 44, 50]]

/-- The index built from `c7SpanLines`: entries only for `x` and `y`;
the empty key got none, because its run never set `firstOffset`, so each
emission attempted during the run carried offset `-1` — equal to the
initial last-entry offset — and was suppressed. -/
def c7SpanOut : Index :=
  { blocksize := 4, delimiter := [44], epoch := 0, filepath := [],
    filename := [], header := false, keysIndexFirst := true,
    keysUnique := false, length := 2,
    list := [⟨[120], 9⟩, ⟨[121], 13⟩], version := 4,
    headerFields := [] }

/-- Counterexample to the existence half of C7 as stated: the key-sorted
dataset `",a\n,b\n,c\nx,1\ny,2\n"` with blocksize 4 builds successfully,
the empty key occurs at data-line offsets 0 and 6 — two different
blocks — yet no entry of the resulting index carries the empty key.  A
key spanning more than one block need not produce any entry when it is
the dataset's leading empty key: that run never sets `firstOffset`, so
every block-boundary emission for it is anchored at offset `-1` and
suppressed as a repeat of the initial last-entry offset. -/
theorem generateLineIndex_spanningEmptyKey_counterexample :
    generateLineIndex c7Index c7SpanLines = .ok c7SpanOut
    ∧ List.Chain' (fun a b => bytesCompare a b ≤ 0)
        (c7SpanLines.map (fun l => keyOf l c7Index.delimiter))
    ∧ (0, [44, 97]) ∈ dataLineOffsets c7Index c7SpanLines
    ∧ (6, [44, 99]) ∈ dataLineOffsets c7Index c7SpanLines
    ∧ keyOf [44, 97] c7Index.delimiter = keyOf [44, 99] c7Index.delimiter
    ∧ 0 / c7Index.blocksize ≠ 6 / c7Index.blocksize
    ∧ ∀ e ∈ c7SpanOut.list, ¬ e.key = keyOf [44, 97] c7Index.delimiter := by
  refine ⟨?_, ?_, ?_, ?_, ?_, ?_, ?_⟩
  · simp [generateLineIndex, genFold, genStep, genInit, keyOf, bytesIndex,
      indexByte, bytesCompare, goSplit, c7Index, c7SpanLines, c7SpanOut]
  · simp [c7Index, c7SpanLines, keyOf, bytesIndex, indexByte, bytesCompare]
  · decide
  · decide
  · decide
  · decide
  · decide

/-- Lowercase hex digit character for a nibble (Go `strconv`'s
`lowerhex` table). -/
def lowerHexDigit (n : Nat) : Nat := if n < 10 then 48 + n else 87 + n

/-- Value of a hex digit character, as accepted by Go
`strconv.UnquoteChar` (`unhex`): `0-9`, `a-f`, `A-F`. -/
def unhex (c : Nat) : Option Nat :=
  if 48 ≤ c ∧ c ≤ 57 then some (c - 48)
  else if 97 ≤ c ∧ c ≤ 102 then some (c - 87)
  else if 65 ≤ c ∧ c ≤ 70 then some (c - 55)
  else none

theorem unhex_lowerHexDigit {n : Nat} (h : n < 16) :
    unhex (lowerHexDigit n) = some n := by
  interval_cases n <;> rfl

/-- UTF-8 encoding of a Unicode scalar value (Go `utf8.AppendRune` for
valid runes). -/
def utf8Encode (r : Nat) : List Nat :=
  if r < 0x80 then [r]
  else if r < 0x800 then [0xC0 + r / 64, 0x80 + r % 64]
  else if r < 0x10000 then
    [0xE0 + r / 4096, 0x80 + r / 64 % 64, 0x80 + r % 64]
  else [0xF0 + r / 262144, 0x80 + r / 4096 % 64, 0x80 + r / 64 % 64,
    0x80 + r % 64]

/-- Go `utf8.DecodeRuneInString`: decode the first rune of a byte
sequence, returning the rune and its size; invalid input yields the
replacement rune `0xFFFD` with size 1 (size 0 on empty input). The
second-byte bounds encode the Go implementation's accept ranges —
`0xA0..0xBF` after `0xE0`, `0x80..0x9F` after `0xED` (excluding
surrogates), `0x90..0xBF` after `0xF0`, `0x80..0x8F` after `0xF4`
(capping at `0x10FFFF`), `0x80..0xBF` otherwise — stated as implications
to keep the conditions flat. -/
def utf8DecodeRune : List Nat → Nat × Nat
  | [] => (0xFFFD, 0)
  | b0 :: rest =>
    if b0 < 0x80 then (b0, 1)
    else if b0 < 0xC2 then (0xFFFD, 1)
    else if b0 < 0xE0 then
      match rest with
      | b1 :: _ =>
        if 0x80 ≤ b1 ∧ b1 ≤ 0xBF then ((b0 - 0xC0) * 64 + (b1 - 0x80), 2)
        else (0xFFFD, 1)
      | [] => (0xFFFD, 1)
    else if b0 < 0xF0 then
      match rest with
      | b1 :: b2 :: _ =>
        if (b0 = 0xE0 → 0xA0 ≤ b1) ∧ (b0 = 0xED → b1 ≤ 0x9F)
            ∧ 0x80 ≤ b1 ∧ b1 ≤ 0xBF ∧ 0x80 ≤ b2 ∧ b2 ≤ 0xBF then
          ((b0 - 0xE0) * 4096 + (b1 - 0x80) * 64 + (b2 - 0x80), 3)
        else (0xFFFD, 1)
      | _ => (0xFFFD, 1)
    else if b0 < 0xF5 then
      match rest with
      | b1 :: b2 :: b3 :: _ =>
        if (b0 = 0xF0 → 0x90 ≤ b1) ∧ (b0 = 0xF4 → b1 ≤ 0x8F)
            ∧ 0x80 ≤ b1 ∧ b1 ≤ 0xBF ∧ 0x80 ≤ b2 ∧ b2 ≤ 0xBF
            ∧ 0x80 ≤ b3 ∧ b3 ≤ 0xBF then
          ((b0 - 0xF0) * 262144 + (b1 - 0x80) * 4096 + (b2 - 0x80) * 64
            + (b3 - 0x80), 4)
        else (0xFFFD, 1)
      | _ => (0xFFFD, 1)
    else (0xFFFD, 1)

/-- A Unicode scalar value: a code point that is not a UTF-16 surrogate
and is at most `0x10FFFF` (Go `utf8.ValidRune` for non-negative input). -/
def ValidRune (r : Nat) : Prop := r < 0xD800 ∨ (0xE000 ≤ r ∧ r ≤ 0x10FFFF)

instance (r : Nat) : Decidable (ValidRune r) := by
  unfold ValidRune; infer_instance

theorem utf8DecodeRune_one {b0 : Nat} (t : List Nat) (h : b0 < 0x80) :
    utf8DecodeRune (b0 :: t) = (b0, 1) := by
  simp only [utf8DecodeRune, if_pos h]

theorem utf8DecodeRune_two {b0 b1 : Nat} (t : List Nat)
    (h0 : 0xC2 ≤ b0) (h0' : b0 < 0xE0) (h1 : 0x80 ≤ b1 ∧ b1 ≤ 0xBF) :
    utf8DecodeRune (b0 :: b1 :: t) = ((b0 - 0xC0) * 64 + (b1 - 0x80), 2) := by
  have e1 : ¬ b0 < 0x80 := by omega
  have e2 : ¬ b0 < 0xC2 := by omega
  simp only [utf8DecodeRune, if_neg e1, if_neg e2, if_pos h0', if_pos h1]

theorem utf8DecodeRune_three {b0 b1 b2 : Nat} (t : List Nat)
    (h0 : 0xE0 ≤ b0) (h0' : b0 < 0xF0)
    (h1 : (b0 = 0xE0 → 0xA0 ≤ b1) ∧ (b0 = 0xED → b1 ≤ 0x9F)
      ∧ 0x80 ≤ b1 ∧ b1 ≤ 0xBF ∧ 0x80 ≤ b2 ∧ b2 ≤ 0xBF) :
    utf8DecodeRune (b0 :: b1 :: b2 :: t)
      = ((b0 - 0xE0) * 4096 + (b1 - 0x80) * 64 + (b2 - 0x80), 3) := by
  have e1 : ¬ b0 < 0x80 := by omega
  have e2 : ¬ b0 < 0xC2 := by omega
  have e3 : ¬ b0 < 0xE0 := by omega
  simp only [utf8DecodeRune, if_neg e1, if_neg e2, if_neg e3, if_pos h0',
    if_pos h1]

theorem utf8DecodeRune_four {b0 b1 b2 b3 : Nat} (t : List Nat)
    (h0 : 0xF0 ≤ b0) (h0' : b0 < 0xF5)
    (h1 : (b0 = 0xF0 → 0x90 ≤ b1) ∧ (b0 = 0xF4 → b1 ≤ 0x8F)
      ∧ 0x80 ≤ b1 ∧ b1 ≤ 0xBF ∧ 0x80 ≤ b2 ∧ b2 ≤ 0xBF
      ∧ 0x80 ≤ b3 ∧ b3 ≤ 0xBF) :
    utf8DecodeRune (b0 :: b1 :: b2 :: b3 :: t)
      = ((b0 - 0xF0) * 262144 + (b1 - 0x80) * 4096 + (b2 - 0x80) * 64
          + (b3 - 0x80), 4) := by
  have e1 : ¬ b0 < 0x80 := by omega
  have e2 : ¬ b0 < 0xC2 := by omega
  have e3 : ¬ b0 < 0xE0 := by omega
  have e4 : ¬ b0 < 0xF0 := by omega
  simp only [utf8DecodeRune, if_neg e1, if_neg e2, if_neg e3, if_neg e4,
    if_pos h0', if_pos h1]

theorem utf8DecodeRune_encode {r : Nat} (hv : ValidRune r) (rest : List Nat) :
    utf8DecodeRune (utf8Encode r ++ rest) = (r, (utf8Encode r).length) := by
  unfold ValidRune at hv
  by_cases h1 : r < 0x80
  · have he : utf8Encode r = [r] := by simp only [utf8Encode, if_pos h1]
    rw [he, List.cons_append, List.nil_append, utf8DecodeRune_one _ h1]
    simp
  · by_cases h2 : r < 0x800
    · have he : utf8Encode r = [0xC0 + r / 64, 0x80 + r % 64] := by
        simp only [utf8Encode, if_neg h1, if_pos h2]
      rw [he, List.cons_append, List.cons_append, List.nil_append,
        utf8DecodeRune_two _ (by omega) (by omega) (by omega)]
      simp only [Prod.mk.injEq, List.length_cons, List.length_nil, and_true]
      omega
    · by_cases h3 : r < 0x10000
      · have he : utf8Encode r
            = [0xE0 + r / 4096, 0x80 + r / 64 % 64, 0x80 + r % 64] := by
          simp only [utf8Encode, if_neg h1, if_neg h2, if_pos h3]
        rw [he, List.cons_append, List.cons_append, List.cons_append,
          List.nil_append,
          utf8DecodeRune_three _ (by omega) (by omega)
            (by refine ⟨?_, ?_, ?_, ?_, ?_, ?_⟩ <;> (try intro hx) <;> omega)]
        simp only [Prod.mk.injEq, List.length_cons, List.length_nil, and_true]
        omega
      · have he : utf8Encode r
            = [0xF0 + r / 262144, 0x80 + r / 4096 % 64, 0x80 + r / 64 % 64,
               0x80 + r % 64] := by
          simp only [utf8Encode, if_neg h1, if_neg h2, if_neg h3]
        rw [he, List.cons_append, List.cons_append, List.cons_append,
          List.cons_append, List.nil_append,
          utf8DecodeRune_four _ (by omega) (by omega)
            (by refine ⟨?_, ?_, ?_, ?_, ?_, ?_, ?_, ?_⟩ <;> (try intro hx) <;>
              omega)]
        simp only [Prod.mk.injEq, List.length_cons, List.length_nil, and_true]
        omega

theorem utf8DecodeRune_canonical {b0 : Nat} {bs : List Nat} {r n : Nat}
    (h : utf8DecodeRune (b0 :: bs) = (r, n)) (hn : 2 ≤ n) :
    ValidRune r ∧ 0x80 ≤ r
    ∧ utf8Encode r ++ List.drop (n - 1) bs = b0 :: bs
    ∧ n = (utf8Encode r).length := by
  simp only [utf8DecodeRune] at h
  split at h
  · rw [Prod.mk.injEq] at h; omega
  · split at h
    · rw [Prod.mk.injEq] at h; omega
    · split at h
      · -- two-byte form
        split at h
        all_goals try (rw [Prod.mk.injEq] at h; omega)
        split at h
        all_goals try (rw [Prod.mk.injEq] at h; omega)
        rename_i b1 tail hc
        rw [Prod.mk.injEq] at h
        obtain ⟨hr, hn2⟩ := h
        subst hr
        subst hn2
        have he : utf8Encode ((b0 - 0xC0) * 64 + (b1 - 0x80)) = [b0, b1] := by
          have e1 : ¬ ((b0 - 0xC0) * 64 + (b1 - 0x80) < 0x80) := by omega
          have e2 : (b0 - 0xC0) * 64 + (b1 - 0x80) < 0x800 := by omega
          simp only [utf8Encode, if_neg e1, if_pos e2]
          have d1 : ((b0 - 0xC0) * 64 + (b1 - 0x80)) / 64 = b0 - 0xC0 := by omega
          have d2 : ((b0 - 0xC0) * 64 + (b1 - 0x80)) % 64 = b1 - 0x80 := by omega
          rw [d1, d2]
          have d3 : 0xC0 + (b0 - 0xC0) = b0 := by omega
          have d4 : 0x80 + (b1 - 0x80) = b1 := by omega
          rw [d3, d4]
        refine ⟨by unfold ValidRune; omega, by omega, by rw [he]; rfl,
          by rw [he]; rfl⟩
      · split at h
        · -- three-byte form
          split at h
          all_goals try (rw [Prod.mk.injEq] at h; omega)
          split at h
          all_goals try (rw [Prod.mk.injEq] at h; omega)
          rename_i b1 b2 tail hc
          obtain ⟨i1, i2, l1, l2, l3, l4⟩ := hc
          have h3 : 0xA0 ≤ b1 ∨ ¬ b0 = 0xE0 := by
            by_cases hx : b0 = 0xE0
            · exact Or.inl (i1 hx)
            · exact Or.inr hx
          have h4 : b1 ≤ 0x9F ∨ ¬ b0 = 0xED := by
            by_cases hx : b0 = 0xED
            · exact Or.inl (i2 hx)
            · exact Or.inr hx
          rw [Prod.mk.injEq] at h
          obtain ⟨hr, hn2⟩ := h
          subst hr
          subst hn2
          have he : utf8Encode ((b0 - 0xE0) * 4096 + (b1 - 0x80) * 64 + (b2 - 0x80))
              = [b0, b1, b2] := by
            have e1 : ¬ ((b0 - 0xE0) * 4096 + (b1 - 0x80) * 64 + (b2 - 0x80) < 0x80) := by
              omega
            have e2 : ¬ ((b0 - 0xE0) * 4096 + (b1 - 0x80) * 64 + (b2 - 0x80) < 0x800) := by
              omega
            have e3 : (b0 - 0xE0) * 4096 + (b1 - 0x80) * 64 + (b2 - 0x80) < 0x10000 := by
              omega
            simp only [utf8Encode, if_neg e1, if_neg e2, if_pos e3]
            have d1 : ((b0 - 0xE0) * 4096 + (b1 - 0x80) * 64 + (b2 - 0x80)) / 4096
                = b0 - 0xE0 := by omega
            have d2 : ((b0 - 0xE0) * 4096 + (b1 - 0x80) * 64 + (b2 - 0x80)) / 64 % 64
                = b1 - 0x80 := by omega
            have d3 : ((b0 - 0xE0) * 4096 + (b1 - 0x80) * 64 + (b2 - 0x80)) % 64
                = b2 - 0x80 := by omega
            rw [d1, d2, d3]
            have d4 : 0xE0 + (b0 - 0xE0) = b0 := by omega
            have d5 : 0x80 + (b1 - 0x80) = b1 := by omega
            have d6 : 0x80 + (b2 - 0x80) = b2 := by omega
            rw [d4, d5, d6]
          refine ⟨by unfold ValidRune; omega, by omega, by rw [he]; rfl,
            by rw [he]; rfl⟩
        · split at h
          · -- four-byte form
            split at h
            all_goals try (rw [Prod.mk.injEq] at h; omega)
            split at h
            all_goals try (rw [Prod.mk.injEq] at h; omega)
            rename_i b1 b2 b3 tail hc
            obtain ⟨i1, i2, l1, l2, l3, l4, l5, l6⟩ := hc
            have h3 : 0x90 ≤ b1 ∨ ¬ b0 = 0xF0 := by
              by_cases hx : b0 = 0xF0
              · exact Or.inl (i1 hx)
              · exact Or.inr hx
            have h4 : b1 ≤ 0x8F ∨ ¬ b0 = 0xF4 := by
              by_cases hx : b0 = 0xF4
              · exact Or.inl (i2 hx)
              · exact Or.inr hx
            rw [Prod.mk.injEq] at h
            obtain ⟨hr, hn2⟩ := h
            subst hr
            subst hn2
            have he : utf8Encode ((b0 - 0xF0) * 262144 + (b1 - 0x80) * 4096
                  + (b2 - 0x80) * 64 + (b3 - 0x80))
                = [b0, b1, b2, b3] := by
              have e1 : ¬ ((b0 - 0xF0) * 262144 + (b1 - 0x80) * 4096
                  + (b2 - 0x80) * 64 + (b3 - 0x80) < 0x80) := by omega
              have e2 : ¬ ((b0 - 0xF0) * 262144 + (b1 - 0x80) * 4096
                  + (b2 - 0x80) * 64 + (b3 - 0x80) < 0x800) := by omega
              have e3 : ¬ ((b0 - 0xF0) * 262144 + (b1 - 0x80) * 4096
                  + (b2 - 0x80) * 64 + (b3 - 0x80) < 0x10000) := by omega
              simp only [utf8Encode, if_neg e1, if_neg e2, if_neg e3]
              have d1 : ((b0 - 0xF0) * 262144 + (b1 - 0x80) * 4096
                  + (b2 - 0x80) * 64 + (b3 - 0x80)) / 262144 = b0 - 0xF0 := by omega
              have d2 : ((b0 - 0xF0) * 262144 + (b1 - 0x80) * 4096
                  + (b2 - 0x80) * 64 + (b3 - 0x80)) / 4096 % 64 = b1 - 0x80 := by
                omega
              have d3 : ((b0 - 0xF0) * 262144 + (b1 - 0x80) * 4096
                  + (b2 - 0x80) * 64 + (b3 - 0x80)) / 64 % 64 = b2 - 0x80 := by
                omega
              have d4 : ((b0 - 0xF0) * 262144 + (b1 - 0x80) * 4096
                  + (b2 - 0x80) * 64 + (b3 - 0x80)) % 64 = b3 - 0x80 := by omega
              rw [d1, d2, d3, d4]
              have d5 : 0xF0 + (b0 - 0xF0) = b0 := by omega
              have d6 : 0x80 + (b1 - 0x80) = b1 := by omega
              have d7 : 0x80 + (b2 - 0x80) = b2 := by omega
              have d8 : 0x80 + (b3 - 0x80) = b3 := by omega
              rw [d5, d6, d7, d8]
            refine ⟨by unfold ValidRune; omega, by omega, by rw [he]; rfl,
              by rw [he]; rfl⟩
          · rw [Prod.mk.injEq] at h; omega

theorem utf8DecodeRune_size {b0 : Nat} {bs : List Nat} {r n : Nat}
    (h : utf8DecodeRune (b0 :: bs) = (r, n)) :
    1 ≤ n ∧ n - 1 ≤ bs.length := by
  simp only [utf8DecodeRune] at h
  split at h
  iterate 7 (all_goals try split at h)
  all_goals (rw [Prod.mk.injEq] at h; (try simp only [List.length_cons]); omega)

/-- Two lowercase hex digits of a byte (Go `\xNN` escape payload). -/
def hexDigits2 (b : Nat) : List Nat :=
  [lowerHexDigit (b / 16), lowerHexDigit (b % 16)]

/-- Four lowercase hex digits of a code point below `0x10000`
(Go `\uNNNN` escape payload). -/
def hexDigits4 (r : Nat) : List Nat :=
  [lowerHexDigit (r / 4096 % 16), lowerHexDigit (r / 256 % 16),
   lowerHexDigit (r / 16 % 16), lowerHexDigit (r % 16)]

/-- Eight lowercase hex digits of a code point
(Go `\UNNNNNNNN` escape payload). -/
def hexDigits8 (r : Nat) : List Nat :=
  [lowerHexDigit (r / 268435456 % 16), lowerHexDigit (r / 16777216 % 16),
   lowerHexDigit (r / 1048576 % 16), lowerHexDigit (r / 65536 % 16),
   lowerHexDigit (r / 4096 % 16), lowerHexDigit (r / 256 % 16),
   lowerHexDigit (r / 16 % 16), lowerHexDigit (r % 16)]

/-- Go `strconv.appendEscapedRune` for a double-quoted string, with the
`unicode.IsPrint` table abstracted as the parameter `ip`: quote and
backslash get a backslash escape, printable runes pass through UTF-8
encoded, the seven named control escapes come next, other controls and
`0x7F` become `\xNN`, and the rest become `\uNNNN` or `\UNNNNNNNN`
(an invalid rune would fall back to `0xFFFD` first). -/
def escapedRune (ip : Nat → Bool) (r : Nat) : List Nat :=
  if r = 34 ∨ r = 92 then [92, r]
  else if ip r then utf8Encode r
  else if r = 7 then [92, 97]
  else if r = 8 then [92, 98]
  else if r = 12 then [92, 102]
  else if r = 10 then [92, 110]
  else if r = 13 then [92, 114]
  else if r = 9 then [92, 116]
  else if r = 11 then [92, 118]
  else if r < 32 ∨ r = 127 then 92 :: 120 :: hexDigits2 r
  else if ¬ ValidRune r then 92 :: 117 :: hexDigits4 0xFFFD
  else if r < 0x10000 then 92 :: 117 :: hexDigits4 r
  else 92 :: 85 :: hexDigits8 r

/-- The escaped body Go `strconv.Quote` builds between the two quote
characters: each position is either an ASCII byte escaped as a rune, an
invalid UTF-8 byte escaped as `\xNN` (the `width == 1 && r == RuneError`
case), or a decoded multi-byte rune escaped as a rune. -/
def quoteBody (ip : Nat → Bool) : List Nat → List Nat
  | [] => []
  | b :: bs =>
    if b < 0x80 then escapedRune ip b ++ quoteBody ip bs
    else if (utf8DecodeRune (b :: bs)).2 ≤ 1 then
      (92 :: 120 :: hexDigits2 b) ++ quoteBody ip bs
    else
      escapedRune ip (utf8DecodeRune (b :: bs)).1
        ++ quoteBody ip (List.drop ((utf8DecodeRune (b :: bs)).2 - 1) bs)
termination_by l => l.length
decreasing_by
  all_goals simp [List.length_drop]
  all_goals omega

/-- Go `strconv.Quote` over the bytes of a string: a double quote, the
escaped body, and a closing double quote. -/
def goQuote (ip : Nat → Bool) (s : List Nat) : List Nat :=
  34 :: (quoteBody ip s ++ [34])

/-- The `\xNN` escape payload of Go `strconv.UnquoteChar`: two hex
digits giving a single byte (not re-encoded as UTF-8). -/
def unquoteHex2 (rest : List Nat) : Option (Nat × Bool × List Nat) :=
  match rest with
  | h1 :: h2 :: r2 =>
    match unhex h1, unhex h2 with
    | some v1, some v2 => some (v1 * 16 + v2, false, r2)
    | _, _ => none
  | _ => none

/-- The `\uNNNN` escape payload of Go `strconv.UnquoteChar`: four hex
digits giving a rune, rejected unless it is a valid scalar. -/
def unquoteHex4 (rest : List Nat) : Option (Nat × Bool × List Nat) :=
  match rest with
  | h1 :: h2 :: h3 :: h4 :: r2 =>
    match unhex h1, unhex h2, unhex h3, unhex h4 with
    | some v1, some v2, some v3, some v4 =>
      if ValidRune (((v1 * 16 + v2) * 16 + v3) * 16 + v4) then
        some (((v1 * 16 + v2) * 16 + v3) * 16 + v4, true, r2)
      else none
    | _, _, _, _ => none
  | _ => none

/-- The `\UNNNNNNNN` escape payload of Go `strconv.UnquoteChar`: eight
hex digits giving a rune, rejected unless it is a valid scalar. -/
def unquoteHex8 (rest : List Nat) : Option (Nat × Bool × List Nat) :=
  match rest with
  | h1 :: h2 :: h3 :: h4 :: h5 :: h6 :: h7 :: h8 :: r2 =>
    match unhex h1, unhex h2, unhex h3, unhex h4 with
    | some v1, some v2, some v3, some v4 =>
      match unhex h5, unhex h6, unhex h7, unhex h8 with
      | some v5, some v6, some v7, some v8 =>
        if ValidRune (((((((v1 * 16 + v2) * 16 + v3) * 16 + v4) * 16
            + v5) * 16 + v6) * 16 + v7) * 16 + v8) then
          some (((((((v1 * 16 + v2) * 16 + v3) * 16 + v4) * 16 + v5)
            * 16 + v6) * 16 + v7) * 16 + v8, true, r2)
        else none
      | _, _, _, _ => none
    | _, _, _, _ => none
  | _ => none

/-- The three-digit octal escape of Go `strconv.UnquoteChar` (`e` is the
first octal digit): value capped at 255, single byte. -/
def unquoteOctal (e : Nat) (rest : List Nat) : Option (Nat × Bool × List Nat) :=
  match rest with
  | o2 :: o3 :: r2 =>
    if (48 ≤ o2 ∧ o2 ≤ 55) ∧ (48 ≤ o3 ∧ o3 ≤ 55) then
      if (e - 48) * 64 + (o2 - 48) * 8 + (o3 - 48) > 255 then none
      else some ((e - 48) * 64 + (o2 - 48) * 8 + (o3 - 48), false, r2)
    else none
  | _ => none

/-- The backslash-escape dispatch of Go `strconv.UnquoteChar` (quote
character `"`): named controls, `\xNN`, `\uNNNN` / `\UNNNNNNNN`, `\\`,
`\"` (a `\'` is a syntax error inside a double-quoted string), and
three-digit octal. `e` is the byte after the backslash and `rest` the
input after it. -/
def unquoteEsc (e : Nat) (rest : List Nat) : Option (Nat × Bool × List Nat) :=
  if e = 97 then some (7, false, rest)
  else if e = 98 then some (8, false, rest)
  else if e = 102 then some (12, false, rest)
  else if e = 110 then some (10, false, rest)
  else if e = 114 then some (13, false, rest)
  else if e = 116 then some (9, false, rest)
  else if e = 118 then some (11, false, rest)
  else if e = 120 then unquoteHex2 rest
  else if e = 117 then unquoteHex4 rest
  else if e = 85 then unquoteHex8 rest
  else if e = 92 then some (92, false, rest)
  else if e = 34 then some (34, false, rest)
  else if 48 ≤ e ∧ e ≤ 55 then unquoteOctal e rest
  else none

/-- Go `strconv.UnquoteChar` with quote character `"`: rejects a bare
quote; decodes multi-byte UTF-8 directly; passes other unescaped ASCII
through; and hands backslash escapes to `unquoteEsc`. Returns the rune,
whether it must be re-encoded as UTF-8, and the remaining input. -/
def unquoteChar : List Nat → Option (Nat × Bool × List Nat)
  | [] => none
  | c :: cs =>
    if c = 34 then none
    else if 0x80 ≤ c then
      some ((utf8DecodeRune (c :: cs)).1, true,
        List.drop (utf8DecodeRune (c :: cs)).2 (c :: cs))
    else if c ≠ 92 then some (c, false, cs)
    else
      match cs with
      | [] => none
      | e :: rest => unquoteEsc e rest

theorem unquoteHex2_length {t : List Nat} {r : Nat} {mb : Bool}
    {rest : List Nat} (h : unquoteHex2 t = some (r, mb, rest)) :
    rest.length ≤ t.length := by
  unfold unquoteHex2 at h
  split at h
  · split at h
    · injection h with h'
      injection h' with h1 h2
      injection h2 with h2 h3
      subst h3
      simp [List.length_cons]
      omega
    · cases h
  · cases h

theorem unquoteHex4_length {t : List Nat} {r : Nat} {mb : Bool}
    {rest : List Nat} (h : unquoteHex4 t = some (r, mb, rest)) :
    rest.length ≤ t.length := by
  unfold unquoteHex4 at h
  split at h
  · split at h
    · split at h
      · injection h with h'
        injection h' with h1 h2
        injection h2 with h2 h3
        subst h3
        simp [List.length_cons]
        omega
      · cases h
    · cases h
  · cases h

theorem unquoteHex8_length {t : List Nat} {r : Nat} {mb : Bool}
    {rest : List Nat} (h : unquoteHex8 t = some (r, mb, rest)) :
    rest.length ≤ t.length := by
  unfold unquoteHex8 at h
  split at h
  · split at h
    · split at h
      · split at h
        · injection h with h'
          injection h' with h1 h2
          injection h2 with h2 h3
          subst h3
          simp [List.length_cons]
          omega
        · cases h
      · cases h
    · cases h
  · cases h

theorem unquoteOctal_length {e : Nat} {t : List Nat} {r : Nat} {mb : Bool}
    {rest : List Nat} (h : unquoteOctal e t = some (r, mb, rest)) :
    rest.length ≤ t.length := by
  unfold unquoteOctal at h
  split at h
  · split at h
    · split at h
      · cases h
      · injection h with h'
        injection h' with h1 h2
        injection h2 with h2 h3
        subst h3
        simp [List.length_cons]
        omega
    · cases h
  · cases h

theorem unquoteEsc_length {e : Nat} {t : List Nat} {r : Nat} {mb : Bool}
    {rest : List Nat} (h : unquoteEsc e t = some (r, mb, rest)) :
    rest.length ≤ t.length := by
  unfold unquoteEsc at h
  by_cases h97 : e = 97
  · rw [if_pos h97] at h
    injection h with h'
    injection h' with h1 h2
    injection h2 with h2' h3
    subst h3
    exact Nat.le_refl _
  · rw [if_neg h97] at h
    by_cases h98 : e = 98
    · rw [if_pos h98] at h
      injection h with h'
      injection h' with h1 h2
      injection h2 with h2' h3
      subst h3
      exact Nat.le_refl _
    · rw [if_neg h98] at h
      by_cases h102 : e = 102
      · rw [if_pos h102] at h
        injection h with h'
        injection h' with h1 h2
        injection h2 with h2' h3
        subst h3
        exact Nat.le_refl _
      · rw [if_neg h102] at h
        by_cases h110 : e = 110
        · rw [if_pos h110] at h
          injection h with h'
          injection h' with h1 h2
          injection h2 with h2' h3
          subst h3
          exact Nat.le_refl _
        · rw [if_neg h110] at h
          by_cases h114 : e = 114
          · rw [if_pos h114] at h
            injection h with h'
            injection h' with h1 h2
            injection h2 with h2' h3
            subst h3
            exact Nat.le_refl _
          · rw [if_neg h114] at h
            by_cases h116 : e = 116
            · rw [if_pos h116] at h
              injection h with h'
              injection h' with h1 h2
              injection h2 with h2' h3
              subst h3
              exact Nat.le_refl _
            · rw [if_neg h116] at h
              by_cases h118 : e = 118
              · rw [if_pos h118] at h
                injection h with h'
                injection h' with h1 h2
                injection h2 with h2' h3
                subst h3
                exact Nat.le_refl _
              · rw [if_neg h118] at h
                by_cases h120 : e = 120
                · rw [if_pos h120] at h
                  exact unquoteHex2_length h
                · rw [if_neg h120] at h
                  by_cases h117 : e = 117
                  · rw [if_pos h117] at h
                    exact unquoteHex4_length h
                  · rw [if_neg h117] at h
                    by_cases h85 : e = 85
                    · rw [if_pos h85] at h
                      exact unquoteHex8_length h
                    · rw [if_neg h85] at h
                      by_cases h92 : e = 92
                      · rw [if_pos h92] at h
                        injection h with h'
                        injection h' with h1 h2
                        injection h2 with h2' h3
                        subst h3
                        exact Nat.le_refl _
                      · rw [if_neg h92] at h
                        by_cases h34 : e = 34
                        · rw [if_pos h34] at h
                          injection h with h'
                          injection h' with h1 h2
                          injection h2 with h2' h3
                          subst h3
                          exact Nat.le_refl _
                        · rw [if_neg h34] at h
                          by_cases hoct : 48 ≤ e ∧ e ≤ 55
                          · rw [if_pos hoct] at h
                            exact unquoteOctal_length h
                          · rw [if_neg hoct] at h
                            cases h

theorem unquoteChar_cons_eq (c : Nat) (cs : List Nat) :
    unquoteChar (c :: cs)
      = if c = 34 then none
        else if 0x80 ≤ c then
          some ((utf8DecodeRune (c :: cs)).1, true,
            List.drop (utf8DecodeRune (c :: cs)).2 (c :: cs))
        else if c ≠ 92 then some (c, false, cs)
        else match cs with
          | [] => none
          | e :: rest => unquoteEsc e rest := rfl

theorem unquoteChar_length {s : List Nat} {r : Nat} {mb : Bool}
    {rest : List Nat} (h : unquoteChar s = some (r, mb, rest)) :
    rest.length < s.length := by
  cases s with
  | nil => simp [unquoteChar] at h
  | cons c cs =>
    have hsz := @utf8DecodeRune_size c cs (utf8DecodeRune (c :: cs)).1
      (utf8DecodeRune (c :: cs)).2 rfl
    rw [unquoteChar_cons_eq] at h
    by_cases h34 : c = 34
    · rw [if_pos h34] at h
      cases h
    · rw [if_neg h34] at h
      by_cases hge : 0x80 ≤ c
      · rw [if_pos hge] at h
        injection h with h'
        injection h' with h1 h2
        injection h2 with h2' h3
        subst h3
        simp only [List.length_drop, List.length_cons]
        omega
      · rw [if_neg hge] at h
        by_cases hne : c = 92
        · rw [if_neg (by simp [hne])] at h
          cases cs with
          | nil => simp at h
          | cons e r' =>
            have h' : unquoteEsc e r' = some (r, mb, rest) := h
            have := unquoteEsc_length h'
            simp only [List.length_cons]
            omega
        · rw [if_pos hne] at h
          injection h with h'
          injection h' with h1 h2
          injection h2 with h2' h3
          subst h3
          simp

/-- The scan loop of Go `strconv.unquote` for a double-quoted string
(with `unescape` true): stop at the closing quote — which must end the
input, since `Unquote` rejects a non-empty remainder — reject a raw
newline, and otherwise decode one `UnquoteChar`, appending either the
single byte (for a one-byte or non-multibyte value) or the rune's UTF-8
encoding. -/
def unquoteLoop : List Nat → Option (List Nat)
  | [] => none
  | c :: cs =>
    if c = 34 then (if cs = [] then some [] else none)
    else if c = 10 then none
    else
      match huc : unquoteChar (c :: cs) with
      | none => none
      | some (r, mb, rest) =>
        match unquoteLoop rest with
        | none => none
        | some out =>
          some ((if r < 0x80 ∨ mb = false then [r % 256] else utf8Encode r)
            ++ out)
termination_by l => l.length
decreasing_by
  exact unquoteChar_length huc

/-- Go `strconv.Unquote` restricted to double-quoted input: an opening
quote followed by the loop over the body. Anything not starting with a
double quote is a syntax error (the backquote and single-quote forms do
not occur in index files). -/
def goUnquote (s : List Nat) : Option (List Nat) :=
  match s with
  | 34 :: rest => unquoteLoop rest
  | _ => none

theorem unquoteLoop_cons_eq {c : Nat} {cs : List Nat} (h34 : ¬ c = 34)
    (h10 : ¬ c = 10) {r : Nat} {mb : Bool} {rest : List Nat}
    (huc : unquoteChar (c :: cs) = some (r, mb, rest)) :
    unquoteLoop (c :: cs)
      = match unquoteLoop rest with
        | none => none
        | some out =>
          some ((if r < 0x80 ∨ mb = false then [r % 256] else utf8Encode r)
            ++ out) := by
  conv_lhs => rw [unquoteLoop]
  rw [if_neg h34, if_neg h10]
  split
  next heq =>
    rw [huc] at heq
    cases heq
  next r' mb' rest' heq =>
    rw [huc] at heq
    injection heq with heq'
    injection heq' with e1 e2
    injection e2 with e2' e3
    subst e1
    subst e2'
    subst e3
    rfl

theorem unquoteLoop_closing : unquoteLoop [34] = some [] := by
  unfold unquoteLoop
  rw [if_pos rfl, if_pos rfl]

theorem unquoteChar_ascii {c : Nat} (cs : List Nat) (h1 : c < 0x80)
    (h2 : ¬ c = 34) (h3 : ¬ c = 92) :
    unquoteChar (c :: cs) = some (c, false, cs) := by
  rw [unquoteChar_cons_eq, if_neg h2, if_neg (by omega), if_pos h3]

theorem unquoteChar_esc (e : Nat) (rest : List Nat) :
    unquoteChar (92 :: e :: rest) = unquoteEsc e rest := by
  rw [unquoteChar_cons_eq, if_neg (by decide), if_neg (by decide),
    if_neg (by decide)]

theorem utf8Encode_head {r : Nat} (hr : 0x80 ≤ r) :
    ∃ c cs', utf8Encode r = c :: cs' ∧ 0xC2 ≤ c := by
  have h1 : ¬ r < 0x80 := by omega
  by_cases h2 : r < 0x800
  · exact ⟨0xC0 + r / 64, [0x80 + r % 64],
      by simp only [utf8Encode, if_neg h1, if_pos h2], by omega⟩
  · by_cases h3 : r < 0x10000
    · exact ⟨0xE0 + r / 4096, [0x80 + r / 64 % 64, 0x80 + r % 64],
        by simp only [utf8Encode, if_neg h1, if_neg h2, if_pos h3], by omega⟩
    · exact ⟨0xF0 + r / 262144,
        [0x80 + r / 4096 % 64, 0x80 + r / 64 % 64, 0x80 + r % 64],
        by simp only [utf8Encode, if_neg h1, if_neg h2, if_neg h3], by omega⟩

theorem unquoteChar_encode {r : Nat} (hv : ValidRune r) (hr : 0x80 ≤ r)
    (t : List Nat) :
    unquoteChar (utf8Encode r ++ t) = some (r, true, t) := by
  obtain ⟨c, cs', hce, hc⟩ := utf8Encode_head hr
  have hdec := utf8DecodeRune_encode hv t
  rw [hce] at hdec
  rw [List.cons_append] at hdec
  rw [hce, List.cons_append]
  rw [unquoteChar_cons_eq, if_neg (by omega), if_pos (by omega)]
  rw [hdec]
  show some (r, true, List.drop (c :: cs').length (c :: (cs' ++ t)))
    = some (r, true, t)
  rw [List.length_cons, List.drop_succ_cons, List.drop_left]

theorem unquoteEsc_x {b : Nat} (hb : b < 256) (t : List Nat) :
    unquoteEsc 120 (hexDigits2 b ++ t) = some (b, false, t) := by
  have hu1 : unhex (lowerHexDigit (b / 16)) = some (b / 16) :=
    unhex_lowerHexDigit (by omega)
  have hu2 : unhex (lowerHexDigit (b % 16)) = some (b % 16) :=
    unhex_lowerHexDigit (by omega)
  have hb' : b / 16 * 16 + b % 16 = b := by omega
  simp only [hexDigits2, List.cons_append, List.nil_append]
  simp [unquoteEsc, unquoteHex2, hu1, hu2, hb']

theorem unquoteEsc_u {r : Nat} (hv : ValidRune r) (hr4 : r < 0x10000)
    (t : List Nat) :
    unquoteEsc 117 (hexDigits4 r ++ t) = some (r, true, t) := by
  have hu1 : unhex (lowerHexDigit (r / 4096 % 16)) = some (r / 4096 % 16) :=
    unhex_lowerHexDigit (by omega)
  have hu2 : unhex (lowerHexDigit (r / 256 % 16)) = some (r / 256 % 16) :=
    unhex_lowerHexDigit (by omega)
  have hu3 : unhex (lowerHexDigit (r / 16 % 16)) = some (r / 16 % 16) :=
    unhex_lowerHexDigit (by omega)
  have hu4 : unhex (lowerHexDigit (r % 16)) = some (r % 16) :=
    unhex_lowerHexDigit (by omega)
  have hval : ((r / 4096 % 16 * 16 + r / 256 % 16) * 16 + r / 16 % 16) * 16
      + r % 16 = r := by omega
  simp only [hexDigits4, List.cons_append, List.nil_append]
  simp [unquoteEsc, unquoteHex4, hu1, hu2, hu3, hu4, hval, hv]

theorem unquoteEsc_U {r : Nat} (hv : ValidRune r) (hr4 : ¬ r < 0x10000)
    (t : List Nat) :
    unquoteEsc 85 (hexDigits8 r ++ t) = some (r, true, t) := by
  have hb : r ≤ 0x10FFFF := by unfold ValidRune at hv; omega
  have hu1 : unhex (lowerHexDigit (r / 268435456 % 16))
      = some (r / 268435456 % 16) := unhex_lowerHexDigit (by omega)
  have hu2 : unhex (lowerHexDigit (r / 16777216 % 16))
      = some (r / 16777216 % 16) := unhex_lowerHexDigit (by omega)
  have hu3 : unhex (lowerHexDigit (r / 1048576 % 16))
      = some (r / 1048576 % 16) := unhex_lowerHexDigit (by omega)
  have hu4 : unhex (lowerHexDigit (r / 65536 % 16))
      = some (r / 65536 % 16) := unhex_lowerHexDigit (by omega)
  have hu5 : unhex (lowerHexDigit (r / 4096 % 16)) = some (r / 4096 % 16) :=
    unhex_lowerHexDigit (by omega)
  have hu6 : unhex (lowerHexDigit (r / 256 % 16)) = some (r / 256 % 16) :=
    unhex_lowerHexDigit (by omega)
  have hu7 : unhex (lowerHexDigit (r / 16 % 16)) = some (r / 16 % 16) :=
    unhex_lowerHexDigit (by omega)
  have hu8 : unhex (lowerHexDigit (r % 16)) = some (r % 16) :=
    unhex_lowerHexDigit (by omega)
  have hval : ((((((r / 268435456 % 16 * 16 + r / 16777216 % 16) * 16
      + r / 1048576 % 16) * 16 + r / 65536 % 16) * 16 + r / 4096 % 16) * 16
      + r / 256 % 16) * 16 + r / 16 % 16) * 16 + r % 16 = r := by omega
  simp only [hexDigits8, List.cons_append, List.nil_append]
  simp [unquoteEsc, unquoteHex8, hu1, hu2, hu3, hu4, hu5, hu6, hu7, hu8,
    hval, hv]

theorem unquoteLoop_prepend {c : Nat} {cs : List Nat} (h34 : ¬ c = 34)
    (h10 : ¬ c = 10) {r : Nat} {mb : Bool} {rest out : List Nat}
    (huc : unquoteChar (c :: cs) = some (r, mb, rest))
    (hrec : unquoteLoop rest = some out) :
    unquoteLoop (c :: cs)
      = some ((if r < 0x80 ∨ mb = false then [r % 256] else utf8Encode r)
          ++ out) := by
  rw [unquoteLoop_cons_eq h34 h10 huc, hrec]

theorem unquoteLoop_quoteBody {ip : Nat → Bool} (hp10 : ip 10 = false) :
    ∀ n s, List.length s ≤ n → (∀ b ∈ s, b < 256) →
      unquoteLoop (quoteBody ip s ++ [34]) = some s := by
  intro fuel
  induction fuel with
  | zero =>
    intro s hl hb
    have hs : s = [] := by
      cases s with
      | nil => rfl
      | cons a t => simp at hl
    subst hs
    simp only [quoteBody, List.nil_append]
    exact unquoteLoop_closing
  | succ n ih =>
    intro s hl hb
    cases s with
    | nil =>
      simp only [quoteBody, List.nil_append]
      exact unquoteLoop_closing
    | cons b bs =>
      have hb0 : b < 256 := hb b (List.mem_cons_self _ _)
      have hbs : ∀ x ∈ bs, x < 256 := fun x hx => hb x (List.mem_cons_of_mem _ hx)
      have hlbs : bs.length ≤ n := by simp only [List.length_cons] at hl; omega
      have hrec := ih bs hlbs hbs
      rw [quoteBody]
      by_cases hA : b < 0x80
      · rw [if_pos hA]
        by_cases hq : b = 34 ∨ b = 92
        · have hesc : escapedRune ip b = [92, b] := by
            unfold escapedRune; rw [if_pos hq]
          rw [hesc]
          simp only [List.cons_append, List.nil_append, List.append_assoc]
          have huc : unquoteChar (92 :: b :: (quoteBody ip bs ++ [34]))
              = some (b, false, quoteBody ip bs ++ [34]) := by
            rw [unquoteChar_esc]
            rcases hq with hq | hq <;> subst hq <;> simp [unquoteEsc]
          rw [unquoteLoop_prepend (by decide) (by decide) huc hrec]
          have hbb : b % 256 = b := Nat.mod_eq_of_lt hb0
          simp [hbb]
        · by_cases hip : ip b
          · have hb34 : ¬ b = 34 := fun h => hq (Or.inl h)
            have hb92 : ¬ b = 92 := fun h => hq (Or.inr h)
            have hb10 : ¬ b = 10 := by
              intro h
              rw [h, hp10] at hip
              cases hip
            have hesc : escapedRune ip b = [b] := by
              unfold escapedRune
              rw [if_neg hq, if_pos hip]
              simp [utf8Encode, hA]
            rw [hesc]
            simp only [List.cons_append, List.nil_append, List.append_assoc]
            have huc := unquoteChar_ascii (quoteBody ip bs ++ [34]) hA hb34 hb92
            rw [unquoteLoop_prepend hb34 hb10 huc hrec]
            have hbb : b % 256 = b := Nat.mod_eq_of_lt hb0
            simp [hbb]
          · by_cases hn7 : b = 7
            · subst hn7
              have hesc : escapedRune ip 7 = [92, 97] := by
                unfold escapedRune
                rw [if_neg hq, if_neg hip, if_pos rfl]
              rw [hesc]
              simp only [List.cons_append, List.nil_append, List.append_assoc]
              have huc : unquoteChar (92 :: 97 :: (quoteBody ip bs ++ [34]))
                  = some (7, false, quoteBody ip bs ++ [34]) := by
                rw [unquoteChar_esc]
                simp [unquoteEsc]
              rw [unquoteLoop_prepend (by decide) (by decide) huc hrec]
              simp
            · by_cases hn8 : b = 8
              · subst hn8
                have hesc : escapedRune ip 8 = [92, 98] := by
                  unfold escapedRune
                  rw [if_neg hq, if_neg hip, if_neg (by decide), if_pos rfl]
                rw [hesc]
                simp only [List.cons_append, List.nil_append, List.append_assoc]
                have huc : unquoteChar (92 :: 98 :: (quoteBody ip bs ++ [34]))
                    = some (8, false, quoteBody ip bs ++ [34]) := by
                  rw [unquoteChar_esc]
                  simp [unquoteEsc]
                rw [unquoteLoop_prepend (by decide) (by decide) huc hrec]
                simp
              · by_cases hn12 : b = 12
                · subst hn12
                  have hesc : escapedRune ip 12 = [92, 102] := by
                    unfold escapedRune
                    rw [if_neg hq, if_neg hip, if_neg (by decide), if_neg (by decide), if_pos rfl]
                  rw [hesc]
                  simp only [List.cons_append, List.nil_append, List.append_assoc]
                  have huc : unquoteChar (92 :: 102 :: (quoteBody ip bs ++ [34]))
                      = some (12, false, quoteBody ip bs ++ [34]) := by
                    rw [unquoteChar_esc]
                    simp [unquoteEsc]
                  rw [unquoteLoop_prepend (by decide) (by decide) huc hrec]
                  simp
                · by_cases hn10 : b = 10
                  · subst hn10
                    have hesc : escapedRune ip 10 = [92, 110] := by
                      unfold escapedRune
                      rw [if_neg hq, if_neg hip, if_neg (by decide), if_neg (by decide), if_neg (by decide), if_pos rfl]
                    rw [hesc]
                    simp only [List.cons_append, List.nil_append, List.append_assoc]
                    have huc : unquoteChar (92 :: 110 :: (quoteBody ip bs ++ [34]))
                        = some (10, false, quoteBody ip bs ++ [34]) := by
                      rw [unquoteChar_esc]
                      simp [unquoteEsc]
                    rw [unquoteLoop_prepend (by decide) (by decide) huc hrec]
                    simp
                  · by_cases hn13 : b = 13
                    · subst hn13
                      have hesc : escapedRune ip 13 = [92, 114] := by
                        unfold escapedRune
                        rw [if_neg hq, if_neg hip, if_neg (by decide), if_neg (by decide), if_neg (by decide), if_neg (by decide), if_pos rfl]
                      rw [hesc]
                      simp only [List.cons_append, List.nil_append, List.append_assoc]
                      have huc : unquoteChar (92 :: 114 :: (quoteBody ip bs ++ [34]))
                          = some (13, false, quoteBody ip bs ++ [34]) := by
                        rw [unquoteChar_esc]
                        simp [unquoteEsc]
                      rw [unquoteLoop_prepend (by decide) (by decide) huc hrec]
                      simp
                    · by_cases hn9 : b = 9
                      · subst hn9
                        have hesc : escapedRune ip 9 = [92, 116] := by
                          unfold escapedRune
                          rw [if_neg hq, if_neg hip, if_neg (by decide), if_neg (by decide), if_neg (by decide), if_neg (by decide), if_neg (by decide), if_pos rfl]
                        rw [hesc]
                        simp only [List.cons_append, List.nil_append, List.append_assoc]
                        have huc : unquoteChar (92 :: 116 :: (quoteBody ip bs ++ [34]))
                            = some (9, false, quoteBody ip bs ++ [34]) := by
                          rw [unquoteChar_esc]
                          simp [unquoteEsc]
                        rw [unquoteLoop_prepend (by decide) (by decide) huc hrec]
                        simp
                      · by_cases hn11 : b = 11
                        · subst hn11
                          have hesc : escapedRune ip 11 = [92, 118] := by
                            unfold escapedRune
                            rw [if_neg hq, if_neg hip, if_neg (by decide), if_neg (by decide), if_neg (by decide), if_neg (by decide), if_neg (by decide), if_neg (by decide), if_pos rfl]
                          rw [hesc]
                          simp only [List.cons_append, List.nil_append, List.append_assoc]
                          have huc : unquoteChar (92 :: 118 :: (quoteBody ip bs ++ [34]))
                              = some (11, false, quoteBody ip bs ++ [34]) := by
                            rw [unquoteChar_esc]
                            simp [unquoteEsc]
                          rw [unquoteLoop_prepend (by decide) (by decide) huc hrec]
                          simp
                        by_cases hx : b < 32 ∨ b = 127
                        · have hesc : escapedRune ip b = 92 :: 120 :: hexDigits2 b := by
                            unfold escapedRune
                            rw [if_neg hq, if_neg hip, if_neg hn7, if_neg hn8, if_neg hn12, if_neg hn10, if_neg hn13, if_neg hn9, if_neg hn11, if_pos hx]
                          rw [hesc]
                          simp only [List.cons_append, List.nil_append, List.append_assoc]
                          have huc : unquoteChar
                              (92 :: 120 :: (hexDigits2 b ++ (quoteBody ip bs ++ [34])))
                              = some (b, false, quoteBody ip bs ++ [34]) := by
                            rw [unquoteChar_esc, unquoteEsc_x hb0]
                          rw [unquoteLoop_prepend (by decide) (by decide) huc hrec]
                          have hbb : b % 256 = b := Nat.mod_eq_of_lt hb0
                          simp [hbb]
                        · have hv : ValidRune b := by unfold ValidRune; omega
                          have hesc : escapedRune ip b = 92 :: 117 :: hexDigits4 b := by
                            unfold escapedRune
                            rw [if_neg hq, if_neg hip, if_neg hn7, if_neg hn8, if_neg hn12, if_neg hn10, if_neg hn13, if_neg hn9, if_neg hn11, if_neg hx,
                              if_neg (by simp [hv]), if_pos (by omega)]
                          rw [hesc]
                          simp only [List.cons_append, List.nil_append, List.append_assoc]
                          have huc : unquoteChar
                              (92 :: 117 :: (hexDigits4 b ++ (quoteBody ip bs ++ [34])))
                              = some (b, true, quoteBody ip bs ++ [34]) := by
                            rw [unquoteChar_esc, unquoteEsc_u hv (by omega)]
                          rw [unquoteLoop_prepend (by decide) (by decide) huc hrec]
                          have hbb : b % 256 = b := Nat.mod_eq_of_lt hb0
                          simp [hbb, hA]
      · rw [if_neg hA]
        by_cases hw : (utf8DecodeRune (b :: bs)).2 ≤ 1
        · rw [if_pos hw]
          simp only [List.cons_append, List.nil_append, List.append_assoc]
          have huc : unquoteChar
              (92 :: 120 :: (hexDigits2 b ++ (quoteBody ip bs ++ [34])))
              = some (b, false, quoteBody ip bs ++ [34]) := by
            rw [unquoteChar_esc, unquoteEsc_x hb0]
          rw [unquoteLoop_prepend (by decide) (by decide) huc hrec]
          have hbb : b % 256 = b := Nat.mod_eq_of_lt hb0
          simp [hbb]
        · rw [if_neg hw]
          obtain ⟨r, w, hdec⟩ : ∃ r w, utf8DecodeRune (b :: bs) = (r, w) :=
            ⟨_, _, rfl⟩
          have hw2 : 2 ≤ w := by
            rw [hdec] at hw
            have hw' : ¬ w ≤ 1 := hw
            omega
          obtain ⟨hvr, hr8, hbytes, hlen⟩ := utf8DecodeRune_canonical hdec hw2
          rw [hdec]
          show unquoteLoop
              ((escapedRune ip r ++ quoteBody ip (List.drop (w - 1) bs))
                ++ [34])
            = some (b :: bs)
          have hs' : (List.drop (w - 1) bs).length ≤ n := by
            simp only [List.length_drop]
            omega
          have hbs' : ∀ x ∈ List.drop (w - 1) bs, x < 256 :=
            fun x hx => hbs x (List.mem_of_mem_drop hx)
          have hrec' := ih (List.drop (w - 1) bs) hs' hbs'
          have hq : ¬(r = 34 ∨ r = 92) := by omega
          have en7 : ¬ r = 7 := by omega
          have en8 : ¬ r = 8 := by omega
          have en12 : ¬ r = 12 := by omega
          have en10 : ¬ r = 10 := by omega
          have en13 : ¬ r = 13 := by omega
          have en9 : ¬ r = 9 := by omega
          have en11 : ¬ r = 11 := by omega
          have enx : ¬ (r < 32 ∨ r = 127) := by omega
          by_cases hip : ip r
          · have hesc : escapedRune ip r = utf8Encode r := by
              unfold escapedRune
              rw [if_neg hq, if_pos hip]
            rw [hesc, List.append_assoc]
            obtain ⟨c, cs', hce, hc⟩ := utf8Encode_head hr8
            have huc := unquoteChar_encode hvr hr8
              (quoteBody ip (List.drop (w - 1) bs) ++ [34])
            rw [hce] at huc ⊢
            rw [List.cons_append] at huc ⊢
            rw [unquoteLoop_prepend (by omega) (by omega) huc hrec']
            rw [if_neg (by simp; omega)]
            exact congrArg some hbytes
          · by_cases h16 : r < 0x10000
            · have hesc : escapedRune ip r = 92 :: 117 :: hexDigits4 r := by
                unfold escapedRune
                rw [if_neg hq, if_neg hip, if_neg en7, if_neg en8,
                  if_neg en12, if_neg en10, if_neg en13, if_neg en9,
                  if_neg en11, if_neg enx, if_neg (by simp [hvr]), if_pos h16]
              rw [hesc]
              simp only [List.cons_append, List.nil_append, List.append_assoc]
              have huc : unquoteChar (92 :: 117 :: (hexDigits4 r
                  ++ (quoteBody ip (List.drop (w - 1) bs) ++ [34])))
                  = some (r, true,
                      quoteBody ip (List.drop (w - 1) bs) ++ [34]) := by
                rw [unquoteChar_esc, unquoteEsc_u hvr h16]
              rw [unquoteLoop_prepend (by decide) (by decide) huc hrec']
              rw [if_neg (by simp; omega)]
              exact congrArg some hbytes
            · have hesc : escapedRune ip r = 92 :: 85 :: hexDigits8 r := by
                unfold escapedRune
                rw [if_neg hq, if_neg hip, if_neg en7, if_neg en8,
                  if_neg en12, if_neg en10, if_neg en13, if_neg en9,
                  if_neg en11, if_neg enx, if_neg (by simp [hvr]), if_neg h16]
              rw [hesc]
              simp only [List.cons_append, List.nil_append, List.append_assoc]
              have huc : unquoteChar (92 :: 85 :: (hexDigits8 r
                  ++ (quoteBody ip (List.drop (w - 1) bs) ++ [34])))
                  = some (r, true,
                      quoteBody ip (List.drop (w - 1) bs) ++ [34]) := by
                rw [unquoteChar_esc, unquoteEsc_U hvr h16]
              rw [unquoteLoop_prepend (by decide) (by decide) huc hrec']
              rw [if_neg (by simp; omega)]
              exact congrArg some hbytes

theorem goUnquote_goQuote {ip : Nat → Bool} (hp10 : ip 10 = false)
    (s : List Nat) (hb : ∀ b ∈ s, b < 256) :
    goUnquote (goQuote ip s) = some s := by
  show unquoteLoop (quoteBody ip s ++ [34]) = some s
  exact unquoteLoop_quoteBody hp10 s.length s (Nat.le_refl _) hb

theorem ten_ne_lowerHexDigit (d : Nat) : ¬ 10 = lowerHexDigit d := by
  unfold lowerHexDigit
  split <;> omega

theorem utf8Encode_no_nl {r : Nat} (hr : ¬ r = 10) :
    (10 : Nat) ∉ utf8Encode r := by
  unfold utf8Encode
  split_ifs with h1 h2 h3 <;> simp <;> omega

theorem escapedRune_no_nl {ip : Nat → Bool} (hp10 : ip 10 = false)
    (r : Nat) : (10 : Nat) ∉ escapedRune ip r := by
  unfold escapedRune
  by_cases hq : r = 34 ∨ r = 92
  · rw [if_pos hq]
    rcases hq with h | h <;> subst h <;> decide
  · rw [if_neg hq]
    by_cases hip : ip r
    · rw [if_pos hip]
      exact utf8Encode_no_nl (fun h => by rw [h, hp10] at hip; cases hip)
    · rw [if_neg hip]
      by_cases h7 : r = 7
      · rw [if_pos h7]
        decide
      · rw [if_neg h7]
        by_cases h8 : r = 8
        · rw [if_pos h8]
          decide
        · rw [if_neg h8]
          by_cases h12 : r = 12
          · rw [if_pos h12]
            decide
          · rw [if_neg h12]
            by_cases h10 : r = 10
            · rw [if_pos h10]
              decide
            · rw [if_neg h10]
              by_cases h13 : r = 13
              · rw [if_pos h13]
                decide
              · rw [if_neg h13]
                by_cases h9 : r = 9
                · rw [if_pos h9]
                  decide
                · rw [if_neg h9]
                  by_cases h11 : r = 11
                  · rw [if_pos h11]
                    decide
                  · rw [if_neg h11]
                    by_cases hx : r < 32 ∨ r = 127
                    · rw [if_pos hx]
                      simp [hexDigits2, ten_ne_lowerHexDigit]
                    · rw [if_neg hx]
                      by_cases hvv : ¬ ValidRune r
                      · rw [if_pos hvv]
                        simp [hexDigits4, ten_ne_lowerHexDigit]
                      · rw [if_neg hvv]
                        by_cases h16 : r < 0x10000
                        · rw [if_pos h16]
                          simp [hexDigits4, ten_ne_lowerHexDigit]
                        · rw [if_neg h16]
                          simp [hexDigits8, ten_ne_lowerHexDigit]

theorem quoteBody_no_nl {ip : Nat → Bool} (hp10 : ip 10 = false) :
    ∀ n s, List.length s ≤ n → (10 : Nat) ∉ quoteBody ip s := by
  intro fuel
  induction fuel with
  | zero =>
    intro s hl
    have hs : s = [] := by
      cases s with
      | nil => rfl
      | cons a t => simp at hl
    subst hs
    simp [quoteBody]
  | succ n ih =>
    intro s hl
    cases s with
    | nil => simp [quoteBody]
    | cons b bs =>
      have hlbs : bs.length ≤ n := by
        simp only [List.length_cons] at hl
        omega
      rw [quoteBody]
      by_cases hA : b < 0x80
      · rw [if_pos hA]
        intro hmem
        rcases List.mem_append.mp hmem with h | h
        · exact escapedRune_no_nl hp10 b h
        · exact ih bs hlbs h
      · rw [if_neg hA]
        by_cases hw : (utf8DecodeRune (b :: bs)).2 ≤ 1
        · rw [if_pos hw]
          intro hmem
          rcases List.mem_append.mp hmem with h | h
          · revert h
            simp [hexDigits2, ten_ne_lowerHexDigit]
          · exact ih bs hlbs h
        · rw [if_neg hw]
          intro hmem
          rcases List.mem_append.mp hmem with h | h
          · exact escapedRune_no_nl hp10 _ h
          · refine ih (List.drop ((utf8DecodeRune (b :: bs)).2 - 1) bs) ?_ h
            simp only [List.length_drop]
            omega

theorem goQuote_no_nl {ip : Nat → Bool} (hp10 : ip 10 = false)
    (s : List Nat) : (10 : Nat) ∉ goQuote ip s := by
  unfold goQuote
  intro hmem
  rcases List.mem_cons.mp hmem with h | h
  · cases h
  · rcases List.mem_append.mp h with h | h
    · exact quoteBody_no_nl hp10 s.length s (Nat.le_refl _) h
    · simp at h

theorem goQuote_getLast {ip : Nat → Bool} (s : List Nat) :
    (goQuote ip s).getLast? = some 34 := by
  unfold goQuote
  rw [show (34 :: (quoteBody ip s ++ [34]))
      = (34 :: quoteBody ip s) ++ [34] from rfl]
  exact getLast?_snoc _ _

/-- The decimal digit characters of a natural number, most significant
first (the digits `fmt.Sprintf("%d", ...)` produces for a non-negative
value). -/
def natDigits (n : Nat) : List Nat :=
  if h : n < 10 then [48 + n] else natDigits (n / 10) ++ [48 + n % 10]
termination_by n
decreasing_by omega

/-- Go `fmt.Sprintf("%d", o)` for an `int64` offset: an optional minus
sign followed by the decimal digits of the absolute value. -/
def formatInt (o : Int) : List Nat :=
  if o < 0 then 45 :: natDigits (-o).toNat else natDigits o.toNat

/-- The digit-accumulation loop of Go `strconv.ParseUint` in base 10:
fails on a non-digit character; the caller checks the range. -/
def parseDigitsAcc : Nat → List Nat → Option Nat
  | acc, [] => some acc
  | acc, c :: cs =>
    if 48 ≤ c ∧ c ≤ 57 then parseDigitsAcc (acc * 10 + (c - 48)) cs else none

/-- The body of Go `strconv.ParseInt(s, 10, 64)` after the sign has been
stripped: at least one digit, all characters digits, and the value
within `int64` range (`≤ 2^63` when negated, `< 2^63` otherwise). -/
def goParseIntCore (neg : Bool) (digits : List Nat) : Option Int :=
  match digits with
  | [] => none
  | _ :: _ =>
    match parseDigitsAcc 0 digits with
    | none => none
    | some un =>
      if neg then (if 2 ^ 63 < un then none else some (-(un : Int)))
      else (if 2 ^ 63 ≤ un then none else some ((un : Int)))

/-- Go `strconv.ParseInt(s, 10, 64)`: empty input is an error; a leading
`+` or `-` is stripped; the rest must be decimal digits within range. -/
def goParseInt64 (s : List Nat) : Option Int :=
  match s with
  | [] => none
  | c :: cs =>
    if c = 43 then goParseIntCore false cs
    else if c = 45 then goParseIntCore true cs
    else goParseIntCore false (c :: cs)

theorem natDigits_mem : ∀ n, ∀ x ∈ natDigits n, 48 ≤ x ∧ x ≤ 57 := by
  intro n
  induction n using Nat.strong_induction_on with
  | _ n ih =>
    intro x hx
    rw [natDigits] at hx
    split at hx
    · simp at hx
      omega
    · rcases List.mem_append.mp hx with h1 | h2
      · exact ih (n / 10) (by omega) x h1
      · simp at h2
        omega

theorem natDigits_ne_nil (n : Nat) : natDigits n ≠ [] := by
  rw [natDigits]
  split
  · simp
  · simp

theorem parseDigitsAcc_natDigits :
    ∀ n acc t, parseDigitsAcc acc (natDigits n ++ t)
      = parseDigitsAcc (acc * 10 ^ (natDigits n).length + n) t := by
  intro n
  induction n using Nat.strong_induction_on with
  | _ n ih =>
    intro acc t
    rw [natDigits]
    split
    next h =>
      simp only [List.cons_append, List.nil_append, parseDigitsAcc,
        List.length_cons, List.length_nil]
      rw [if_pos (by omega)]
      have : acc * 10 + (48 + n - 48) = acc * 10 ^ (0 + 1) + n := by
        rw [pow_succ, pow_zero]
        omega
      rw [this]
      rfl
    next h =>
      rw [List.append_assoc, ih (n / 10) (by omega), List.cons_append,
        List.nil_append]
      simp only [parseDigitsAcc]
      rw [if_pos (by omega)]
      have hlen : (natDigits (n / 10) ++ [48 + n % 10]).length
          = (natDigits (n / 10)).length + 1 := by
        simp
      rw [hlen]
      have harith : (acc * 10 ^ (natDigits (n / 10)).length + n / 10) * 10
          + (48 + n % 10 - 48)
          = acc * 10 ^ ((natDigits (n / 10)).length + 1) + n := by
        rw [pow_succ]
        have hdm : n / 10 * 10 + n % 10 = n := by omega
        have : 48 + n % 10 - 48 = n % 10 := by omega
        rw [this]
        calc (acc * 10 ^ (natDigits (n / 10)).length + n / 10) * 10 + n % 10
            = acc * (10 ^ (natDigits (n / 10)).length * 10)
              + (n / 10 * 10 + n % 10) := by ring
          _ = acc * (10 ^ (natDigits (n / 10)).length * 10) + n := by
              rw [hdm]
      rw [harith]

theorem goParseInt64_formatInt (o : Int) (h1 : -(2 ^ 63) ≤ o)
    (h2 : o < 2 ^ 63) : goParseInt64 (formatInt o) = some o := by
  have hval : ∀ m : Nat, parseDigitsAcc 0 (natDigits m) = some m := by
    intro m
    have := parseDigitsAcc_natDigits m 0 []
    rw [List.append_nil] at this
    rw [this]
    simp [parseDigitsAcc]
  by_cases hneg : o < 0
  · rw [formatInt, if_pos hneg]
    show goParseInt64 (45 :: natDigits (-o).toNat) = some o
    rw [goParseInt64]
    rw [if_neg (by decide), if_pos rfl]
    unfold goParseIntCore
    split
    next heq => exact absurd heq (natDigits_ne_nil _)
    next x l heq =>
      rw [hval]
      show (if 2 ^ 63 < (-o).toNat then (none : Option Int)
          else some (-(((-o).toNat : Nat) : Int))) = some o
      rw [if_neg (by omega)]
      congr 1
      omega
  · rw [formatInt, if_neg hneg]
    obtain ⟨c, cs, hce⟩ : ∃ c cs, natDigits o.toNat = c :: cs := by
      cases hd : natDigits o.toNat with
      | nil => exact absurd hd (natDigits_ne_nil _)
      | cons c cs => exact ⟨c, cs, rfl⟩
    have hcd : 48 ≤ c ∧ c ≤ 57 := by
      have := natDigits_mem o.toNat c
      rw [hce] at this
      exact this (List.mem_cons_self _ _)
    rw [hce, goParseInt64]
    rw [if_neg (by omega), if_neg (by omega)]
    unfold goParseIntCore
    split
    next heq => cases heq
    next x l heq =>
      rw [← hce, hval]
      show (if 2 ^ 63 ≤ o.toNat then (none : Option Int)
          else some ((o.toNat : Nat) : Int)) = some o
      rw [if_neg (by omega)]
      congr 1
      omega

theorem indexByte_first_at {pre : List Nat} {b : Nat} (hpre : b ∉ pre)
    (t : List Nat) : indexByte (pre ++ b :: t) b = some pre.length := by
  induction pre with
  | nil => simp [indexByte]
  | cons x xs ih =>
    have hx : ¬ x = b := by
      intro h
      exact hpre (List.mem_cons.mpr (Or.inl h.symm))
    simp only [List.cons_append, indexByte, if_neg hx]
    show Option.map (fun x => x + 1) (indexByte (xs ++ b :: t) b)
      = some (x :: xs).length
    rw [ih (fun hm => hpre (List.mem_cons_of_mem _ hm))]
    simp [List.length_cons]

theorem formatInt_mem (o : Int) :
    ∀ x ∈ formatInt o, x = 45 ∨ (48 ≤ x ∧ x ≤ 57) := by
  intro x hx
  unfold formatInt at hx
  split at hx
  · rcases List.mem_cons.mp hx with h | h
    · exact Or.inl h
    · exact Or.inr (natDigits_mem _ x h)
  · exact Or.inr (natDigits_mem _ x hx)

theorem getLast?_append_right {α : Type} {l1 l2 : List α} (h : l2 ≠ []) :
    (l1 ++ l2).getLast? = l2.getLast? := by
  induction l1 with
  | nil => rfl
  | cons x xs ih =>
    obtain ⟨y, ys, hsh⟩ := List.exists_cons_of_ne_nil
      (show xs ++ l2 ≠ [] by simp [h])
    rw [List.cons_append, hsh, List.getLast?_cons_cons, ← hsh, ih]

/-- Go `strings.TrimRight(line, "\n")`: remove every trailing newline
byte. -/
def goTrimRightNl (l : List Nat) : List Nat :=
  (l.reverse.dropWhile (fun c => c == 10)).reverse

theorem goTrimRightNl_snoc {c : List Nat}
    (hlast : ∀ x, c.getLast? = some x → ¬ x = 10) :
    goTrimRightNl (c ++ [10]) = c := by
  unfold goTrimRightNl
  rw [List.reverse_append]
  simp only [List.reverse_cons, List.reverse_nil, List.nil_append,
    List.singleton_append]
  cases hc : c.reverse with
  | nil =>
    have : c = [] := by
      rw [← List.reverse_reverse c, hc]
      rfl
    subst this
    simp [List.dropWhile]
  | cons y ys =>
    have hy : ¬ y = 10 := by
      apply hlast
      rw [← List.head?_reverse, hc]
      rfl
    rw [show List.dropWhile (fun c => c == 10) (10 :: y :: ys)
        = List.dropWhile (fun c => c == 10) (y :: ys) by
      simp [List.dropWhile]]
    rw [show List.dropWhile (fun c => c == 10) (y :: ys) = y :: ys by
      have hb : (y == 10) = false := by simpa using hy
      simp [List.dropWhile, hb]]
    rw [← hc, List.reverse_reverse]

/-- Go `strings.SplitN(line, "\t", 2)` followed by the
`len(pair) != 2` check of `LoadIndex`: the text before the first tab and
everything after it, or failure when the line has no tab. -/
def splitFirstTab (l : List Nat) : Option (List Nat × List Nat) :=
  match indexByte l 9 with
  | none => none
  | some i => some (l.take i, l.drop (i + 1))

/-- One iteration of the `LoadIndex` entry loop: read a line through its
newline (`ReadString`), trim trailing newlines, split at the first tab,
parse the offset with `ParseInt` and the key with `Unquote`. Fails when
the stream has no newline (premature EOF), the line has no tab, or
either field is malformed. -/
def readEntry (s : List Nat) : Option (IndexEntry × List Nat) :=
  match indexByte s 10 with
  | none => none
  | some i =>
    match splitFirstTab (goTrimRightNl (s.take (i + 1))) with
    | none => none
    | some (offStr, keyStr) =>
      match goParseInt64 offStr, goUnquote keyStr with
      | some off, some key => some (⟨key, off⟩, s.drop (i + 1))
      | _, _ => none

/-- The `LoadIndex` entry loop: read `Length` entries, appending each to
the list; bytes after the last entry are not examined. -/
def readEntries : Nat → List Nat → Option (List IndexEntry)
  | 0, _ => some []
  | n + 1, s =>
    match readEntry s with
    | none => none
    | some (e, rest) =>
      match readEntries n rest with
      | none => none
      | some es => some (e :: es)

/-- The record `Index.Write` emits for one entry:
`fmt.Sprintf("%d%c%s%c", offset, '\t', strconv.Quote(key), '\n')`. -/
def entryRecord (ip : Nat → Bool) (e : IndexEntry) : List Nat :=
  formatInt e.offset ++ 9 :: (goQuote ip e.key ++ [10])

/-- The concatenated entry records `Index.Write` emits after the header
line. -/
def writeEntryLines (ip : Nat → Bool) : List IndexEntry → List Nat
  | [] => []
  | e :: es => entryRecord ip e ++ writeEntryLines ip es

theorem goQuote_ne_nil (ip : Nat → Bool) (s : List Nat) :
    goQuote ip s ≠ [] := by
  unfold goQuote
  simp

theorem readEntry_record {ip : Nat → Bool} (hp10 : ip 10 = false)
    (e : IndexEntry) (rest : List Nat)
    (hk : ∀ b ∈ e.key, b < 256)
    (ho1 : -(2 ^ 63) ≤ e.offset) (ho2 : e.offset < 2 ^ 63) :
    readEntry (entryRecord ip e ++ rest) = some (e, rest) := by
  have hstream : entryRecord ip e ++ rest
      = (formatInt e.offset ++ 9 :: goQuote ip e.key) ++ 10 :: rest := by
    simp [entryRecord, List.append_assoc]
  have hpre10 : (10 : Nat) ∉ formatInt e.offset ++ 9 :: goQuote ip e.key := by
    intro hmem
    rcases List.mem_append.mp hmem with h | h
    · rcases formatInt_mem e.offset 10 h with h' | h' <;> omega
    · rcases List.mem_cons.mp h with h' | h'
      · cases h'
      · exact goQuote_no_nl hp10 e.key h'
  have h1 : indexByte ((formatInt e.offset ++ 9 :: goQuote ip e.key)
        ++ 10 :: rest) 10
      = some (formatInt e.offset ++ 9 :: goQuote ip e.key).length :=
    indexByte_first_at hpre10 rest
  have h2 : ((formatInt e.offset ++ 9 :: goQuote ip e.key) ++ 10 :: rest).take
        ((formatInt e.offset ++ 9 :: goQuote ip e.key).length + 1)
      = (formatInt e.offset ++ 9 :: goQuote ip e.key) ++ [10] := by
    rw [List.take_append]
    rfl
  have h3 : goTrimRightNl ((formatInt e.offset ++ 9 :: goQuote ip e.key)
        ++ [10])
      = formatInt e.offset ++ 9 :: goQuote ip e.key := by
    apply goTrimRightNl_snoc
    intro x hx
    rw [getLast?_append_right (by simp)] at hx
    rw [show (9 :: goQuote ip e.key) = [9] ++ goQuote ip e.key from rfl,
      getLast?_append_right (goQuote_ne_nil ip e.key), goQuote_getLast]
      at hx
    injection hx with hx
    omega
  have hpre9 : (9 : Nat) ∉ formatInt e.offset := by
    intro hmem
    rcases formatInt_mem e.offset 9 hmem with h' | h' <;> omega
  have h4 : splitFirstTab (formatInt e.offset ++ 9 :: goQuote ip e.key)
      = some (formatInt e.offset, goQuote ip e.key) := by
    unfold splitFirstTab
    rw [indexByte_first_at hpre9]
    show some ((formatInt e.offset ++ 9 :: goQuote ip e.key).take
          (formatInt e.offset).length,
        (formatInt e.offset ++ 9 :: goQuote ip e.key).drop
          ((formatInt e.offset).length + 1))
      = some (formatInt e.offset, goQuote ip e.key)
    rw [List.take_left, List.drop_append]
    rfl
  have h5 : goParseInt64 (formatInt e.offset) = some e.offset :=
    goParseInt64_formatInt e.offset ho1 ho2
  have h6 : goUnquote (goQuote ip e.key) = some e.key :=
    goUnquote_goQuote hp10 e.key hk
  have h7 : ((formatInt e.offset ++ 9 :: goQuote ip e.key) ++ 10 :: rest).drop
        ((formatInt e.offset ++ 9 :: goQuote ip e.key).length + 1) = rest := by
    rw [List.drop_append]
    rfl
  rw [hstream]
  unfold readEntry
  simp only [h1, h2, h3, h4, h5, h6, h7]

theorem readEntries_writeEntryLines {ip : Nat → Bool} (hp10 : ip 10 = false) :
    ∀ es : List IndexEntry,
      (∀ e ∈ es, (∀ b ∈ e.key, b < 256)
        ∧ -(2 ^ 63) ≤ e.offset ∧ e.offset < 2 ^ 63) →
      readEntries es.length (writeEntryLines ip es) = some es := by
  intro es
  induction es with
  | nil => intro _; rfl
  | cons e es ih =>
    intro h
    have he := h e (List.mem_cons_self _ _)
    have hre := readEntry_record hp10 e (writeEntryLines ip es)
      he.1 he.2.1 he.2.2
    have hrec := ih (fun x hx => h x (List.mem_cons_of_mem _ hx))
    show readEntries (es.length + 1) (entryRecord ip e ++ writeEntryLines ip es)
      = some (e :: es)
    simp only [readEntries, hre, hrec]

/-- The index-file content `Index.Write` produces: `Filepath` is reset
to empty before marshalling, the JSON header line is written followed by
a newline (`recordSeparator`), then one record per entry. The JSON codec
is Go `encoding/json` — not part of this repository — so it enters as
the `marshal` parameter. -/
def writeIndexContent (ip : Nat → Bool) (marshal : Index → List Nat)
    (idx : Index) : List Nat :=
  marshal { idx with filepath := [] } ++ 10 :: writeEntryLines ip idx.list

/-- The content-level part of `LoadIndex`: read the first line through
its newline (`ReadBytes`), `json.Unmarshal` it (the codec abstracted as
`unmarshal`), apply the `Version == 0` fixup, then read `Length` entry
records. The filesystem checks of `LoadIndex` (index-file existence,
path match, epoch freshness) concern the environment, not the file
content, and are outside this model. -/
def loadIndexContent (unmarshal : List Nat → Option Index) (s : List Nat) :
    Option Index :=
  match indexByte s 10 with
  | none => none
  | some i =>
    match unmarshal (s.take (i + 1)) with
    | none => none
    | some hdr =>
      match readEntries hdr.length.toNat (s.drop (i + 1)) with
      | none => none
      | some es =>
        some { hdr with version := if hdr.version = 0 then 1 else hdr.version,
                        list := es }

/-- Claim C8: writing an index with `Write` and re-loading the file for
the same dataset yields an index whose every header field — blocksize,
delimiter, epoch, filename, header, headerFields, keysUnique,
keysIndexFirst, length, version — and every (offset, key) entry equals
the original, with arbitrary key bytes (quotes, backslashes, control
bytes, invalid UTF-8) preserved exactly. The entry records — the part of
the file carrying arbitrary bytes — are modelled down to Go's
`strconv.Quote` / `Unquote` with full UTF-8 decoding (`IsPrint`
abstracted as `ip`); the JSON header codec is Go `encoding/json` (not in
this repository), assumed to round-trip this index's header line and to
emit no raw newline. The index must have `length` equal to its entry
count, a non-zero `version`, byte-valued keys and `int64` offsets — all
true of every index `generateLineIndex` builds. -/
theorem indexWriteLoad_roundTrip (ip : Nat → Bool)
    (marshal : Index → List Nat) (unmarshal : List Nat → Option Index)
    (idx : Index)
    (hp10 : ip 10 = false)
    (hnl : (10 : Nat) ∉ marshal { idx with filepath := [] })
    (hcodec : unmarshal (marshal { idx with filepath := [] } ++ [10])
      = some { idx with filepath := [], list := [] })
    (hver : ¬ idx.version = 0)
    (hlen : idx.length = (idx.list.length : Int))
    (hentries : ∀ e ∈ idx.list, (∀ b ∈ e.key, b < 256)
      ∧ -(2 ^ 63) ≤ e.offset ∧ e.offset < 2 ^ 63) :
    ∃ out, loadIndexContent unmarshal (writeIndexContent ip marshal idx)
        = some out
      ∧ out.blocksize = idx.blocksize
      ∧ out.delimiter = idx.delimiter
      ∧ out.epoch = idx.epoch
      ∧ out.filename = idx.filename
      ∧ out.header = idx.header
      ∧ out.headerFields = idx.headerFields
      ∧ out.keysUnique = idx.keysUnique
      ∧ out.keysIndexFirst = idx.keysIndexFirst
      ∧ out.length = idx.length
      ∧ out.version = idx.version
      ∧ out.list = idx.list := by
  have h1 : indexByte (marshal { idx with filepath := [] }
        ++ 10 :: writeEntryLines ip idx.list) 10
      = some (marshal { idx with filepath := [] }).length :=
    indexByte_first_at hnl _
  have h2 : (marshal { idx with filepath := [] }
        ++ 10 :: writeEntryLines ip idx.list).take
        ((marshal { idx with filepath := [] }).length + 1)
      = marshal { idx with filepath := [] } ++ [10] := by
    rw [List.take_append]
    rfl
  have h7 : (marshal { idx with filepath := [] }
        ++ 10 :: writeEntryLines ip idx.list).drop
        ((marshal { idx with filepath := [] }).length + 1)
      = writeEntryLines ip idx.list := by
    rw [List.drop_append]
    rfl
  have h4 : readEntries idx.length.toNat (writeEntryLines ip idx.list)
      = some idx.list := by
    rw [hlen, Int.toNat_natCast]
    exact readEntries_writeEntryLines hp10 idx.list hentries
  have hv : (if idx.version = 0 then 1 else idx.version) = idx.version := by
    rw [if_neg hver]
  have hout : loadIndexContent unmarshal (writeIndexContent ip marshal idx)
      = some { idx with
               filepath := [],
               version := if idx.version = 0 then 1 else idx.version,
               list := idx.list } := by
    unfold writeIndexContent loadIndexContent
    simp only [h1, h2, hcodec, h7, h4]
  exact ⟨_, hout, rfl, rfl, rfl, rfl, rfl, rfl, rfl, rfl, rfl, hv, rfl⟩

/-- A concrete printable table for the C8 witness: ASCII printables. -/
def c8Ip : Nat → Bool := fun r => decide (32 ≤ r ∧ r < 127)

/-- The C8 witness index: two entries, the first with a key holding a
quote, a backslash, a NUL byte and an invalid UTF-8 byte `0xFF`. -/
def c8Idx : Index :=
  { blocksize := 2048, delimiter := [44], epoch := 5,
    filepath := [47, 100], filename := [100], header := false,
    keysIndexFirst := true, keysUnique := true, length := 2,
    list := [⟨[34, 92, 0, 255], 0⟩, ⟨[97], 9⟩], version := 4,
    headerFields := [] }

/-- A trivial header codec for the C8 witness (the JSON header line is
empty and decodes back to the witness index's header fields). -/
def c8Marshal : Index → List Nat := fun _ => []

/-- Inverse of `c8Marshal` on the witness header line. -/
def c8Unmarshal : List Nat → Option Index := fun s =>
  if s = [10] then some { c8Idx with filepath := [], list := [] } else none

/-- Witness for C8: the two-entry index with a quote, a backslash, a NUL
and an invalid UTF-8 byte in a key survives the write/load round trip
with every header field and every entry intact. -/
theorem indexWriteLoad_roundTrip_witness :
    ∃ out, loadIndexContent c8Unmarshal
        (writeIndexContent c8Ip c8Marshal c8Idx) = some out
      ∧ out.blocksize = c8Idx.blocksize
      ∧ out.delimiter = c8Idx.delimiter
      ∧ out.epoch = c8Idx.epoch
      ∧ out.filename = c8Idx.filename
      ∧ out.header = c8Idx.header
      ∧ out.headerFields = c8Idx.headerFields
      ∧ out.keysUnique = c8Idx.keysUnique
      ∧ out.keysIndexFirst = c8Idx.keysIndexFirst
      ∧ out.length = c8Idx.length
      ∧ out.version = c8Idx.version
      ∧ out.list = c8Idx.list :=
  indexWriteLoad_roundTrip c8Ip c8Marshal c8Unmarshal c8Idx
    (by decide) (by decide) (by rfl) (by decide) (by decide) (by decide)
